import Mathlib

/-!
# Matlab wrapper generation for overloaded global functions

A shallow embedding of `wrap/Qualified.h` and `wrap/GlobalFunction.cpp`, followed by
theorems about the embedded code.

Conventions of the embedding.

* `std::vector<T>` is `List T`; `push_back` appends at the end.
* `std::string` is `String`; `+` is `++`.
* An output stream (`FileWriter::oss`) is the list of the values written to it, one
  `Chunk` per operand of `<<`.  The code generators of `ArgumentList` and `ReturnValue`
  live outside these two files; a call to one of them on a stream is recorded in the
  stream as a chunk that carries the arguments of the call.
* `std::map<std::string, GlobalFunction>` is an association list kept in strictly
  ascending key order, which is the order in which `BOOST_FOREACH` visits it.
* A C++ exception, or a read that C++ leaves undefined, is an `Error`.
* A `size_t` is a natural number.  An `int` is an integer of 32 bits: the conversion
  `const int id = functionNames.size()` is `toInt`, which keeps the size modulo `2^32`,
  read in two's complement.
-/

namespace wrap

/-! ## Qualified.h -/

/-- Class to encapsulate a qualified name, i.e., with (nested) namespaces. -/
structure Qualified where
  /-- Stack of namespaces, outermost first. -/
  namespaces : List String
  /-- The type (leaf) name. -/
  name : String
deriving DecidableEq

namespace Qualified

/-- The method `Qualified::empty`. -/
def empty (q : Qualified) : Bool :=
  q.namespaces.isEmpty && decide (q.name = "")

/-- The method `Qualified::qualifiedName(delimiter)`: a qualified string using the given
delimiter. The loop appends `namespaces[i] + delimiter` to `result` for each `i`. -/
def qualifiedName (q : Qualified) (delimiter : String) : String :=
  q.namespaces.foldl (fun result ns => result ++ (ns ++ delimiter)) "" ++ q.name

/-- The method `Qualified::matlabName(toolboxPath)`: a matlab file name, i.e.
`toolboxPath/+ns1/+ns2/name.m`. -/
def matlabName (q : Qualified) (toolboxPath : String) : String :=
  q.namespaces.foldl (fun result ns => result ++ ("/+" ++ ns)) toolboxPath
    ++ ("/" ++ q.name ++ ".m")

end Qualified

/-! ## Collaborators declared outside the two source files -/

/-- Modelled from the spec: the free function `qualifiedName(separator, names)` of
`utilities.h`, which is not among the sources. The spec gives the bucket key as "the
concatenation of its namespace segments with an empty delimiter", and the call site
(line 45) says "use concatenated namespaces as key"; the segments are joined with the
separator between them. -/
def qualifiedName (separator : String) : List String → String
  | [] => ""
  | [n] => n
  | n :: m :: rest => n ++ separator ++ qualifiedName separator (m :: rest)

/-- Modelled from the spec: one typed parameter of an argument list (`Argument.h` is not
among the sources). -/
structure Argument where
  /-- The type of the parameter. -/
  type : String
  /-- The name of the parameter. -/
  name : String
deriving DecidableEq

/-- Modelled from the spec: an `ArgumentList` is an "ordered sequence of typed
parameters"; `size()` is its length. -/
abbrev ArgumentList := List Argument

/-- Modelled from the spec: a `ReturnValue` is an "opaque descriptor of a result type, with
a distinguished void sentinel"; the code reads `type1.name` only. -/
structure ReturnValue where
  /-- The (first) returned type. -/
  type1 : Qualified
deriving DecidableEq

/-- Modelled from the spec: the type-attribute lookup table, which the code only passes
on to `ReturnValue::wrap_result`. -/
structure TypeAttributesTable where
  /-- The names of the types the table knows. -/
  entries : List String
deriving DecidableEq

/-- One value written to an output stream. -/
inductive Chunk where
  /-- A string written with `<<`. -/
  | text (s : String)
  /-- A `size_t` written with `<<`. -/
  | size (n : Nat)
  /-- The manipulator `endl`. -/
  | endl
  /-- The call `args.emit_conditional_call(stream, returnVal, wrapperName, id, staticcall)`. -/
  | emit_conditional_call (args : ArgumentList) (returnVal : ReturnValue)
      (wrapperName : String) (id : Int) (staticcall : Bool)
  /-- The call `returnVal.wrapTypeUnwrap(stream)`. -/
  | wrapTypeUnwrap (returnVal : ReturnValue)
  /-- The call `args.matlab_unwrap(stream, start)`. -/
  | matlab_unwrap (args : ArgumentList) (start : Nat)
  /-- The call `returnVal.wrap_result(result, stream, typeAttributes)`. -/
  | wrap_result (returnVal : ReturnValue) (result : String)
      (typeAttributes : TypeAttributesTable)
deriving DecidableEq

/-- Modelled from the spec: the "buffered text-sink abstraction" `FileWriter`
(`FileWriter.h` is not among the sources), reduced to its constructor arguments and its
stream `oss`. -/
structure FileWriter where
  /-- The destination file. -/
  filename : String
  /-- The verbosity flag. -/
  verbose : Bool
  /-- The comment marker of the target language. -/
  comment_str : String
  /-- Everything written to `oss` so far, in order. -/
  oss : List Chunk
deriving DecidableEq

/-- The statement `w.oss << c₁ << c₂ << ...`. -/
def FileWriter.write (w : FileWriter) (cs : List Chunk) : FileWriter :=
  { w with oss := w.oss ++ cs }

/-- What a C++ statement of the embedded code can raise. -/
inductive Error where
  /-- A `std::runtime_error` with its message. -/
  | runtime_error (what : String)
  /-- The `std::out_of_range` of `vector::at`. -/
  | out_of_range
  /-- A read that C++ leaves undefined: `front()` of an empty vector, `v[i]` past the
  end. -/
  | undefined
deriving DecidableEq

/-- The call `v.at(i)`. -/
def vectorAt {α : Type} (v : List α) (i : Nat) : Except Error α :=
  match v[i]? with
  | some x => .ok x
  | none => .error .out_of_range

/-- The expression `v[i]`. -/
def vectorIndex {α : Type} (v : List α) (i : Nat) : Except Error α :=
  match v[i]? with
  | some x => .ok x
  | none => .error .undefined

/-- The call `v.front()`. -/
def vectorFront {α : Type} (v : List α) : Except Error α :=
  match v with
  | x :: _ => .ok x
  | [] => .error .undefined

/-- The comparison `compare(a, b) < 0` of `std::char_traits<char>` on two character
sequences: lexicographic, a proper prefix being smaller. -/
def lexLess : List Char → List Char → Bool
  | _, [] => false
  | [], _ :: _ => true
  | a :: as, b :: bs => if a < b then true else if b < a then false else lexLess as bs

/-- The operator `<` of `std::string`, which orders the keys of a `std::map`. -/
def stringLess (a b : String) : Bool := lexLess a.data b.data

/-- The conversion of a `size_t` to `int`, as in `const int id = functionNames.size()`:
the value modulo `2^32`, read as a 32-bit number in two's complement. A size below `2^31`
is kept; the size `2^31` becomes `-2147483648`. -/
def toInt (size : Nat) : Int :=
  if size % 4294967296 < 2147483648 then Int.ofNat (size % 4294967296)
  else Int.negSucc (4294967295 - size % 4294967296)

/-- The call `boost::lexical_cast<string>(id)` on an `int`: its decimal digits, after a
minus sign when it is negative. -/
def lexical_cast (id : Int) : String :=
  match id with
  | .ofNat n => Nat.repr n
  | .negSucc n => "-" ++ Nat.repr (n + 1)

/-! ## GlobalFunction -/

/-- Modelled from the spec: the data members of `struct GlobalFunction`
(`GlobalFunction.h` is not among the sources): "a short name and a verbosity flag, holding
three parallel ordered sequences (argument lists, return values, qualified names)". -/
structure GlobalFunction where
  /-- The verbosity flag. -/
  verbose_ : Bool
  /-- The short name of the function. -/
  name : String
  /-- The arguments of each overload. -/
  argLists : List ArgumentList
  /-- The return value of each overload. -/
  returnVals : List ReturnValue
  /-- The qualified name of each overload. -/
  overloads : List Qualified
deriving DecidableEq

namespace GlobalFunction

/-- The constructor call `GlobalFunction(name, verbose)`: no overloads yet. -/
def new (name : String) (verbose : Bool) : GlobalFunction :=
  { verbose_ := verbose, name := name, argLists := [], returnVals := [], overloads := [] }

/-- Modelled from the spec: the default-constructed `GlobalFunction()` that
`std::map::operator[]` inserts for a missing key: an unnamed group without overloads. -/
def fresh : GlobalFunction := new "" true

/-- The message of the exception of `addOverload`. -/
def mismatch (overload : Qualified) (name : String) : String :=
  "GlobalFunction::addOverload: tried to add overload with name "
    ++ overload.name ++ " instead of expected " ++ name

/-- The method `GlobalFunction::addOverload(verbose, overload, args, retVal)`. The result
is the outcome of the call together with the object as the call leaves it. -/
def addOverload (g : GlobalFunction) (verbose : Bool) (overload : Qualified)
    (args : ArgumentList) (retVal : ReturnValue) : Except Error Unit × GlobalFunction :=
  let appended (g : GlobalFunction) : Except Error Unit × GlobalFunction :=
    (.ok (),
      { g with
        verbose_ := verbose
        argLists := g.argLists ++ [args]
        returnVals := g.returnVals ++ [retVal]
        overloads := g.overloads ++ [overload] })
  if g.name = "" then
    appended { g with name := overload.name }
  else if overload.name ≠ g.name then
    (.error (.runtime_error (mismatch overload g.name)), g)
  else
    appended g

end GlobalFunction

/-- The type `GlobalFunctionMap`, a `map<string, GlobalFunction>`: the entries in
ascending key order. -/
abbrev GlobalFunctionMap := List (String × GlobalFunction)

namespace GlobalFunctionMap

/-- The call `m.count(key)`. -/
def count (m : GlobalFunctionMap) (key : String) : Nat :=
  if key ∈ m.map Prod.fst then 1 else 0

/-- The expression `m[key]` used as an lvalue and then changed by `f`: the entry of `key`
is looked up, inserted at its place in key order as a default-constructed group when
missing, and `f` is applied to it. -/
def modify (f : GlobalFunction → GlobalFunction) (key : String) :
    GlobalFunctionMap → GlobalFunctionMap
  | [] => [(key, f GlobalFunction.fresh)]
  | (k, v) :: rest =>
      if stringLess key k then (key, f GlobalFunction.fresh) :: (k, v) :: rest
      else if key = k then (k, f v) :: rest
      else (k, v) :: modify f key rest

end GlobalFunctionMap

/-- Everything a generation pass has produced so far. -/
structure Pass where
  /-- The shared native-wrapper file `file`. -/
  file : FileWriter
  /-- The registry `functionNames` of generated wrapper names. -/
  functionNames : List String
  /-- The dispatch scripts closed with `emit(true)`, oldest first. -/
  mfiles : List FileWriter
  /-- The calls `createNamespaceStructure(namespaces, toolboxPath)`, oldest first. -/
  folders : List (List String × String)
deriving DecidableEq

/-- The state the overload loop of `generateSingleFunction` works on. -/
structure Emission where
  /-- The dispatch script being written. -/
  mfunctionFile : FileWriter
  /-- The shared native-wrapper file. -/
  file : FileWriter
  /-- The registry of generated wrapper names. -/
  functionNames : List String
deriving DecidableEq

namespace GlobalFunction

/-- The body of the loop of `generateSingleFunction` (lines 88-130) for the overload of
index `overload`, with `args = argLists[overload]` and `returnVal = returnVals[overload]`.
`names` is the method `ArgumentList::names`, which is not among the sources. -/
def wrapOverload (names : ArgumentList → String) (wrapperName : String)
    (typeAttributes : TypeAttributesTable) (matlabUniqueName cppName : String)
    (overload : Nat) (args : ArgumentList) (returnVal : ReturnValue) (s : Emission) :
    Emission :=
  let id := toInt s.functionNames.length
  -- Output proxy matlab code
  let mfunctionFile := s.mfunctionFile.write
    [.text "      ", .text (if overload = 0 then "" else "else")]
  let mfunctionFile := mfunctionFile.write
    [.emit_conditional_call args returnVal wrapperName id true]
  -- Output C++ wrapper code
  let wrapFunctionName := matlabUniqueName ++ "_" ++ lexical_cast id
  -- call
  let file := s.file.write
    [.text "void ", .text wrapFunctionName,
      .text "(int nargout, mxArray *out[], int nargin, const mxArray *in[])\n"]
  -- start
  let file := file.write [.text "\x7b\n"]
  let file := file.write [.wrapTypeUnwrap returnVal]
  -- check arguments
  let file := file.write
    [.text "  checkArguments(\"", .text matlabUniqueName, .text "\",nargout,nargin,",
      .size args.length, .text ");\n"]
  -- unwrap arguments
  let file := file.write [.matlab_unwrap args 0]
  -- call method with default type and wrap result
  let file :=
    if returnVal.type1.name ≠ "void" then
      file.write [.wrap_result returnVal (cppName ++ "(" ++ names args ++ ")") typeAttributes]
    else
      file.write [.text (cppName ++ "(" ++ names args ++ ");\n")]
  -- finish
  let file := file.write [.text "\x7d\n"]
  -- Add to function list
  { mfunctionFile := mfunctionFile
    file := file
    functionNames := s.functionNames ++ [wrapFunctionName] }

/-- The loop `for (overload = 0; overload < argLists.size(); ++overload)` of
`generateSingleFunction`, from index `overload` on; the first argument list is
`argLists[overload]`. -/
def wrapOverloads (names : ArgumentList → String) (wrapperName : String)
    (typeAttributes : TypeAttributesTable) (matlabUniqueName cppName : String)
    (returnVals : List ReturnValue) :
    List ArgumentList → Nat → Emission → Except Error Emission
  | [], _, s => .ok s
  | args :: rest, overload, s => do
      let returnVal ← vectorIndex returnVals overload
      wrapOverloads names wrapperName typeAttributes matlabUniqueName cppName returnVals
        rest (overload + 1)
        (wrapOverload names wrapperName typeAttributes matlabUniqueName cppName
          overload args returnVal s)

/-- The method `GlobalFunction::generateSingleFunction(toolboxPath, wrapperName,
typeAttributes, file, functionNames)`; `file` and `functionNames` are in the pass. -/
def generateSingleFunction (names : ArgumentList → String) (g : GlobalFunction)
    (toolboxPath wrapperName : String) (typeAttributes : TypeAttributesTable)
    (p : Pass) : Except Error Pass := do
  -- create the folder for the namespace
  let overload1 ← vectorFront g.overloads
  let folders := p.folders ++ [(overload1.namespaces, toolboxPath)]
  -- open destination mfunctionFileName
  let mfunctionFileName := overload1.matlabName toolboxPath
  let mfunctionFile : FileWriter :=
    { filename := mfunctionFileName, verbose := g.verbose_, comment_str := "%", oss := [] }
  -- get the name of actual matlab object
  let matlabQualName := overload1.qualifiedName "."
  let matlabUniqueName := overload1.qualifiedName ""
  let cppName := overload1.qualifiedName "::"
  let mfunctionFile := mfunctionFile.write
    [.text "function varargout = ", .text g.name, .text "(varargin)\n"]
  let s ← wrapOverloads names wrapperName typeAttributes matlabUniqueName cppName
    g.returnVals g.argLists 0
    { mfunctionFile := mfunctionFile, file := p.file, functionNames := p.functionNames }
  let mfunctionFile := s.mfunctionFile.write [.text "      else\n"]
  let mfunctionFile := mfunctionFile.write
    [.text "        error('Arguments do not match any overload of function ",
      .text matlabQualName, .text "');", .endl]
  let mfunctionFile := mfunctionFile.write [.text "      end", .endl]
  -- Close file
  pure
    { file := s.file
      functionNames := s.functionNames
      mfiles := p.mfiles ++ [mfunctionFile]
      folders := folders }

/-- The first loop of `matlab_proxy` (lines 43-56), from index `i` on; the first qualified
name is `overloads.at(i)`. -/
def cluster (g : GlobalFunction) :
    List Qualified → Nat → GlobalFunctionMap → Except Error GlobalFunctionMap
  | [], _, grouped_functions => .ok grouped_functions
  | overload :: rest, i, grouped_functions => do
      -- use concatenated namespaces as key
      let str_ns := qualifiedName "" overload.namespaces
      let ret ← vectorAt g.returnVals i
      let args ← vectorAt g.argLists i
      let grouped_functions :=
        if grouped_functions.count str_ns = 0 then
          grouped_functions.modify (fun _ => GlobalFunction.new g.name g.verbose_) str_ns
        else grouped_functions
      let grouped_functions :=
        grouped_functions.modify (fun f => { f with argLists := f.argLists ++ [args] }) str_ns
      let grouped_functions :=
        grouped_functions.modify (fun f => { f with returnVals := f.returnVals ++ [ret] })
          str_ns
      let grouped_functions :=
        grouped_functions.modify (fun f => { f with overloads := f.overloads ++ [overload] })
          str_ns
      cluster g rest (i + 1) grouped_functions

/-- The second loop of `matlab_proxy` (lines 59-64) over the entries still to visit. -/
def generateAll (names : ArgumentList → String) (toolboxPath wrapperName : String)
    (typeAttributes : TypeAttributesTable) :
    GlobalFunctionMap → Nat → Pass → Except Error Pass
  | [], _, p => .ok p
  | entry :: rest, lastcheck, p => do
      let p ← entry.2.generateSingleFunction names toolboxPath wrapperName typeAttributes p
      let lastcheck := lastcheck - 1
      let p := if lastcheck ≠ 0 then { p with file := p.file.write [.endl] } else p
      generateAll names toolboxPath wrapperName typeAttributes rest lastcheck p

/-- The method `GlobalFunction::matlab_proxy(toolboxPath, wrapperName, typeAttributes,
file, functionNames)`; `file` and `functionNames` are in the pass. -/
def matlab_proxy (names : ArgumentList → String) (g : GlobalFunction)
    (toolboxPath wrapperName : String) (typeAttributes : TypeAttributesTable)
    (p : Pass) : Except Error Pass := do
  -- cluster overloads with same namespace
  let grouped_functions ← cluster g g.overloads 0 []
  let lastcheck := grouped_functions.length
  generateAll names toolboxPath wrapperName typeAttributes grouped_functions lastcheck p

end GlobalFunction

/-! ## Sequences of calls -/

/-- One call of `addOverload`, by its arguments. -/
structure Call where
  /-- The argument `verbose`. -/
  verbose : Bool
  /-- The argument `overload`. -/
  overload : Qualified
  /-- The argument `args`. -/
  args : ArgumentList
  /-- The argument `retVal`. -/
  retVal : ReturnValue
deriving DecidableEq

/-- The group after the calls of `addOverload` in the list, made in order on `g`; a call
that throws leaves the group as the call left it and the next call is made. -/
def addOverloads (g : GlobalFunction) : List Call → GlobalFunction
  | [] => g
  | c :: cs => addOverloads (g.addOverload c.verbose c.overload c.args c.retVal).2 cs

/-- The calls of the list that return normally when the list is replayed on `g`. -/
def accepted (g : GlobalFunction) : List Call → List Call
  | [] => []
  | c :: cs =>
      match g.addOverload c.verbose c.overload c.args c.retVal with
      | (.ok _, g') => c :: accepted g' cs
      | (.error _, g') => accepted g' cs

/-! ## The output of the loops, described -/

/-- One iteration of the overload loop of `generateSingleFunction`, by the values the
loop body reads. -/
structure Slot where
  /-- The first qualified name `overload1` of the group the loop runs on. -/
  first : Qualified
  /-- The loop index `overload`. -/
  overload : Nat
  /-- The size of the registry when the iteration starts, which is the index at which
  the iteration pushes its name. -/
  index : Nat
  /-- The argument list `argLists[overload]`. -/
  args : ArgumentList
  /-- The return value `returnVals[overload]`. -/
  returnVal : ReturnValue
deriving DecidableEq

namespace Slot

/-- The value `id` of the iteration (line 91): the size of the registry, as an `int`. -/
def id (e : Slot) : Int := toInt e.index

/-- The value of `wrapFunctionName` in the iteration (lines 100-101). -/
def wrapFunctionName (e : Slot) : String :=
  e.first.qualifiedName "" ++ "_" ++ lexical_cast e.id

/-- What the iteration writes to the dispatch script (lines 94-96). -/
def branch (wrapperName : String) (e : Slot) : List Chunk :=
  [.text "      ", .text (if e.overload = 0 then "" else "else"),
    .emit_conditional_call e.args e.returnVal wrapperName e.id true]

/-- The call statement of the wrapper (lines 120-124). -/
def invocation (names : ArgumentList → String) (typeAttributes : TypeAttributesTable)
    (e : Slot) : Chunk :=
  if e.returnVal.type1.name ≠ "void" then
    .wrap_result e.returnVal (e.first.qualifiedName "::" ++ "(" ++ names e.args ++ ")")
      typeAttributes
  else
    .text (e.first.qualifiedName "::" ++ "(" ++ names e.args ++ ");\n")

/-- What the iteration writes to the shared wrapper file (lines 104-127): one wrapper
function. -/
def wrapper (names : ArgumentList → String) (typeAttributes : TypeAttributesTable)
    (e : Slot) : List Chunk :=
  [.text "void ", .text e.wrapFunctionName,
    .text "(int nargout, mxArray *out[], int nargin, const mxArray *in[])\n",
    .text "\x7b\n",
    .wrapTypeUnwrap e.returnVal,
    .text "  checkArguments(\"", .text (e.first.qualifiedName ""),
    .text "\",nargout,nargin,", .size e.args.length, .text ");\n",
    .matlab_unwrap e.args 0,
    e.invocation names typeAttributes,
    .text "\x7d\n"]

end Slot

/-- The iterations of the overload loop from index `overload` on, the registry holding
`id` names, over the argument lists and return values still to visit. -/
def slots (first : Qualified) :
    List ArgumentList → List ReturnValue → Nat → Nat → List Slot
  | args :: argLists, returnVal :: returnVals, overload, id =>
      { first := first, overload := overload, index := id, args := args,
        returnVal := returnVal } :: slots first argLists returnVals (overload + 1) (id + 1)
  | _, _, _, _ => []

/-- The qualified name `overloads.front()` of a group that has an overload. -/
def GlobalFunction.overload1 (b : GlobalFunction) : Qualified :=
  b.overloads.headD { namespaces := [], name := "" }

/-- The iterations of the overload loop of `generateSingleFunction` on the group `b`, the
registry holding `id` names. -/
def bucketSlots (b : GlobalFunction) (id : Nat) : List Slot :=
  slots b.overload1 b.argLists b.returnVals 0 id

/-- The dispatch script that `generateSingleFunction` closes for the group `b` whose loop
iterations are `es`. -/
def dispatchScript (toolboxPath wrapperName : String) (b : GlobalFunction)
    (es : List Slot) : FileWriter :=
  { filename := b.overload1.matlabName toolboxPath
    verbose := b.verbose_
    comment_str := "%"
    oss :=
      [.text "function varargout = ", .text b.name, .text "(varargin)\n"]
        ++ es.flatMap (Slot.branch wrapperName)
        ++ [.text "      else\n",
            .text "        error('Arguments do not match any overload of function ",
            .text (b.overload1.qualifiedName "."), .text "');", .endl,
            .text "      end", .endl] }

/-- The iterations of the overload loops of `matlab_proxy`, one list for each entry of the
map in the order visited, the registry holding `id` names at the start. -/
def allSlots : GlobalFunctionMap → Nat → List (List Slot)
  | [], _ => []
  | entry :: rest, id =>
      bucketSlots entry.2 id :: allSlots rest (id + (bucketSlots entry.2 id).length)

/-- What the second loop of `matlab_proxy` writes to the shared wrapper file: the
wrappers of each entry, and `endl` after them while the decremented `lastcheck` is not
zero. -/
def allWrappers (names : ArgumentList → String) (typeAttributes : TypeAttributesTable) :
    List (List Slot) → Nat → List Chunk
  | [], _ => []
  | es :: rest, lastcheck =>
      es.flatMap (Slot.wrapper names typeAttributes)
        ++ (if lastcheck - 1 ≠ 0 then [.endl] else [])
        ++ allWrappers names typeAttributes rest (lastcheck - 1)

/-- Both data-model invariants on lengths: the three sequences are equally long. -/
def GlobalFunction.Aligned (g : GlobalFunction) : Prop :=
  g.argLists.length = g.overloads.length ∧ g.returnVals.length = g.overloads.length

instance (g : GlobalFunction) : Decidable g.Aligned := by
  unfold GlobalFunction.Aligned; infer_instance

/-! ## The first loop of matlab_proxy, described -/

/-- The key `str_ns` under which `matlab_proxy` files an overload: its namespaces joined
with the empty separator. -/
def bucketKey (overload : Qualified) : String :=
  qualifiedName "" overload.namespaces

/-- The group stored under `key`, when the map has one. -/
def GlobalFunctionMap.find : GlobalFunctionMap → String → Option GlobalFunction
  | [], _ => none
  | (k, v) :: rest, key => if key = k then some v else find rest key

/-- The keys grow strictly from each entry to the next, in the order of `std::string`. -/
def GlobalFunctionMap.Ascending (m : GlobalFunctionMap) : Prop :=
  m.Pairwise (fun a b => stringLess a.1 b.1 = true)

/-- One overload with its argument list and its return value. -/
abbrev Overload := Qualified × ArgumentList × ReturnValue

/-- The overloads of a group: the entries of its three sequences, index by index. -/
def GlobalFunction.triples (g : GlobalFunction) : List Overload :=
  List.zip g.overloads (List.zip g.argLists g.returnVals)

/-- The group `b` after the given overloads have been pushed on its three sequences. -/
def GlobalFunction.extend (b : GlobalFunction) (os : List Overload) : GlobalFunction :=
  { b with
    argLists := b.argLists ++ os.map (fun o => o.2.1)
    returnVals := b.returnVals ++ os.map (fun o => o.2.2)
    overloads := b.overloads ++ os.map (fun o => o.1) }

/-- One iteration of the first loop of `matlab_proxy` (lines 50-55) on the map, for the
overload read at lines 44-48. -/
def clusterStep (name : String) (verbose : Bool) (m : GlobalFunctionMap) (o : Overload) :
    GlobalFunctionMap :=
  let m1 :=
    if m.count (bucketKey o.1) = 0 then
      m.modify (fun _ => GlobalFunction.new name verbose) (bucketKey o.1)
    else m
  let m2 := m1.modify (fun f => { f with argLists := f.argLists ++ [o.2.1] }) (bucketKey o.1)
  let m3 := m2.modify (fun f => { f with returnVals := f.returnVals ++ [o.2.2] })
    (bucketKey o.1)
  m3.modify (fun f => { f with overloads := f.overloads ++ [o.1] }) (bucketKey o.1)

/-- Whether the chunk is a call of `emit_conditional_call`, i.e. a dispatch branch. -/
def Chunk.isCall : Chunk → Bool
  | .emit_conditional_call _ _ _ _ _ => true
  | _ => false

/-- Whether the chunk is the manipulator `endl`. -/
def Chunk.isEndl : Chunk → Bool
  | .endl => true
  | _ => false

/-- The dispatch branch that `emit_conditional_call` is asked for in the iteration. -/
def Slot.call (wrapperName : String) (e : Slot) : Chunk :=
  .emit_conditional_call e.args e.returnVal wrapperName e.id true

/-! ## Example inputs -/

/-- An instance of `ArgumentList::names`: the names of the parameters, separated by
commas. -/
def commaNames (args : ArgumentList) : String :=
  ",".intercalate (args.map Argument.name)

/-- The return value of a function returning `void`. -/
def voidReturn : ReturnValue := { type1 := { namespaces := [], name := "void" } }

/-- The return value of a function returning `double`. -/
def doubleReturn : ReturnValue := { type1 := { namespaces := [], name := "double" } }

/-- A type-attribute table without entries. -/
def noAttributes : TypeAttributesTable := { entries := [] }

/-- A pass that has produced nothing yet: empty wrapper file, empty registry, no
script. -/
def freshPass : Pass :=
  { file := { filename := "toolbox_wrapper.cpp", verbose := false, comment_str := "//",
              oss := [] }
    functionNames := [], mfiles := [], folders := [] }

/-- A pass whose registry already holds the names of two wrappers. -/
def laterPass : Pass :=
  { freshPass with functionNames := ["Point2_0", "Point2_1"] }

/-- Example 1 of the spec: `foo(int)` and `foo(double)`, both in namespace `m`. -/
def fooGroup : GlobalFunction :=
  { verbose_ := true
    name := "foo"
    argLists := [[{ type := "int", name := "n" }], [{ type := "double", name := "x" }]]
    returnVals := [voidReturn, doubleReturn]
    overloads := [{ namespaces := ["m"], name := "foo" }, { namespaces := ["m"], name := "foo" }] }

/-- Example 2 of the spec: `bar()` in namespace `a` and `bar()` in namespace `b`. -/
def barGroup : GlobalFunction :=
  { verbose_ := true
    name := "bar"
    argLists := [[], []]
    returnVals := [voidReturn, voidReturn]
    overloads := [{ namespaces := ["a"], name := "bar" }, { namespaces := ["b"], name := "bar" }] }

/-- The functions `ab::c::f` and `a::bc::f`: two namespace paths with the same
concatenation. -/
def aliasGroup : GlobalFunction :=
  { verbose_ := true
    name := "f"
    argLists := [[], []]
    returnVals := [voidReturn, voidReturn]
    overloads :=
      [{ namespaces := ["ab", "c"], name := "f" }, { namespaces := ["a", "bc"], name := "f" }] }

/-- The group `bar` with the namespace `b` met before the namespace `a`: `b::bar(int)`,
`a::bar()`, `b::bar()`. -/
def swappedGroup : GlobalFunction :=
  { verbose_ := false
    name := "bar"
    argLists := [[{ type := "int", name := "n" }], [], []]
    returnVals := [voidReturn, doubleReturn, voidReturn]
    overloads := [{ namespaces := ["b"], name := "bar" }, { namespaces := ["a"], name := "bar" },
      { namespaces := ["b"], name := "bar" }] }

/-! ## Sequences of calls of matlab_proxy -/

/-- One call of `matlab_proxy` in a generation pass, by the group it is called on and its
arguments other than the shared file and registry. -/
structure ProxyCall where
  /-- The group the method is called on. -/
  group : GlobalFunction
  /-- The argument `toolboxPath`. -/
  toolboxPath : String
  /-- The argument `wrapperName`. -/
  wrapperName : String
  /-- The argument `typeAttributes`. -/
  typeAttributes : TypeAttributesTable
deriving DecidableEq

/-- A sequence of calls of `matlab_proxy` on the same shared file and registry; an
exception ends the sequence. -/
def proxyAll (names : ArgumentList → String) : List ProxyCall → Pass → Except Error Pass
  | [], p => .ok p
  | c :: cs, p => do
      let p ← c.group.matlab_proxy names c.toolboxPath c.wrapperName c.typeAttributes p
      proxyAll names cs p

/-- Every name of the registry ends with an underscore and its own index in the
registry, as the `int` that the loop of `generateSingleFunction` holds it in. -/
def Indexed (functionNames : List String) : Prop :=
  ∀ (i : Nat) (s : String), functionNames[i]? = some s →
    ∃ u : String, s = u ++ "_" ++ lexical_cast (toInt i)

/-! ## Script paths -/

/-- No namespace segment and not the leaf name of the qualified name has the character
`/`. -/
def Qualified.SlashFree (q : Qualified) : Prop :=
  '/' ∉ q.name.data ∧ ∀ ns ∈ q.namespaces, '/' ∉ ns.data

instance (q : Qualified) : Decidable q.SlashFree := by
  unfold Qualified.SlashFree; infer_instance

/-- The characters that `matlabName` puts after the toolbox path: `/+` and the segment
for each namespace, then `/`, the leaf name and `.m`. -/
def pathTail : List String → String → List Char
  | [], name => '/' :: (name.data ++ ['.', 'm'])
  | ns :: rest, name => '/' :: '+' :: (ns.data ++ pathTail rest name)


/-! # Theorems -/

open GlobalFunction

/-! ## addOverload -/

/-- The two outcomes of `addOverload`: the overload is appended and the call returns, or
the call throws and the group is as before. -/
theorem addOverload_outcome (g : GlobalFunction) (verbose : Bool) (overload : Qualified)
    (args : ArgumentList) (retVal : ReturnValue) :
    (g.addOverload verbose overload args retVal
        = (.ok (),
            { verbose_ := verbose
              name := overload.name
              argLists := g.argLists ++ [args]
              returnVals := g.returnVals ++ [retVal]
              overloads := g.overloads ++ [overload] })
      ∧ (g.name = "" ∨ overload.name = g.name))
    ∨ (g.addOverload verbose overload args retVal
        = (.error (.runtime_error (mismatch overload g.name)), g)
      ∧ g.name ≠ "" ∧ overload.name ≠ g.name) := by
  unfold addOverload
  by_cases h1 : g.name = ""
  · left; simp [h1]
  · by_cases h2 : overload.name = g.name
    · left; simp [h1, h2]
    · right; simp [h1, h2]

/-- Replaying calls appends to each of the three sequences the corresponding component of
the calls that returned, in call order. -/
theorem addOverloads_sequences (calls : List Call) : ∀ g : GlobalFunction,
    (addOverloads g calls).argLists = g.argLists ++ (accepted g calls).map Call.args
    ∧ (addOverloads g calls).returnVals = g.returnVals ++ (accepted g calls).map Call.retVal
    ∧ (addOverloads g calls).overloads
        = g.overloads ++ (accepted g calls).map Call.overload := by
  induction calls with
  | nil => intro g; simp [addOverloads, accepted]
  | cons c cs ih =>
    intro g
    rcases addOverload_outcome g c.verbose c.overload c.args c.retVal with ⟨h, _⟩ | ⟨h, _⟩
    · simp only [addOverloads, accepted, h]
      obtain ⟨h1, h2, h3⟩ := ih
        { verbose_ := c.verbose
          name := c.overload.name
          argLists := g.argLists ++ [c.args]
          returnVals := g.returnVals ++ [c.retVal]
          overloads := g.overloads ++ [c.overload] }
      rw [h1, h2, h3]
      simp
    · simp only [addOverloads, accepted, h]
      exact ih g

/-- Once the group has a name, replaying calls keeps the name. -/
theorem addOverloads_name_of_named (calls : List Call) : ∀ g : GlobalFunction,
    g.name ≠ "" → (addOverloads g calls).name = g.name := by
  induction calls with
  | nil => intro g _; rfl
  | cons c cs ih =>
    intro g hname
    rcases addOverload_outcome g c.verbose c.overload c.args c.retVal with ⟨h, hor⟩ | ⟨h, _⟩
    · have hc : c.overload.name = g.name := by
        rcases hor with h0 | h1
        · exact absurd h0 hname
        · exact h1
      simp only [addOverloads, h]
      rw [ih _ (by rw [hc]; exact hname), hc]
    · simp only [addOverloads, h]
      exact ih g hname

/-- Once the group has a name, replaying calls keeps the name, and keeps every stored leaf
name equal to it when this holds at the start: a call that passes another leaf name, the
empty one included, throws. -/
theorem addOverloads_named (calls : List Call) : ∀ g : GlobalFunction,
    g.name ≠ "" → (∀ q ∈ g.overloads, q.name = g.name) →
    (addOverloads g calls).name = g.name
    ∧ ∀ q ∈ (addOverloads g calls).overloads, q.name = g.name := by
  induction calls with
  | nil => intro g _ h; exact ⟨rfl, h⟩
  | cons c cs ih =>
    intro g hname hall
    rcases addOverload_outcome g c.verbose c.overload c.args c.retVal with ⟨h, hor⟩ | ⟨h, _⟩
    · have hc : c.overload.name = g.name := by
        rcases hor with h0 | h1
        · exact absurd h0 hname
        · exact h1
      simp only [addOverloads, h]
      rw [hc]
      apply ih
        { verbose_ := c.verbose
          name := g.name
          argLists := g.argLists ++ [c.args]
          returnVals := g.returnVals ++ [c.retVal]
          overloads := g.overloads ++ [c.overload] } hname
      intro q hq
      simp only [List.mem_append, List.mem_singleton] at hq
      rcases hq with hq | hq
      · exact hall q hq
      · rw [hq, hc]
    · simp only [addOverloads, h]
      exact ih g hname hall

/-- While the group has no name, a call that passes the empty leaf name returns and leaves
it without a name: replaying calls that all pass the empty leaf name keeps the group
unnamed, with stored leaf names all empty. -/
theorem addOverloads_unnamed (calls : List Call) : ∀ g : GlobalFunction,
    g.name = "" → (∀ q ∈ g.overloads, q.name = "") →
    (∀ c ∈ calls, c.overload.name = "") →
    (addOverloads g calls).name = ""
    ∧ ∀ q ∈ (addOverloads g calls).overloads, q.name = "" := by
  induction calls with
  | nil => intro g hname hall _; exact ⟨hname, hall⟩
  | cons c cs ih =>
    intro g hname hall hcalls
    have hc : c.overload.name = "" := hcalls c (List.mem_cons_self _ _)
    rcases addOverload_outcome g c.verbose c.overload c.args c.retVal with ⟨h, _⟩ | ⟨_, hne, _⟩
    · simp only [addOverloads, h]
      apply ih _ hc _ (fun d hd => hcalls d (List.mem_cons_of_mem _ hd))
      intro q hq
      simp only [List.mem_append, List.mem_singleton] at hq
      rcases hq with hq | hq
      · exact hall q hq
      · rw [hq, hc]
    · exact absurd hname hne

/-- From a group without a name that stores an overload with the empty leaf name, a
sequence of calls that has a non-empty leaf name ends in a named group, which still stores
the empty leaf name. -/
theorem addOverloads_renamed (calls : List Call) : ∀ g : GlobalFunction,
    g.name = "" → (∃ q ∈ g.overloads, q.name = "") →
    (∃ c ∈ calls, c.overload.name ≠ "") →
    (addOverloads g calls).name ≠ ""
    ∧ ∃ q ∈ (addOverloads g calls).overloads, q.name = "" := by
  induction calls with
  | nil => intro g _ _ hex; obtain ⟨c, hc, _⟩ := hex; cases hc
  | cons c cs ih =>
    intro g hname hq hex
    obtain ⟨q, hqin, hqname⟩ := hq
    rcases addOverload_outcome g c.verbose c.overload c.args c.retVal with ⟨h, _⟩ | ⟨_, hne, _⟩
    · simp only [addOverloads, h]
      have hstored : ∃ q' ∈ g.overloads ++ [c.overload], q'.name = "" :=
        ⟨q, List.mem_append_left _ hqin, hqname⟩
      by_cases hc : c.overload.name = ""
      · apply ih _ hc hstored
        obtain ⟨d, hd, hdname⟩ := hex
        rcases List.mem_cons.mp hd with hd | hd
        · rw [hd] at hdname; exact absurd hc hdname
        · exact ⟨d, hd, hdname⟩
      · have hkeep := addOverloads_named cs
          { verbose_ := c.verbose
            name := c.overload.name
            argLists := g.argLists ++ [c.args]
            returnVals := g.returnVals ++ [c.retVal]
            overloads := g.overloads ++ [c.overload] } hc
        have hsq := addOverloads_sequences cs
          { verbose_ := c.verbose
            name := c.overload.name
            argLists := g.argLists ++ [c.args]
            returnVals := g.returnVals ++ [c.retVal]
            overloads := g.overloads ++ [c.overload] }
        have hnm := addOverloads_name_of_named cs
          { verbose_ := c.verbose
            name := c.overload.name
            argLists := g.argLists ++ [c.args]
            returnVals := g.returnVals ++ [c.retVal]
            overloads := g.overloads ++ [c.overload] } hc
        refine ⟨by rw [hnm]; exact hc, q, ?_, hqname⟩
        rw [hsq.2.2]
        exact List.mem_append_left _ (List.mem_append_left _ hqin)
    · exact absurd hname hne

/-- C7: when the group has an established (non-empty) name and the leaf name of the
overload differs from it, `addOverload` throws the name-mismatch `runtime_error` and the
group after the call is the group before it (name, verbosity flag and the three
sequences, hence their lengths). -/
theorem addOverload_mismatch_keeps_group (g : GlobalFunction) (verbose : Bool)
    (overload : Qualified) (args : ArgumentList) (retVal : ReturnValue)
    (hname : g.name ≠ "") (hdiff : overload.name ≠ g.name) :
    (g.addOverload verbose overload args retVal).1
        = .error (.runtime_error
            ("GlobalFunction::addOverload: tried to add overload with name "
              ++ overload.name ++ " instead of expected " ++ g.name))
    ∧ (g.addOverload verbose overload args retVal).2 = g := by
  simp [addOverload, hname, hdiff, mismatch]

/-- C7, at the group holding one overload `foo` and a call that passes `baz`: the call
throws and the group still holds only the overload `foo`. -/
theorem addOverload_mismatch_keeps_group_witness :
    ((addOverloads (GlobalFunction.new "" true)
          [⟨true, ⟨["m"], "foo"⟩, [], ⟨⟨[], "void"⟩⟩⟩]).addOverload
        false ⟨["m"], "baz"⟩ [⟨"int", "x"⟩] ⟨⟨[], "int"⟩⟩).1
      = .error (.runtime_error
          "GlobalFunction::addOverload: tried to add overload with name baz instead of expected foo")
    ∧ ((addOverloads (GlobalFunction.new "" true)
          [⟨true, ⟨["m"], "foo"⟩, [], ⟨⟨[], "void"⟩⟩⟩]).addOverload
        false ⟨["m"], "baz"⟩ [⟨"int", "x"⟩] ⟨⟨[], "int"⟩⟩).2
      = { verbose_ := true, name := "foo", argLists := [[]],
          returnVals := [⟨⟨[], "void"⟩⟩], overloads := [⟨["m"], "foo"⟩] } :=
  addOverload_mismatch_keeps_group
    (addOverloads (GlobalFunction.new "" true) [⟨true, ⟨["m"], "foo"⟩, [], ⟨⟨[], "void"⟩⟩⟩])
    false ⟨["m"], "baz"⟩ [⟨"int", "x"⟩] ⟨⟨[], "int"⟩⟩ (by decide) (by decide)

/-- The stored leaf names are all the name of the group exactly when the first call
passes a non-empty leaf name or every call passes the empty leaf name. -/
theorem addOverloads_leaf_iff (verbose : Bool) (calls : List Call) :
    (∀ q ∈ (addOverloads (GlobalFunction.new "" verbose) calls).overloads,
        q.name = (addOverloads (GlobalFunction.new "" verbose) calls).name)
    ↔ ((∀ c ∈ calls.head?, c.overload.name ≠ "") ∨ ∀ c ∈ calls, c.overload.name = "") := by
  cases calls with
  | nil => simp [addOverloads, GlobalFunction.new]
  | cons c cs =>
    have hstep : addOverloads (GlobalFunction.new "" verbose) (c :: cs)
        = addOverloads
            { verbose_ := c.verbose, name := c.overload.name, argLists := [c.args],
              returnVals := [c.retVal], overloads := [c.overload] } cs := by
      simp [addOverloads, addOverload, GlobalFunction.new]
    rw [hstep]
    by_cases hc : c.overload.name = ""
    · by_cases hcs : ∀ d ∈ cs, d.overload.name = ""
      · obtain ⟨h1, h2⟩ := addOverloads_unnamed cs
          { verbose_ := c.verbose, name := c.overload.name, argLists := [c.args],
            returnVals := [c.retVal], overloads := [c.overload] } hc
          (by intro q hq; rw [List.mem_singleton.mp hq]; exact hc) hcs
        constructor
        · intro _
          right
          intro d hd
          rcases List.mem_cons.mp hd with hd | hd
          · rw [hd]; exact hc
          · exact hcs d hd
        · intro _ q hq
          rw [h1, h2 q hq]
      · obtain ⟨h1, q, hq, hqname⟩ := addOverloads_renamed cs
          { verbose_ := c.verbose, name := c.overload.name, argLists := [c.args],
            returnVals := [c.retVal], overloads := [c.overload] } hc
          ⟨c.overload, List.mem_singleton.mpr rfl, hc⟩
          (by
            by_contra hcon
            apply hcs
            intro d hd
            by_contra hne
            exact hcon ⟨d, hd, hne⟩)
        constructor
        · intro hall
          exfalso
          apply h1
          rw [← hall q hq, hqname]
        · intro hor
          exfalso
          rcases hor with hor | hor
          · exact hor c (by simp) hc
          · exact hcs (fun d hd => hor d (List.mem_cons_of_mem _ hd))
    · obtain ⟨h1, h2⟩ := addOverloads_named cs
        { verbose_ := c.verbose, name := c.overload.name, argLists := [c.args],
          returnVals := [c.retVal], overloads := [c.overload] } hc
        (by intro q hq; rw [List.mem_singleton.mp hq])
      constructor
      · intro _
        left
        intro d hd
        simp only [List.head?_cons, Option.mem_def, Option.some.injEq] at hd
        rw [← hd]
        exact hc
      · intro _ q hq
        rw [h1]
        exact h2 q hq

/-- C8: for every group built from the empty group by any sequence of `addOverload` calls
(failed calls leaving the group as it was) whose first call names a function, i.e. passes
a non-empty leaf name, every qualified name stored in the group has the leaf name of the
group. The later calls may pass any leaf name, the empty one included: they throw unless
they pass the name of the group. -/
theorem addOverloads_same_leaf (verbose : Bool) (calls : List Call)
    (hfirst : ∀ c ∈ calls.head?, c.overload.name ≠ "") :
    ∀ q ∈ (addOverloads (GlobalFunction.new "" verbose) calls).overloads,
      q.name = (addOverloads (GlobalFunction.new "" verbose) calls).name :=
  (addOverloads_leaf_iff verbose calls).mpr (Or.inl hfirst)

/-- C8, at the calls `m::foo`, the empty name (which throws), `m::baz` (which throws),
`n::foo`: the group is named `foo` and stores `m::foo` and `n::foo`. -/
theorem addOverloads_same_leaf_witness :
    (∀ c ∈ ([⟨true, ⟨["m"], "foo"⟩, [], ⟨⟨[], "void"⟩⟩⟩,
          ⟨false, ⟨[], ""⟩, [], ⟨⟨[], "void"⟩⟩⟩,
          ⟨false, ⟨["m"], "baz"⟩, [], ⟨⟨[], "void"⟩⟩⟩,
          ⟨false, ⟨["n"], "foo"⟩, [⟨"int", "x"⟩], ⟨⟨[], "int"⟩⟩⟩] : List Call).head?,
        c.overload.name ≠ "")
    ∧ (∀ q ∈ (addOverloads (GlobalFunction.new "" true)
          [⟨true, ⟨["m"], "foo"⟩, [], ⟨⟨[], "void"⟩⟩⟩,
            ⟨false, ⟨[], ""⟩, [], ⟨⟨[], "void"⟩⟩⟩,
            ⟨false, ⟨["m"], "baz"⟩, [], ⟨⟨[], "void"⟩⟩⟩,
            ⟨false, ⟨["n"], "foo"⟩, [⟨"int", "x"⟩], ⟨⟨[], "int"⟩⟩⟩]).overloads,
        q.name = (addOverloads (GlobalFunction.new "" true)
          [⟨true, ⟨["m"], "foo"⟩, [], ⟨⟨[], "void"⟩⟩⟩,
            ⟨false, ⟨[], ""⟩, [], ⟨⟨[], "void"⟩⟩⟩,
            ⟨false, ⟨["m"], "baz"⟩, [], ⟨⟨[], "void"⟩⟩⟩,
            ⟨false, ⟨["n"], "foo"⟩, [⟨"int", "x"⟩], ⟨⟨[], "int"⟩⟩⟩]).name)
    ∧ (addOverloads (GlobalFunction.new "" true)
          [⟨true, ⟨["m"], "foo"⟩, [], ⟨⟨[], "void"⟩⟩⟩,
            ⟨false, ⟨[], ""⟩, [], ⟨⟨[], "void"⟩⟩⟩,
            ⟨false, ⟨["m"], "baz"⟩, [], ⟨⟨[], "void"⟩⟩⟩,
            ⟨false, ⟨["n"], "foo"⟩, [⟨"int", "x"⟩], ⟨⟨[], "int"⟩⟩⟩])
        = { verbose_ := false, name := "foo", argLists := [[], [⟨"int", "x"⟩]],
            returnVals := [⟨⟨[], "void"⟩⟩, ⟨⟨[], "int"⟩⟩],
            overloads := [⟨["m"], "foo"⟩, ⟨["n"], "foo"⟩] } :=
  ⟨by decide, addOverloads_same_leaf true _ (by decide), by decide⟩

/-- C9: for every sequence of `addOverload` calls applied to the empty group, the three
stored sequences have the same length, and they are the argument lists, the return values
and the qualified names of the calls that returned, in call order. -/
theorem addOverloads_parallel_sequences (verbose : Bool) (calls : List Call) :
    (addOverloads (GlobalFunction.new "" verbose) calls).argLists
        = (accepted (GlobalFunction.new "" verbose) calls).map Call.args
    ∧ (addOverloads (GlobalFunction.new "" verbose) calls).returnVals
        = (accepted (GlobalFunction.new "" verbose) calls).map Call.retVal
    ∧ (addOverloads (GlobalFunction.new "" verbose) calls).overloads
        = (accepted (GlobalFunction.new "" verbose) calls).map Call.overload
    ∧ (addOverloads (GlobalFunction.new "" verbose) calls).argLists.length
        = (addOverloads (GlobalFunction.new "" verbose) calls).overloads.length
    ∧ (addOverloads (GlobalFunction.new "" verbose) calls).returnVals.length
        = (addOverloads (GlobalFunction.new "" verbose) calls).overloads.length := by
  obtain ⟨h1, h2, h3⟩ := addOverloads_sequences calls (GlobalFunction.new "" verbose)
  have e1 : (GlobalFunction.new "" verbose).argLists = [] := rfl
  have e2 : (GlobalFunction.new "" verbose).returnVals = [] := rfl
  have e3 : (GlobalFunction.new "" verbose).overloads = [] := rfl
  rw [e1, List.nil_append] at h1
  rw [e2, List.nil_append] at h2
  rw [e3, List.nil_append] at h3
  refine ⟨h1, h2, h3, ?_, ?_⟩
  · rw [h1, h3]; simp
  · rw [h2, h3]; simp

/-! ## Renderings of a qualified name -/

theorem foldl_append_start (f : String → String) (ns : List String) :
    ∀ acc : String, ns.foldl (fun r s => r ++ f s) acc
      = acc ++ ns.foldl (fun r s => r ++ f s) "" := by
  induction ns with
  | nil => intro acc; simp
  | cons n rest ih =>
    intro acc
    simp only [List.foldl_cons]
    rw [ih (acc ++ f n), ih ("" ++ f n)]
    simp [String.append_assoc]

/-- The free function `qualifiedName` with the empty separator concatenates the names. -/
theorem qualifiedName_eq_join (ns : List String) : qualifiedName "" ns = String.join ns := by
  have hjoin : ∀ (n : String) (rest : List String),
      String.join (n :: rest) = n ++ String.join rest := by
    intro n rest
    unfold String.join
    simp only [List.foldl_cons]
    have := foldl_append_start (fun s => s) rest ("" ++ n)
    simpa using this
  induction ns with
  | nil => rfl
  | cons n rest ih =>
    cases rest with
    | nil => simp [qualifiedName, String.join]
    | cons m rest' =>
      simp only [qualifiedName]
      rw [ih, hjoin n (m :: rest')]
      simp

/-- The method `qualifiedName` with the empty delimiter concatenates the namespaces and
the name. -/
theorem concatenated_rendering (q : Qualified) :
    q.qualifiedName "" = String.join q.namespaces ++ q.name := by
  unfold Qualified.qualifiedName String.join
  simp

/-! ## The loops of generateSingleFunction and matlab_proxy -/

theorem wrapOverload_eq (names : ArgumentList → String) (wrapperName : String)
    (typeAttributes : TypeAttributesTable) (first : Qualified) (overload : Nat)
    (args : ArgumentList) (returnVal : ReturnValue) (s : Emission) :
    wrapOverload names wrapperName typeAttributes (first.qualifiedName "")
        (first.qualifiedName "::") overload args returnVal s
      = { mfunctionFile := s.mfunctionFile.write
            (Slot.branch wrapperName ⟨first, overload, s.functionNames.length, args, returnVal⟩)
          file := s.file.write
            (Slot.wrapper names typeAttributes
              ⟨first, overload, s.functionNames.length, args, returnVal⟩)
          functionNames := s.functionNames
            ++ [Slot.wrapFunctionName ⟨first, overload, s.functionNames.length, args, returnVal⟩] } := by
  by_cases h : returnVal.type1.name = "void" <;>
    simp [wrapOverload, FileWriter.write, Slot.branch, Slot.wrapper, Slot.invocation,
      Slot.wrapFunctionName, Slot.id, h]

theorem write_write (w : FileWriter) (a b : List Chunk) :
    (w.write a).write b = w.write (a ++ b) := by
  simp [FileWriter.write]

theorem write_nil (w : FileWriter) : w.write [] = w := by
  simp [FileWriter.write]

theorem wrapOverloads_eq (names : ArgumentList → String) (wrapperName : String)
    (typeAttributes : TypeAttributesTable) (first : Qualified)
    (returnVals : List ReturnValue) (argLists : List ArgumentList) :
    ∀ (overload : Nat) (s : Emission),
      argLists.length + overload ≤ returnVals.length →
      wrapOverloads names wrapperName typeAttributes (first.qualifiedName "")
          (first.qualifiedName "::") returnVals argLists overload s
        = .ok
          { mfunctionFile := s.mfunctionFile.write
              ((slots first argLists (returnVals.drop overload) overload
                  s.functionNames.length).flatMap (Slot.branch wrapperName))
            file := s.file.write
              ((slots first argLists (returnVals.drop overload) overload
                  s.functionNames.length).flatMap (Slot.wrapper names typeAttributes))
            functionNames := s.functionNames
              ++ (slots first argLists (returnVals.drop overload) overload
                    s.functionNames.length).map Slot.wrapFunctionName } := by
  induction argLists with
  | nil =>
    intro overload s _
    cases h : returnVals.drop overload <;> simp [wrapOverloads, slots, write_nil]
  | cons args rest ih =>
    intro overload s hlen
    have hlt : overload < returnVals.length := by
      simp only [List.length_cons] at hlen; omega
    have hdrop := List.drop_eq_getElem_cons hlt
    have hidx : vectorIndex returnVals overload = .ok returnVals[overload] := by
      simp [vectorIndex, List.getElem?_eq_getElem hlt]
    have hlen' : rest.length + (overload + 1) ≤ returnVals.length := by
      simp only [List.length_cons] at hlen; omega
    simp only [wrapOverloads, hidx]
    show wrapOverloads names wrapperName typeAttributes _ _ returnVals rest (overload + 1) _ = _
    rw [wrapOverload_eq, ih (overload + 1) _ hlen', hdrop]
    simp [slots, write_write, List.flatMap_cons]


theorem generateSingleFunction_eq (names : ArgumentList → String) (b : GlobalFunction)
    (toolboxPath wrapperName : String) (typeAttributes : TypeAttributesTable) (p : Pass)
    (hne : b.overloads ≠ []) (hlen : b.argLists.length ≤ b.returnVals.length) :
    b.generateSingleFunction names toolboxPath wrapperName typeAttributes p
      = .ok
        { file := p.file.write
            ((bucketSlots b p.functionNames.length).flatMap
              (Slot.wrapper names typeAttributes))
          functionNames := p.functionNames
            ++ (bucketSlots b p.functionNames.length).map Slot.wrapFunctionName
          mfiles := p.mfiles
            ++ [dispatchScript toolboxPath wrapperName b
                  (bucketSlots b p.functionNames.length)]
          folders := p.folders ++ [(b.overload1.namespaces, toolboxPath)] } := by
  obtain ⟨first, rest, hfirst⟩ := List.exists_cons_of_ne_nil hne
  have h1 : b.overload1 = first := by simp [GlobalFunction.overload1, hfirst]
  have hfront : vectorFront b.overloads = .ok first := by simp [vectorFront, hfirst]
  have hloop := wrapOverloads_eq names wrapperName typeAttributes first b.returnVals
    b.argLists 0
    { mfunctionFile :=
        (FileWriter.mk (first.matlabName toolboxPath) b.verbose_ "%" []).write
          [.text "function varargout = ", .text b.name, .text "(varargin)\n"]
      file := p.file
      functionNames := p.functionNames } (by simpa using hlen)
  simp only [generateSingleFunction, hfront]
  show (do
    let s ← wrapOverloads names wrapperName typeAttributes (first.qualifiedName "")
      (first.qualifiedName "::") b.returnVals b.argLists 0 _
    _) = _
  rw [hloop]
  simp [bucketSlots, dispatchScript, h1, FileWriter.write]

theorem generateAll_eq (names : ArgumentList → String) (toolboxPath wrapperName : String)
    (typeAttributes : TypeAttributesTable) (m : GlobalFunctionMap) :
    ∀ (lastcheck : Nat) (p : Pass),
      (∀ e ∈ m, e.2.overloads ≠ [] ∧ e.2.argLists.length ≤ e.2.returnVals.length) →
      generateAll names toolboxPath wrapperName typeAttributes m lastcheck p
        = .ok
          { file := p.file.write
              (allWrappers names typeAttributes (allSlots m p.functionNames.length) lastcheck)
            functionNames := p.functionNames
              ++ (allSlots m p.functionNames.length).flatten.map Slot.wrapFunctionName
            mfiles := p.mfiles
              ++ List.zipWith (fun e es => dispatchScript toolboxPath wrapperName e.2 es)
                  m (allSlots m p.functionNames.length)
            folders := p.folders
              ++ m.map (fun e => (e.2.overload1.namespaces, toolboxPath)) } := by
  induction m with
  | nil => intro lastcheck p _; simp [generateAll, allSlots, allWrappers, write_nil]
  | cons e rest ih =>
    intro lastcheck p h
    obtain ⟨hne, hlen⟩ := h e (List.mem_cons_self _ _)
    have hrest : ∀ e' ∈ rest,
        e'.2.overloads ≠ [] ∧ e'.2.argLists.length ≤ e'.2.returnVals.length :=
      fun e' he' => h e' (List.mem_cons_of_mem _ he')
    simp only [generateAll,
      generateSingleFunction_eq names e.2 toolboxPath wrapperName typeAttributes p hne hlen]
    show generateAll names toolboxPath wrapperName typeAttributes rest (lastcheck - 1) _ = _
    rw [ih (lastcheck - 1) _ hrest]
    by_cases hl : lastcheck - 1 = 0 <;>
      simp [hl, allSlots, allWrappers, write_write, FileWriter.write, List.flatten_cons]

/-! ## The order of the keys -/

theorem lexLess_iff (a : List Char) : ∀ b : List Char, lexLess a b = true ↔ a < b := by
  induction a with
  | nil =>
    intro b
    cases b with
    | nil => simp [lexLess]
    | cons y ys => simp [lexLess, List.nil_lt_cons]
  | cons x xs ih =>
    intro b
    cases b with
    | nil => simp [lexLess]
    | cons y ys =>
      simp only [lexLess]
      by_cases hxy : x < y
      · simp only [hxy, if_true, true_iff]
        exact List.Lex.rel hxy
      · by_cases hyx : y < x
        · simp only [hxy, hyx, if_false, if_true, false_iff, Bool.false_eq_true]
          intro h
          cases h with
          | cons h' => exact lt_irrefl _ hyx
          | rel h' => exact hxy h'
        · have hEq : x = y := le_antisymm (not_lt.mp hyx) (not_lt.mp hxy)
          subst hEq
          simp only [hxy, if_false]
          rw [ih ys]
          exact List.Lex.cons_iff.symm

theorem stringLess_iff (a b : String) : stringLess a b = true ↔ a < b := by
  rw [String.lt_iff_toList_lt]
  exact lexLess_iff a.data b.data

theorem stringLess_irrefl (a : String) : stringLess a a = false := by
  cases h : stringLess a a
  · rfl
  · exact absurd ((stringLess_iff a a).mp h) (lt_irrefl a)

theorem stringLess_trans {a b c : String} (h1 : stringLess a b = true)
    (h2 : stringLess b c = true) : stringLess a c = true :=
  (stringLess_iff a c).mpr (lt_trans ((stringLess_iff a b).mp h1) ((stringLess_iff b c).mp h2))

theorem stringLess_of_not {a b : String} (h1 : stringLess a b = false) (h2 : a ≠ b) :
    stringLess b a = true := by
  rw [stringLess_iff]
  rcases lt_trichotomy a b with h | h | h
  · rw [(stringLess_iff a b).mpr h] at h1; cases h1
  · exact absurd h h2
  · exact h

theorem find_eq_none_of_less (m : GlobalFunctionMap) (key : String)
    (h : ∀ e ∈ m, stringLess key e.1 = true) : m.find key = none := by
  induction m with
  | nil => rfl
  | cons e rest ih =>
    obtain ⟨k, v⟩ := e
    have hk : stringLess key k = true := h (k, v) (List.mem_cons_self _ _)
    have hne : key ≠ k := by
      intro heq; subst heq; rw [stringLess_irrefl] at hk; cases hk
    simp only [GlobalFunctionMap.find, hne, if_false]
    exact ih (fun e he => h e (List.mem_cons_of_mem _ he))

theorem count_eq_zero_iff (m : GlobalFunctionMap) (key : String) :
    m.count key = 0 ↔ m.find key = none := by
  induction m with
  | nil => simp [GlobalFunctionMap.count, GlobalFunctionMap.find]
  | cons e rest ih =>
    obtain ⟨k, v⟩ := e
    by_cases hk : key = k
    · simp [GlobalFunctionMap.count, GlobalFunctionMap.find, hk]
    · simp only [GlobalFunctionMap.count, GlobalFunctionMap.find, hk, if_false] at ih ⊢
      simp only [List.map_cons, List.mem_cons, hk, false_or]
      exact ih

theorem find_modify_self (f : GlobalFunction → GlobalFunction) (key : String)
    (m : GlobalFunctionMap) (h : m.Ascending) :
    (m.modify f key).find key = some (f ((m.find key).getD GlobalFunction.fresh)) := by
  induction m with
  | nil => simp [GlobalFunctionMap.modify, GlobalFunctionMap.find]
  | cons e rest ih =>
    obtain ⟨k, v⟩ := e
    have hpair := List.pairwise_cons.mp h
    simp only [GlobalFunctionMap.modify]
    by_cases hlt : stringLess key k = true
    · have hne : key ≠ k := by
        intro heq; subst heq; rw [stringLess_irrefl] at hlt; cases hlt
      have hnone : GlobalFunctionMap.find rest key = none :=
        find_eq_none_of_less rest key
          (fun e he => stringLess_trans hlt (hpair.1 e he))
      simp [hlt, GlobalFunctionMap.find, hne, hnone]
    · by_cases heq : key = k
      · subst heq
        simp [stringLess_irrefl, GlobalFunctionMap.find]
      · simp only [hlt, heq, if_false, GlobalFunctionMap.find]
        exact ih hpair.2

theorem find_modify_other (f : GlobalFunction → GlobalFunction) (key k' : String)
    (m : GlobalFunctionMap) (h : k' ≠ key) :
    (m.modify f key).find k' = m.find k' := by
  induction m with
  | nil => simp [GlobalFunctionMap.modify, GlobalFunctionMap.find, h]
  | cons e rest ih =>
    obtain ⟨k, v⟩ := e
    simp only [GlobalFunctionMap.modify]
    by_cases hlt : stringLess key k = true
    · simp [hlt, GlobalFunctionMap.find, h]
    · by_cases heq : key = k
      · subst heq
        simp [hlt, GlobalFunctionMap.find, h]
      · simp only [hlt, heq, if_false, GlobalFunctionMap.find]
        rw [ih]

theorem mem_modify (f : GlobalFunction → GlobalFunction) (key : String)
    (m : GlobalFunctionMap) :
    ∀ e ∈ m.modify f key, e.1 = key ∨ e ∈ m := by
  induction m with
  | nil => intro e he; simp [GlobalFunctionMap.modify] at he; left; rw [he]
  | cons e0 rest ih =>
    obtain ⟨k, v⟩ := e0
    intro e he
    simp only [GlobalFunctionMap.modify] at he
    by_cases hlt : stringLess key k = true
    · simp only [hlt, if_true, List.mem_cons] at he
      rcases he with he | he | he
      · left; rw [he]
      · right; rw [he]; exact List.mem_cons_self _ _
      · right; exact List.mem_cons_of_mem _ he
    · by_cases heq : key = k
      · subst heq
        simp only [stringLess_irrefl, if_true, List.mem_cons, if_false,
          Bool.false_eq_true] at he
        rcases he with he | he
        · left; rw [he]
        · right; exact List.mem_cons_of_mem _ he
      · simp only [hlt, heq, if_false] at he
        rcases List.mem_cons.mp he with he | he
        · right; rw [he]; exact List.mem_cons_self _ _
        · rcases ih e he with h1 | h1
          · left; exact h1
          · right; exact List.mem_cons_of_mem _ h1

theorem ascending_modify (f : GlobalFunction → GlobalFunction) (key : String)
    (m : GlobalFunctionMap) (h : m.Ascending) : (m.modify f key).Ascending := by
  induction m with
  | nil => simp [GlobalFunctionMap.modify, GlobalFunctionMap.Ascending]
  | cons e0 rest ih =>
    obtain ⟨k, v⟩ := e0
    have hpair := List.pairwise_cons.mp h
    simp only [GlobalFunctionMap.modify]
    by_cases hlt : stringLess key k = true
    · simp only [hlt, if_true]
      refine List.pairwise_cons.mpr ⟨?_, h⟩
      intro e he
      rcases List.mem_cons.mp he with he | he
      · rw [he]; exact hlt
      · exact stringLess_trans hlt (hpair.1 e he)
    · by_cases heq : key = k
      · subst heq
        simp only [stringLess_irrefl, if_true, if_false, Bool.false_eq_true]
        exact List.pairwise_cons.mpr ⟨hpair.1, hpair.2⟩
      · simp only [hlt, heq, if_false]
        refine List.pairwise_cons.mpr ⟨?_, ih hpair.2⟩
        intro e he
        rcases mem_modify f key rest e he with h1 | h1
        · show stringLess k e.1 = true
          rw [h1]
          exact stringLess_of_not (by simpa using hlt) heq
        · exact hpair.1 e h1

/-! ## The first loop of matlab_proxy -/

theorem clusterStep_ascending (name : String) (verbose : Bool) (m : GlobalFunctionMap)
    (o : Overload) (h : m.Ascending) : (clusterStep name verbose m o).Ascending := by
  unfold clusterStep
  apply ascending_modify
  apply ascending_modify
  apply ascending_modify
  by_cases hc : m.count (bucketKey o.1) = 0
  · simp only [hc, if_true]; exact ascending_modify _ _ _ h
  · simp only [hc, if_false]; exact h

theorem clusterStep_find_self (name : String) (verbose : Bool) (m : GlobalFunctionMap)
    (o : Overload) (h : m.Ascending) :
    (clusterStep name verbose m o).find (bucketKey o.1)
      = some (((m.find (bucketKey o.1)).getD (GlobalFunction.new name verbose)).extend [o]) := by
  have h1 : ∃ m1 : GlobalFunctionMap, m1.Ascending
      ∧ m1.find (bucketKey o.1)
          = some ((m.find (bucketKey o.1)).getD (GlobalFunction.new name verbose))
      ∧ clusterStep name verbose m o
          = ((m1.modify (fun f => { f with argLists := f.argLists ++ [o.2.1] })
                (bucketKey o.1)).modify
              (fun f => { f with returnVals := f.returnVals ++ [o.2.2] })
                (bucketKey o.1)).modify
              (fun f => { f with overloads := f.overloads ++ [o.1] }) (bucketKey o.1) := by
    by_cases hc : m.count (bucketKey o.1) = 0
    · refine ⟨m.modify (fun _ => GlobalFunction.new name verbose) (bucketKey o.1),
        ascending_modify _ _ _ h, ?_, ?_⟩
      · rw [find_modify_self _ _ _ h, (count_eq_zero_iff m _).mp hc]; rfl
      · simp [clusterStep, hc]
    · refine ⟨m, h, ?_, ?_⟩
      · have hsome : m.find (bucketKey o.1) ≠ none := fun hn =>
          hc ((count_eq_zero_iff m _).mpr hn)
        obtain ⟨b, hb⟩ := Option.ne_none_iff_exists'.mp hsome
        rw [hb]; rfl
      · simp [clusterStep, hc]
  obtain ⟨m1, ha, hf, heq⟩ := h1
  rw [heq, find_modify_self _ _ _ (ascending_modify _ _ _ (ascending_modify _ _ _ ha)),
    find_modify_self _ _ _ (ascending_modify _ _ _ ha), find_modify_self _ _ _ ha, hf]
  simp [GlobalFunction.extend]

theorem clusterStep_find_other (name : String) (verbose : Bool) (m : GlobalFunctionMap)
    (o : Overload) (k : String) (h : k ≠ bucketKey o.1) :
    (clusterStep name verbose m o).find k = m.find k := by
  unfold clusterStep
  rw [find_modify_other _ _ _ _ h, find_modify_other _ _ _ _ h, find_modify_other _ _ _ _ h]
  by_cases hc : m.count (bucketKey o.1) = 0
  · simp only [hc, if_true]; exact find_modify_other _ _ _ _ h
  · simp only [hc, if_false]

theorem extend_extend (b : GlobalFunction) (os ps : List Overload) :
    (b.extend os).extend ps = b.extend (os ++ ps) := by
  simp [GlobalFunction.extend]

theorem extend_nil (b : GlobalFunction) : b.extend [] = b := by
  simp [GlobalFunction.extend]

/-- The map after the first loop of `matlab_proxy` has visited the overloads `os`: under
each key, the group that was there (a new group of the given name and flag when there was
none) with the overloads of that key pushed in the order visited. -/
theorem foldl_clusterStep_find (name : String) (verbose : Bool) (os : List Overload) :
    ∀ (m : GlobalFunctionMap), m.Ascending → ∀ k : String,
      (os.foldl (clusterStep name verbose) m).Ascending
      ∧ (os.foldl (clusterStep name verbose) m).find k
        = if os.filter (fun o => bucketKey o.1 = k) = [] then m.find k
          else some (((m.find k).getD (GlobalFunction.new name verbose)).extend
            (os.filter (fun o => bucketKey o.1 = k))) := by
  induction os with
  | nil => intro m h k; exact ⟨h, by simp⟩
  | cons o rest ih =>
    intro m h k
    have hstep := clusterStep_ascending name verbose m o h
    obtain ⟨ha, hf⟩ := ih (clusterStep name verbose m o) hstep k
    refine ⟨ha, ?_⟩
    simp only [List.foldl_cons]
    rw [hf]
    by_cases hk : bucketKey o.1 = k
    · subst hk
      rw [clusterStep_find_self name verbose m o h]
      by_cases hr : rest.filter (fun o' => bucketKey o'.1 = bucketKey o.1) = []
      · simp [hr, List.filter_cons]
      · simp [hr, List.filter_cons, extend_extend]
    · have hk' : k ≠ bucketKey o.1 := fun h' => hk h'.symm
      have hfil : (o :: rest).filter (fun o' => bucketKey o'.1 = k)
          = rest.filter (fun o' => bucketKey o'.1 = k) := by
        simp [List.filter_cons, hk]
      rw [clusterStep_find_other name verbose m o k hk', hfil]

theorem cluster_eq (g : GlobalFunction) (qs : List Qualified) :
    ∀ (i : Nat) (m : GlobalFunctionMap),
      qs.length + i ≤ g.argLists.length → qs.length + i ≤ g.returnVals.length →
      cluster g qs i m
        = .ok ((List.zip qs (List.zip (g.argLists.drop i) (g.returnVals.drop i))).foldl
            (clusterStep g.name g.verbose_) m) := by
  induction qs with
  | nil => intro i m _ _; simp [cluster]
  | cons q rest ih =>
    intro i m ha hr
    simp only [List.length_cons] at ha hr
    have hia : i < g.argLists.length := by omega
    have hir : i < g.returnVals.length := by omega
    have hat1 : vectorAt g.returnVals i = .ok g.returnVals[i] := by
      simp [vectorAt, List.getElem?_eq_getElem hir]
    have hat2 : vectorAt g.argLists i = .ok g.argLists[i] := by
      simp [vectorAt, List.getElem?_eq_getElem hia]
    simp only [cluster, hat1, hat2]
    show cluster g rest (i + 1) _ = _
    rw [ih (i + 1) _ (by omega) (by omega), List.drop_eq_getElem_cons hia,
      List.drop_eq_getElem_cons hir]
    simp only [List.zip_cons_cons, List.foldl_cons, clusterStep, bucketKey]

theorem find_of_mem (m : GlobalFunctionMap) (h : m.Ascending) (k : String)
    (b : GlobalFunction) (hmem : (k, b) ∈ m) : m.find k = some b := by
  induction m with
  | nil => cases hmem
  | cons e rest ih =>
    obtain ⟨k0, v0⟩ := e
    have hpair := List.pairwise_cons.mp h
    rcases List.mem_cons.mp hmem with heq | hin
    · cases heq
      simp [GlobalFunctionMap.find]
    · have hlt : stringLess k0 k = true := hpair.1 (k, b) hin
      have hne : k ≠ k0 := by
        intro heq; subst heq; rw [stringLess_irrefl] at hlt; cases hlt
      simp only [GlobalFunctionMap.find, hne, if_false]
      exact ih hpair.2 hin

theorem mem_of_find (m : GlobalFunctionMap) (k : String) (b : GlobalFunction)
    (hfind : m.find k = some b) : (k, b) ∈ m := by
  induction m with
  | nil => simp [GlobalFunctionMap.find] at hfind
  | cons e rest ih =>
    obtain ⟨k0, v0⟩ := e
    by_cases hk : k = k0
    · subst hk
      simp only [GlobalFunctionMap.find, if_true, Option.some.injEq] at hfind
      subst hfind
      exact List.mem_cons_self _ _
    · simp only [GlobalFunctionMap.find, hk, if_false] at hfind
      exact List.mem_cons_of_mem _ (ih hfind)

theorem ascending_keys_nodup (m : GlobalFunctionMap) (h : m.Ascending) :
    (m.map Prod.fst).Nodup := by
  unfold GlobalFunctionMap.Ascending at h
  rw [List.Nodup, List.pairwise_map]
  refine h.imp ?_
  intro a b hab heq
  rw [heq, stringLess_irrefl] at hab
  cases hab

theorem sum_indicator (a : String) (ks : List String) (hnd : ks.Nodup) (hmem : a ∈ ks) :
    (ks.map (fun k => if a = k then 1 else 0)).sum = 1 := by
  induction ks with
  | nil => cases hmem
  | cons k rest ih =>
    have hcons := List.nodup_cons.mp hnd
    by_cases hk : a = k
    · subst hk
      have hzero : (rest.map (fun k => if a = k then 1 else 0)).sum = 0 := by
        apply List.sum_eq_zero
        intro x hx
        obtain ⟨k', hk', rfl⟩ := List.mem_map.mp hx
        have : a ≠ k' := fun h' => hcons.1 (h' ▸ hk')
        simp [this]
      simp [hzero]
    · have hin : a ∈ rest := by
        rcases List.mem_cons.mp hmem with h' | h'
        · exact absurd h' hk
        · exact h'
      simp [hk, ih hcons.2 hin]

theorem sum_filter_length (ks : List String) (hnd : ks.Nodup) (os : List Overload)
    (hcover : ∀ o ∈ os, bucketKey o.1 ∈ ks) :
    (ks.map (fun k => (os.filter (fun o => bucketKey o.1 = k)).length)).sum = os.length := by
  induction os with
  | nil => simp
  | cons o rest ih =>
    have hrest : ∀ o' ∈ rest, bucketKey o'.1 ∈ ks :=
      fun o' ho' => hcover o' (List.mem_cons_of_mem _ ho')
    have hsplit : (fun k => ((o :: rest).filter (fun o' => bucketKey o'.1 = k)).length)
        = fun k => (if bucketKey o.1 = k then 1 else 0)
            + (rest.filter (fun o' => bucketKey o'.1 = k)).length := by
      funext k
      by_cases hk : bucketKey o.1 = k
      · simp [List.filter_cons, hk]; omega
      · simp [List.filter_cons, hk]
    rw [hsplit, List.sum_map_add, ih hrest,
      sum_indicator _ ks hnd (hcover o (List.mem_cons_self _ _))]
    simp; omega

/-- What the first loop of `matlab_proxy` leaves in the map, for a group whose argument
lists and return values are at least as many as its qualified names: the keys ascend, every entry holds the overloads of its key in
their order in the group, none is empty, and every overload has an entry. -/
theorem cluster_spec_of_le (g : GlobalFunction)
    (h1 : g.overloads.length ≤ g.argLists.length)
    (h2 : g.overloads.length ≤ g.returnVals.length) :
    ∃ m : GlobalFunctionMap, cluster g g.overloads 0 [] = .ok m
      ∧ m.Ascending
      ∧ (∀ e ∈ m, g.triples.filter (fun o => bucketKey o.1 = e.1) ≠ []
          ∧ e.2 = (GlobalFunction.new g.name g.verbose_).extend
              (g.triples.filter (fun o => bucketKey o.1 = e.1)))
      ∧ (∀ o ∈ g.triples, ∃ b, (bucketKey o.1, b) ∈ m) := by
  have hrun := cluster_eq g g.overloads 0 [] (by simpa using h1) (by simpa using h2)
  simp only [List.drop_zero] at hrun
  have hnil : GlobalFunctionMap.Ascending [] := List.Pairwise.nil
  have hfold := foldl_clusterStep_find g.name g.verbose_ g.triples [] hnil
  refine ⟨_, hrun, (hfold "").1, ?_, ?_⟩
  · intro e he
    have hfind := find_of_mem _ (hfold "").1 e.1 e.2 he
    have hk := (hfold e.1).2
    unfold GlobalFunction.triples at hfind hk ⊢
    rw [hfind] at hk
    by_cases hf : (List.zip g.overloads (List.zip g.argLists g.returnVals)).filter
        (fun o => bucketKey o.1 = e.1) = []
    · simp [hf, GlobalFunctionMap.find] at hk
    · refine ⟨hf, ?_⟩
      simp only [hf, if_false, GlobalFunctionMap.find, Option.getD_none,
        Option.some.injEq] at hk
      exact hk
  · intro o ho
    have hk := (hfold (bucketKey o.1)).2
    have hf : g.triples.filter (fun o' => bucketKey o'.1 = bucketKey o.1) ≠ [] := by
      intro hempty
      have : o ∈ g.triples.filter (fun o' => bucketKey o'.1 = bucketKey o.1) :=
        List.mem_filter.mpr ⟨ho, by simp⟩
      rw [hempty] at this
      cases this
    simp only [hf, if_false] at hk
    exact ⟨_, mem_of_find _ _ _ hk⟩


/-- What the first loop of `matlab_proxy` leaves in the map, for a group whose three
sequences are equally long. -/
theorem cluster_spec (g : GlobalFunction) (h : g.Aligned) :
    ∃ m : GlobalFunctionMap, cluster g g.overloads 0 [] = .ok m
      ∧ m.Ascending
      ∧ (∀ e ∈ m, g.triples.filter (fun o => bucketKey o.1 = e.1) ≠ []
          ∧ e.2 = (GlobalFunction.new g.name g.verbose_).extend
              (g.triples.filter (fun o => bucketKey o.1 = e.1)))
      ∧ (∀ o ∈ g.triples, ∃ b, (bucketKey o.1, b) ∈ m) :=
  cluster_spec_of_le g (by rw [h.1]) (by rw [h.2])

theorem triples_components (g : GlobalFunction) (h : g.Aligned) :
    g.triples.map (fun o => o.1) = g.overloads
    ∧ g.triples.map (fun o => o.2.1) = g.argLists
    ∧ g.triples.map (fun o => o.2.2) = g.returnVals := by
  obtain ⟨h1, h2⟩ := h
  unfold GlobalFunction.triples
  have hz : (List.zip g.argLists g.returnVals).length = g.overloads.length := by
    simp [h1, h2]
  have e1 : (List.zip g.overloads (List.zip g.argLists g.returnVals)).map Prod.fst
      = g.overloads := List.map_fst_zip _ _ (by omega)
  have e2 : (List.zip g.overloads (List.zip g.argLists g.returnVals)).map Prod.snd
      = List.zip g.argLists g.returnVals := List.map_snd_zip _ _ (by omega)
  have e3 : (List.zip g.argLists g.returnVals).map Prod.fst = g.argLists :=
    List.map_fst_zip _ _ (by omega)
  have e4 : (List.zip g.argLists g.returnVals).map Prod.snd = g.returnVals :=
    List.map_snd_zip _ _ (by omega)
  refine ⟨e1, ?_, ?_⟩
  · have : (fun o : Overload => o.2.1) = Prod.fst ∘ Prod.snd := rfl
    rw [this, ← List.map_map, e2, e3]
  · have : (fun o : Overload => o.2.2) = Prod.snd ∘ Prod.snd := rfl
    rw [this, ← List.map_map, e2, e4]

/-! ## The iterations of the overload loops -/

theorem slots_length (first : Qualified) (argLists : List ArgumentList) :
    ∀ (returnVals : List ReturnValue) (overload id : Nat),
      argLists.length ≤ returnVals.length →
      (slots first argLists returnVals overload id).length = argLists.length := by
  induction argLists with
  | nil => intro returnVals overload id _; simp [slots]
  | cons a rest ih =>
    intro returnVals overload id h
    cases returnVals with
    | nil => simp at h
    | cons r rs =>
      simp only [slots, List.length_cons]
      rw [ih rs (overload + 1) (id + 1) (by simpa using h)]

theorem slots_ids (first : Qualified) (argLists : List ArgumentList) :
    ∀ (returnVals : List ReturnValue) (overload id : Nat),
      (slots first argLists returnVals overload id).map Slot.index
        = List.range' id (slots first argLists returnVals overload id).length := by
  induction argLists with
  | nil => intro returnVals overload id; simp [slots]
  | cons a rest ih =>
    intro returnVals overload id
    cases returnVals with
    | nil => simp [slots]
    | cons r rs =>
      simp only [slots, List.map_cons, List.length_cons, List.range'_succ]
      rw [ih rs (overload + 1) (id + 1)]

theorem allSlots_ids (m : GlobalFunctionMap) : ∀ id : Nat,
    (allSlots m id).flatten.map Slot.index = List.range' id (allSlots m id).flatten.length := by
  induction m with
  | nil => intro id; simp [allSlots]
  | cons e rest ih =>
    intro id
    simp only [allSlots, List.flatten_cons, List.map_append, List.length_append]
    rw [ih, bucketSlots, slots_ids, List.range'_append_1, Nat.add_comm]

theorem allSlots_length (m : GlobalFunctionMap) : ∀ id : Nat,
    (∀ e ∈ m, e.2.argLists.length ≤ e.2.returnVals.length) →
    (allSlots m id).flatten.length = (m.map (fun e => e.2.argLists.length)).sum := by
  induction m with
  | nil => intro id _; simp [allSlots]
  | cons e rest ih =>
    intro id h
    simp only [allSlots, List.flatten_cons, List.length_append, List.map_cons, List.sum_cons]
    rw [ih _ (fun e' he' => h e' (List.mem_cons_of_mem _ he')), bucketSlots,
      slots_length _ _ _ _ _ (h e (List.mem_cons_self _ _))]

theorem allSlots_length_eq (m : GlobalFunctionMap) : ∀ id : Nat,
    (allSlots m id).length = m.length := by
  induction m with
  | nil => intro id; simp [allSlots]
  | cons e rest ih => intro id; simp [allSlots, ih]

theorem filter_isCall_branches (wrapperName : String) (es : List Slot) :
    (es.flatMap (Slot.branch wrapperName)).filter Chunk.isCall
      = es.map (Slot.call wrapperName) := by
  induction es with
  | nil => simp
  | cons e rest ih =>
    simp only [List.flatMap_cons, List.filter_append, ih, List.map_cons]
    simp [Slot.branch, Slot.call, Chunk.isCall, List.filter_cons]

theorem filter_isCall_script (toolboxPath wrapperName : String) (b : GlobalFunction)
    (es : List Slot) :
    (dispatchScript toolboxPath wrapperName b es).oss.filter Chunk.isCall
      = es.map (Slot.call wrapperName) := by
  simp only [dispatchScript, List.filter_append, filter_isCall_branches]
  simp [Chunk.isCall, List.filter_cons]

theorem filter_isEndl_wrapper (names : ArgumentList → String)
    (typeAttributes : TypeAttributesTable) (e : Slot) :
    (Slot.wrapper names typeAttributes e).filter (fun c => !c.isEndl)
      = Slot.wrapper names typeAttributes e := by
  by_cases h : e.returnVal.type1.name = "void" <;>
    simp [Slot.wrapper, Slot.invocation, Chunk.isEndl, List.filter_cons, h]

theorem filter_isEndl_wrappers (names : ArgumentList → String)
    (typeAttributes : TypeAttributesTable) (es : List Slot) :
    (es.flatMap (Slot.wrapper names typeAttributes)).filter (fun c => !c.isEndl)
      = es.flatMap (Slot.wrapper names typeAttributes) := by
  induction es with
  | nil => simp
  | cons e rest ih =>
    simp only [List.flatMap_cons, List.filter_append, ih, filter_isEndl_wrapper]

theorem filter_isEndl_allWrappers (names : ArgumentList → String)
    (typeAttributes : TypeAttributesTable) (ess : List (List Slot)) :
    ∀ lastcheck : Nat,
      (allWrappers names typeAttributes ess lastcheck).filter (fun c => !c.isEndl)
        = ess.flatten.flatMap (Slot.wrapper names typeAttributes) := by
  induction ess with
  | nil => intro lastcheck; simp [allWrappers]
  | cons es rest ih =>
    intro lastcheck
    simp only [allWrappers, List.filter_append, ih, filter_isEndl_wrappers,
      List.flatten_cons, List.flatMap_append]
    by_cases hl : lastcheck - 1 = 0 <;> simp [hl, Chunk.isEndl, List.filter_cons]

theorem filter_isCall_scripts (toolboxPath wrapperName : String) (m : GlobalFunctionMap) :
    ∀ ess : List (List Slot), ess.length = m.length →
      ((List.zipWith (fun e es => dispatchScript toolboxPath wrapperName e.2 es) m ess).flatMap
          (fun f => f.oss)).filter Chunk.isCall
        = ess.flatten.map (Slot.call wrapperName) := by
  induction m with
  | nil =>
    intro ess h
    cases ess with
    | nil => simp
    | cons _ _ => simp at h
  | cons e rest ih =>
    intro ess h
    cases ess with
    | nil => simp at h
    | cons es ess' =>
      simp only [List.zipWith_cons_cons, List.flatMap_cons, List.filter_append,
        filter_isCall_script, List.flatten_cons, List.map_append]
      rw [ih ess' (by simpa using h)]

theorem extend_new (name : String) (verbose : Bool) (os : List Overload) :
    ((GlobalFunction.new name verbose).extend os).overloads = os.map (fun o => o.1)
    ∧ ((GlobalFunction.new name verbose).extend os).argLists = os.map (fun o => o.2.1)
    ∧ ((GlobalFunction.new name verbose).extend os).returnVals = os.map (fun o => o.2.2)
    ∧ ((GlobalFunction.new name verbose).extend os).name = name
    ∧ ((GlobalFunction.new name verbose).extend os).verbose_ = verbose := by
  simp [GlobalFunction.extend, GlobalFunction.new]

/-- The sizes of the buckets sum to the number of overloads of the group. -/
theorem cluster_sizes (g : GlobalFunction) (h : g.Aligned) (m : GlobalFunctionMap)
    (hasc : m.Ascending)
    (hbuckets : ∀ e ∈ m, g.triples.filter (fun o => bucketKey o.1 = e.1) ≠ []
      ∧ e.2 = (GlobalFunction.new g.name g.verbose_).extend
          (g.triples.filter (fun o => bucketKey o.1 = e.1)))
    (hcover : ∀ o ∈ g.triples, ∃ b, (bucketKey o.1, b) ∈ m) :
    (m.map (fun e => e.2.overloads.length)).sum = g.overloads.length := by
  have hsizes : m.map (fun e => e.2.overloads.length)
      = (m.map Prod.fst).map
          (fun k => (g.triples.filter (fun o => bucketKey o.1 = k)).length) := by
    rw [List.map_map]
    apply List.map_congr_left
    intro e he
    obtain ⟨_, hb⟩ := hbuckets e he
    conv_lhs => rw [hb]
    simp [GlobalFunction.extend, GlobalFunction.new]
  rw [hsizes, sum_filter_length (m.map Prod.fst) (ascending_keys_nodup m hasc) g.triples]
  · rw [← (triples_components g h).1]; simp
  · intro o ho
    obtain ⟨b, hb⟩ := hcover o ho
    exact List.mem_map.mpr ⟨_, hb, rfl⟩

/-- What `matlab_proxy` returns for a group whose three sequences are equally long: the
pass extended by the wrappers, names, scripts and folders of the buckets, in key order. -/
theorem matlab_proxy_eq (names : ArgumentList → String) (g : GlobalFunction)
    (toolboxPath wrapperName : String) (typeAttributes : TypeAttributesTable) (p : Pass)
    (h : g.Aligned) :
    ∃ m : GlobalFunctionMap, cluster g g.overloads 0 [] = .ok m
      ∧ m.Ascending
      ∧ (∀ e ∈ m, g.triples.filter (fun o => bucketKey o.1 = e.1) ≠ []
          ∧ e.2 = (GlobalFunction.new g.name g.verbose_).extend
              (g.triples.filter (fun o => bucketKey o.1 = e.1)))
      ∧ (∀ o ∈ g.triples, ∃ b, (bucketKey o.1, b) ∈ m)
      ∧ g.matlab_proxy names toolboxPath wrapperName typeAttributes p
        = .ok
          { file := p.file.write
              (allWrappers names typeAttributes (allSlots m p.functionNames.length) m.length)
            functionNames := p.functionNames
              ++ (allSlots m p.functionNames.length).flatten.map Slot.wrapFunctionName
            mfiles := p.mfiles
              ++ List.zipWith (fun e es => dispatchScript toolboxPath wrapperName e.2 es)
                  m (allSlots m p.functionNames.length)
            folders := p.folders
              ++ m.map (fun e => (e.2.overload1.namespaces, toolboxPath)) } := by
  obtain ⟨m, hrun, hasc, hbuckets, hcover⟩ := cluster_spec g h
  refine ⟨m, hrun, hasc, hbuckets, hcover, ?_⟩
  have hfilled : ∀ e ∈ m,
      e.2.overloads ≠ [] ∧ e.2.argLists.length ≤ e.2.returnVals.length := by
    intro e he
    obtain ⟨hne, hb⟩ := hbuckets e he
    obtain ⟨h1, h2, h3, _, _⟩ := extend_new g.name g.verbose_
      (g.triples.filter (fun o => bucketKey o.1 = e.1))
    rw [← hb] at h1 h2 h3
    constructor
    · rw [h1]; simpa using hne
    · rw [h2, h3]; simp
  simp only [matlab_proxy, hrun]
  exact generateAll_eq names toolboxPath wrapperName typeAttributes m m.length p hfilled

theorem slot_id_of_index (reg : Nat) (es : List Slot)
    (hids : es.map Slot.index = List.range' reg es.length) (j : Nat) (hj : j < es.length) :
    es[j].index = reg + j := by
  have h1 : (es.map Slot.index)[j]? = (List.range' reg es.length)[j]? := by rw [hids]
  rw [List.getElem?_map, List.getElem?_eq_getElem hj,
    List.getElem?_eq_getElem (by simpa using hj), List.getElem_range'] at h1
  simpa using h1

theorem registry_lookup (reg : List String) (es : List Slot)
    (hids : es.map Slot.index = List.range' reg.length es.length) :
    ∀ e ∈ es, (reg ++ es.map Slot.wrapFunctionName)[e.index]? = some e.wrapFunctionName := by
  intro e he
  obtain ⟨j, hj, rfl⟩ := List.getElem_of_mem he
  rw [slot_id_of_index reg.length es hids j hj,
    List.getElem?_append_right (Nat.le_add_right _ _), Nat.add_sub_cancel_left,
    List.getElem?_map, List.getElem?_eq_getElem hj]
  rfl

theorem slots_getElem? (first : Qualified) (argLists : List ArgumentList) :
    ∀ (returnVals : List ReturnValue) (overload id i : Nat) (a : ArgumentList)
      (r : ReturnValue), argLists[i]? = some a → returnVals[i]? = some r →
      (slots first argLists returnVals overload id)[i]?
        = some { first := first, overload := overload + i, index := id + i, args := a,
                 returnVal := r } := by
  induction argLists with
  | nil => intro returnVals overload id i a r ha _; simp at ha
  | cons a0 rest ih =>
    intro returnVals overload id i a r ha hr
    cases returnVals with
    | nil => simp at hr
    | cons r0 rs =>
      cases i with
      | zero =>
        simp only [List.getElem?_cons_zero, Option.some.injEq] at ha hr
        simp [slots, ha, hr]
      | succ i' =>
        simp only [List.getElem?_cons_succ] at ha hr
        simp only [slots, List.getElem?_cons_succ]
        rw [ih rs (overload + 1) (id + 1) i' a r ha hr]
        simp only [Option.some.injEq, Slot.mk.injEq, true_and, and_true]
        omega

theorem allSlots_flatten_getElem? (m : GlobalFunctionMap) :
    ∀ (id0 j i : Nat) (hj : j < m.length) (a : ArgumentList) (r : ReturnValue),
      (∀ e ∈ m, e.2.argLists.length = e.2.overloads.length
        ∧ e.2.argLists.length ≤ e.2.returnVals.length) →
      (m[j]).2.argLists[i]? = some a → (m[j]).2.returnVals[i]? = some r →
      (allSlots m id0).flatten[((m.take j).map (fun e => e.2.overloads.length)).sum + i]?
        = some { first := (m[j]).2.overload1, overload := i,
                 index := id0 + ((m.take j).map (fun e => e.2.overloads.length)).sum + i,
                 args := a, returnVal := r } := by
  induction m with
  | nil => intro id0 j i hj; simp at hj
  | cons e rest ih =>
    intro id0 j i hj a r hall ha hr
    obtain ⟨hsz, hle⟩ := hall e (List.mem_cons_self _ _)
    have hlen : (bucketSlots e.2 id0).length = e.2.overloads.length := by
      rw [bucketSlots, slots_length _ _ _ _ _ hle, hsz]
    cases j with
    | zero =>
      simp only [List.getElem_cons_zero] at ha hr
      have hi : i < (bucketSlots e.2 id0).length := by
        rw [hlen, ← hsz]
        exact (List.getElem?_eq_some_iff.mp ha).1
      simp only [allSlots, List.flatten_cons, List.take_zero, List.map_nil, List.sum_nil,
        Nat.zero_add, List.getElem_cons_zero, Nat.add_zero]
      rw [List.getElem?_append_left hi, bucketSlots,
        slots_getElem? _ _ _ 0 id0 i a r ha hr]
      simp
    | succ j' =>
      simp only [List.getElem_cons_succ] at ha hr
      have hj' : j' < rest.length := by simpa using hj
      have hrest := ih (id0 + (bucketSlots e.2 id0).length) j' i hj' a r
        (fun e' he' => hall e' (List.mem_cons_of_mem _ he')) ha hr
      simp only [allSlots, List.flatten_cons, List.take_succ_cons, List.map_cons,
        List.sum_cons, List.getElem_cons_succ]
      rw [List.getElem?_append_right (by rw [hlen]; omega)]
      have hidx : e.2.overloads.length
            + (List.map (fun e => e.2.overloads.length) (List.take j' rest)).sum + i
            - (bucketSlots e.2 id0).length
          = (List.map (fun e => e.2.overloads.length) (List.take j' rest)).sum + i := by
        rw [hlen]; omega
      rw [hidx, hrest, hlen]
      simp only [Option.some.injEq, Slot.mk.injEq, true_and, and_true]
      omega

theorem wrapper_infix_allWrappers (names : ArgumentList → String)
    (typeAttributes : TypeAttributesTable) (ess : List (List Slot)) :
    ∀ (lastcheck : Nat) (e : Slot), e ∈ ess.flatten →
      Slot.wrapper names typeAttributes e
        <:+: allWrappers names typeAttributes ess lastcheck := by
  induction ess with
  | nil => intro lastcheck e he; simp at he
  | cons es rest ih =>
    intro lastcheck e he
    simp only [List.flatten_cons, List.mem_append] at he
    simp only [allWrappers]
    rcases he with he | he
    · have h1 : Slot.wrapper names typeAttributes e
          <:+: es.flatMap (Slot.wrapper names typeAttributes) := by
        rw [List.flatMap]
        exact List.infix_of_mem_flatten (List.mem_map.mpr ⟨e, he, rfl⟩)
      rw [List.append_assoc]
      exact List.IsInfix.trans h1 (List.infix_append' [] _ _)
    · exact List.IsInfix.trans (ih (lastcheck - 1) e he)
        (List.suffix_append _ _).isInfix

/-- The overloads of a bucket are overloads of the group, filed under their key, and the
three sequences of the bucket are equally long. -/
theorem bucket_facts (g : GlobalFunction) (h : g.Aligned) (e : String × GlobalFunction)
    (hb : e.2 = (GlobalFunction.new g.name g.verbose_).extend
        (g.triples.filter (fun o => bucketKey o.1 = e.1))) :
    (∀ q ∈ e.2.overloads, q ∈ g.overloads ∧ bucketKey q = e.1)
    ∧ e.2.argLists.length = e.2.overloads.length
    ∧ e.2.returnVals.length = e.2.overloads.length
    ∧ e.2.name = g.name ∧ e.2.verbose_ = g.verbose_ := by
  obtain ⟨h1, h2, h3, h4, h5⟩ := extend_new g.name g.verbose_
    (g.triples.filter (fun o => bucketKey o.1 = e.1))
  rw [← hb] at h1 h2 h3 h4 h5
  refine ⟨?_, by rw [h1, h2]; simp, by rw [h1, h3]; simp, h4, h5⟩
  intro q hq
  rw [h1] at hq
  obtain ⟨o, ho, rfl⟩ := List.mem_map.mp hq
  obtain ⟨hmem, hkey⟩ := List.mem_filter.mp ho
  refine ⟨?_, by simpa using hkey⟩
  rw [← (triples_components g h).1]
  exact List.mem_map.mpr ⟨o, hmem, rfl⟩

theorem overload1_mem (b : GlobalFunction) (hne : b.overloads ≠ []) :
    b.overload1 ∈ b.overloads := by
  obtain ⟨first, rest, hfirst⟩ := List.exists_cons_of_ne_nil hne
  simp [GlobalFunction.overload1, hfirst]

theorem header_infix_wrapper (names : ArgumentList → String)
    (typeAttributes : TypeAttributesTable) (e : Slot) :
    [Chunk.text "void ", Chunk.text e.wrapFunctionName,
      Chunk.text "(int nargout, mxArray *out[], int nargin, const mxArray *in[])\n"]
      <:+: Slot.wrapper names typeAttributes e := by
  refine (List.prefix_iff_eq_append.mpr ?_).isInfix
  simp [Slot.wrapper]

/-- A group with an overload whose overloads all have the key `k` is clustered into the
single bucket `(k, g)`. -/
theorem cluster_single (g : GlobalFunction) (h : g.Aligned) (hne : g.overloads ≠ [])
    (k : String) (hk : ∀ q ∈ g.overloads, bucketKey q = k) :
    cluster g g.overloads 0 [] = .ok [(k, g)] := by
  obtain ⟨m, hrun, hasc, hbuckets, hcover⟩ := cluster_spec g h
  obtain ⟨c1, c2, c3⟩ := triples_components g h
  have hkey : ∀ o ∈ g.triples, bucketKey o.1 = k := by
    intro o ho
    apply hk
    rw [← c1]
    exact List.mem_map.mpr ⟨o, ho, rfl⟩
  have hall : ∀ e ∈ m, e = (k, g) := by
    intro e he
    obtain ⟨hf, hb⟩ := hbuckets e he
    obtain ⟨o, ho⟩ := List.exists_mem_of_ne_nil _ hf
    obtain ⟨hmem, hok⟩ := List.mem_filter.mp ho
    have he1 : e.1 = k := by
      rw [← hkey o hmem]; exact (by simpa using hok : bucketKey o.1 = e.1).symm
    have hfil : g.triples.filter (fun o => bucketKey o.1 = e.1) = g.triples := by
      apply List.filter_eq_self.mpr
      intro o' ho'
      simp [hkey o' ho', he1]
    rw [hfil] at hb
    have he2 : e.2 = g := by
      rw [hb]
      simp only [GlobalFunction.extend, GlobalFunction.new, List.nil_append, c1, c2, c3]
    exact Prod.ext he1 he2
  have hnonempty : m ≠ [] := by
    intro hnil
    have htr : g.triples ≠ [] := by
      intro ht; rw [ht] at c1; exact hne c1.symm
    obtain ⟨o, ho⟩ := List.exists_mem_of_ne_nil _ htr
    obtain ⟨b, hb⟩ := hcover o ho
    rw [hnil] at hb
    cases hb
  rw [hrun]
  congr 1
  match m, hasc, hall, hnonempty with
  | [e], _, hall, _ => rw [hall e (List.mem_cons_self _ _)]
  | e1 :: e2 :: rest, hasc, hall, _ =>
    have h1 := hall e1 (List.mem_cons_self _ _)
    have h2 := hall e2 (List.mem_cons_of_mem _ (List.mem_cons_self _ _))
    have hlt : stringLess e1.1 e2.1 = true :=
      (List.pairwise_cons.mp hasc).1 e2 (List.mem_cons_self _ _)
    rw [h1, h2, stringLess_irrefl] at hlt
    cases hlt

theorem slots_eq_enumFrom (first : Qualified) (argLists : List ArgumentList) :
    ∀ (returnVals : List ReturnValue) (k : Nat),
      slots first argLists returnVals k k
        = ((List.zip argLists returnVals).enumFrom k).map
            (fun x => { first := first, overload := x.1, index := x.1, args := x.2.1,
                        returnVal := x.2.2 }) := by
  induction argLists with
  | nil => intro returnVals k; simp [slots]
  | cons a rest ih =>
    intro returnVals k
    cases returnVals with
    | nil => simp [slots]
    | cons r rs => simp [slots, ih rs (k + 1)]

/-! ## Wrapper names and registry indices -/

/-- The character of a decimal digit has the code of `0` plus the digit and is neither an
underscore nor a minus sign. -/
theorem digitChar_value : ∀ k, k < 10 → (Nat.digitChar k).toNat - 48 = k
    ∧ Nat.digitChar k ≠ '_' ∧ Nat.digitChar k ≠ '-' := by
  decide

theorem decode_append (pre : List Char) (d : Char) :
    (pre ++ [d]).foldl (fun acc c => 10 * acc + (c.toNat - 48)) 0
      = 10 * pre.foldl (fun acc c => 10 * acc + (c.toNat - 48)) 0 + (d.toNat - 48) := by
  simp [List.foldl_append]

theorem toDigitsCore_spec : ∀ (fuel n : Nat) (ds : List Char), n < fuel →
    ∃ pre : List Char, Nat.toDigitsCore 10 fuel n ds = pre ++ ds
      ∧ pre.foldl (fun acc c => 10 * acc + (c.toNat - 48)) 0 = n
      ∧ ∀ c ∈ pre, c ≠ '_' ∧ c ≠ '-' := by
  intro fuel
  induction fuel with
  | zero => intro n ds h; omega
  | succ fuel ih =>
    intro n ds h
    have hmod : n % 10 < 10 := Nat.mod_lt _ (by omega)
    obtain ⟨hval, hund⟩ := digitChar_value (n % 10) hmod
    by_cases hz : n / 10 = 0
    · refine ⟨[Nat.digitChar (n % 10)], ?_, ?_, ?_⟩
      · simp [Nat.toDigitsCore, hz]
      · simp only [List.foldl_cons, List.foldl_nil, Nat.mul_zero, Nat.zero_add, hval]
        omega
      · intro c hc
        rw [List.mem_singleton.mp hc]
        exact hund
    · have hlt : n / 10 < fuel := by omega
      obtain ⟨pre, hpre, hdec, hno⟩ := ih (n / 10) (Nat.digitChar (n % 10) :: ds) hlt
      refine ⟨pre ++ [Nat.digitChar (n % 10)], ?_, ?_, ?_⟩
      · simp [Nat.toDigitsCore, hz, hpre]
      · rw [decode_append, hdec, hval]
        omega
      · intro c hc
        rcases List.mem_append.mp hc with h1 | h1
        · exact hno c h1
        · rw [List.mem_singleton.mp h1]
          exact hund

/-- The decimal rendering of a natural number decodes to the number and has neither an
underscore nor a minus sign. -/
theorem repr_data (n : Nat) :
    (Nat.repr n).data.foldl (fun acc c => 10 * acc + (c.toNat - 48)) 0 = n
    ∧ ∀ c ∈ (Nat.repr n).data, c ≠ '_' ∧ c ≠ '-' := by
  obtain ⟨pre, hpre, hdec, hno⟩ := toDigitsCore_spec (n + 1) n [] (Nat.lt_succ_self n)
  have hdata : (Nat.repr n).data = pre := by
    simp [Nat.repr, Nat.toDigits, hpre, List.asString]
  rw [hdata]
  exact ⟨hdec, hno⟩

theorem repr_injective (a b : Nat) (h : Nat.repr a = Nat.repr b) : a = b := by
  rw [← (repr_data a).1, ← (repr_data b).1, h]

/-- A size below `2^31` is kept by the conversion to `int`. -/
theorem toInt_of_lt (n : Nat) (h : n < 2 ^ 31) : toInt n = Int.ofNat n := by
  have hmod : n % 4294967296 = n := Nat.mod_eq_of_lt (by omega)
  unfold toInt
  rw [hmod, if_pos (by omega)]

/-- The conversion to `int` takes two sizes below `2^32` to two different values. -/
theorem toInt_injective (a b : Nat) (ha : a < 2 ^ 32) (hb : b < 2 ^ 32)
    (h : toInt a = toInt b) : a = b := by
  have ha' : a % 4294967296 = a := Nat.mod_eq_of_lt (by omega)
  have hb' : b % 4294967296 = b := Nat.mod_eq_of_lt (by omega)
  unfold toInt at h
  rw [ha', hb'] at h
  split at h <;> split at h
  · exact Int.ofNat.inj h
  · cases h
  · cases h
  · have := Int.negSucc.inj h
    omega

/-- The name suffix of a registry index below `2^31` is its decimal rendering. -/
theorem lexical_cast_toInt (n : Nat) (h : n < 2 ^ 31) :
    lexical_cast (toInt n) = Nat.repr n := by
  rw [toInt_of_lt n h]
  rfl

theorem lexical_cast_data (i : Int) : '_' ∉ (lexical_cast i).data := by
  cases i with
  | ofNat n =>
    intro hmem
    exact ((repr_data n).2 _ hmem).1 rfl
  | negSucc n =>
    intro hmem
    simp only [lexical_cast, String.data_append] at hmem
    rcases List.mem_append.mp hmem with h1 | h1
    · simp at h1
    · exact ((repr_data (n + 1)).2 _ h1).1 rfl

theorem lexical_cast_injective (a b : Int) (h : lexical_cast a = lexical_cast b) : a = b := by
  have hdata := congrArg String.data h
  cases a with
  | ofNat m =>
    cases b with
    | ofNat n =>
      have := repr_injective m n h
      rw [this]
    | negSucc n =>
      exfalso
      simp only [lexical_cast, String.data_append] at hdata
      have hmem : '-' ∈ (Nat.repr m).data := by rw [hdata]; simp
      exact ((repr_data m).2 _ hmem).2 rfl
  | negSucc m =>
    cases b with
    | ofNat n =>
      exfalso
      simp only [lexical_cast, String.data_append] at hdata
      have hmem : '-' ∈ (Nat.repr n).data := by rw [← hdata]; simp
      exact ((repr_data n).2 _ hmem).2 rfl
    | negSucc n =>
      simp only [lexical_cast, String.data_append] at hdata
      have htail : (Nat.repr (m + 1)).data = (Nat.repr (n + 1)).data := by
        simpa using hdata
      have := repr_injective (m + 1) (n + 1) (String.ext htail)
      have hmn : m = n := by omega
      rw [hmn]

theorem tail_after_last (x : Char) : ∀ (a c b d : List Char), x ∉ b → x ∉ d →
    a ++ x :: b = c ++ x :: d → b = d := by
  intro a c b d hb hd heq
  rcases List.append_eq_append_iff.mp heq with ⟨a', _, h2⟩ | ⟨c', _, h2⟩
  · cases a' with
    | nil => simpa using h2
    | cons y ys =>
      simp only [List.cons_append, List.cons.injEq] at h2
      exact absurd (h2.2 ▸ List.mem_append_right ys (List.mem_cons_self x d)) hb
  · cases c' with
    | nil => simpa using h2.symm
    | cons y ys =>
      simp only [List.cons_append, List.cons.injEq] at h2
      exact absurd (h2.2 ▸ List.mem_append_right ys (List.mem_cons_self x b)) hd

/-- Two wrapper names with different suffixes differ, whatever the qualified names they
start with. -/
theorem wrapper_name_index (u v : String) (a b : Int)
    (h : u ++ "_" ++ lexical_cast a = v ++ "_" ++ lexical_cast b) : a = b := by
  have hdata := congrArg String.data h
  simp only [String.data_append] at hdata
  rw [List.append_assoc, List.append_assoc] at hdata
  simp only [List.singleton_append] at hdata
  have htail := tail_after_last '_' _ _ _ _ (lexical_cast_data a) (lexical_cast_data b) hdata
  exact lexical_cast_injective a b (String.ext htail)

/-- A registry of at most `2^32` names, each ending with its index as an `int`, has no
duplicate. -/
theorem indexed_nodup (functionNames : List String) (h : Indexed functionNames)
    (hfit : functionNames.length ≤ 2 ^ 32) : functionNames.Nodup := by
  rw [List.nodup_iff_getElem?_ne_getElem?]
  intro i j hij hj heq
  have hi : i < functionNames.length := lt_trans hij hj
  obtain ⟨u, hu⟩ := h i _ (List.getElem?_eq_getElem hi)
  obtain ⟨v, hv⟩ := h j _ (List.getElem?_eq_getElem hj)
  rw [List.getElem?_eq_getElem hi, List.getElem?_eq_getElem hj, Option.some.injEq] at heq
  rw [heq, hv] at hu
  have := toInt_injective j i (by omega) (by omega) (wrapper_name_index v u _ _ hu)
  omega

theorem indexed_append (functionNames : List String) (es : List Slot)
    (h : Indexed functionNames)
    (hids : es.map Slot.index = List.range' functionNames.length es.length) :
    Indexed (functionNames ++ es.map Slot.wrapFunctionName) := by
  intro i s hs
  by_cases hi : i < functionNames.length
  · rw [List.getElem?_append_left hi] at hs
    exact h i s hs
  · rw [List.getElem?_append_right (by omega), List.getElem?_map] at hs
    obtain ⟨e, he, rfl⟩ := Option.map_eq_some'.mp hs
    obtain ⟨hj, hej⟩ := List.getElem?_eq_some_iff.mp he
    have hid := slot_id_of_index functionNames.length es hids _ hj
    rw [hej] at hid
    refine ⟨e.first.qualifiedName "", ?_⟩
    rw [Slot.wrapFunctionName, Slot.id, hid]
    congr 3
    omega

theorem indexed_matlab_proxy (names : ArgumentList → String) (g : GlobalFunction)
    (toolboxPath wrapperName : String) (typeAttributes : TypeAttributesTable) (p : Pass)
    (h : g.Aligned) (hp : Indexed p.functionNames) :
    ∃ out, g.matlab_proxy names toolboxPath wrapperName typeAttributes p = .ok out
      ∧ Indexed out.functionNames
      ∧ out.functionNames.length = p.functionNames.length + g.overloads.length := by
  obtain ⟨m, _, hasc, hbuckets, hcover, hproxy⟩ :=
    matlab_proxy_eq names g toolboxPath wrapperName typeAttributes p h
  have hsame : ∀ e ∈ m, e.2.argLists.length = e.2.overloads.length
      ∧ e.2.argLists.length ≤ e.2.returnVals.length := by
    intro e he
    obtain ⟨_, h2, h3, _, _⟩ := bucket_facts g h e (hbuckets e he).2
    exact ⟨h2, by omega⟩
  have hlen : (allSlots m p.functionNames.length).flatten.length = g.overloads.length := by
    rw [allSlots_length m _ (fun e he => (hsame e he).2),
      ← cluster_sizes g h m hasc hbuckets hcover]
    congr 1
    apply List.map_congr_left
    intro e he
    exact (hsame e he).1
  refine ⟨_, hproxy, indexed_append _ _ hp (allSlots_ids m _), ?_⟩
  show (p.functionNames ++ _).length = _
  rw [List.length_append, List.length_map, hlen]

/-- The conversion to `int` at the first size that does not fit: `2^31 - 1` is kept, and
`2^31` becomes `-2147483648`, which `lexical_cast` renders with its minus sign. -/
theorem toInt_wraps :
    toInt (2 ^ 31 - 1) = 2147483647 ∧ toInt (2 ^ 31) = -2147483648
    ∧ lexical_cast (toInt (2 ^ 31)) = "-2147483648" := by
  decide

/-- The slots whose indices are the registry indices from `reg` on, in a registry that
holds at most `2^31` names with theirs, have their index as `id`, and their name ends
with its decimal rendering. -/
theorem slot_id_fits (reg : Nat) (es : List Slot)
    (hids : es.map Slot.index = List.range' reg es.length) (hfit : reg + es.length ≤ 2 ^ 31) :
    ∀ e ∈ es, e.id = Int.ofNat e.index ∧ e.index < reg + es.length
      ∧ e.wrapFunctionName = e.first.qualifiedName "" ++ "_" ++ Nat.repr e.index := by
  intro e he
  obtain ⟨j, hj, rfl⟩ := List.getElem_of_mem he
  have hidx := slot_id_of_index reg es hids j hj
  have hlt : es[j].index < 2 ^ 31 := by omega
  refine ⟨toInt_of_lt _ hlt, by omega, ?_⟩
  rw [Slot.wrapFunctionName, Slot.id, lexical_cast_toInt _ hlt]

theorem take_sum_lt (l : List Nat) : ∀ (j i : Nat) (hj : j < l.length), i < l[j] →
    (l.take j).sum + i < l.sum := by
  induction l with
  | nil => intro j i hj; simp at hj
  | cons a rest ih =>
    intro j i hj hi
    cases j with
    | zero =>
      simp only [List.getElem_cons_zero] at hi
      simp only [List.take_zero, List.sum_nil, List.sum_cons]
      omega
    | succ j' =>
      simp only [List.getElem_cons_succ] at hi
      have := ih j' i (by simpa using hj) hi
      simp only [List.take_succ_cons, List.sum_cons]
      omega

/-- The registry index of the overload at position `i` of the bucket of index `j` is
below the size the registry has after the pass. -/
theorem position_lt_total (m : GlobalFunctionMap) (j i : Nat) (hj : j < m.length)
    (hi : i < (m[j]).2.overloads.length) :
    ((m.take j).map (fun e => e.2.overloads.length)).sum + i
      < (m.map (fun e => e.2.overloads.length)).sum := by
  rw [List.map_take]
  apply take_sum_lt _ j i (by simpa using hj)
  simpa using hi

/-- The wrapper of an iteration whose registry index is below `2^31`, chunk by chunk: its
name ends with the decimal digits of the index. -/
theorem wrapper_of_fitting (names : ArgumentList → String)
    (typeAttributes : TypeAttributesTable) (e : Slot) (hlt : e.index < 2 ^ 31) :
    Slot.wrapper names typeAttributes e
      = [Chunk.text "void ",
          Chunk.text (e.first.qualifiedName "" ++ "_" ++ Nat.repr e.index),
          Chunk.text "(int nargout, mxArray *out[], int nargin, const mxArray *in[])\n",
          Chunk.text "\x7b\n",
          Chunk.wrapTypeUnwrap e.returnVal,
          Chunk.text "  checkArguments(\"", Chunk.text (e.first.qualifiedName ""),
          Chunk.text "\",nargout,nargin,", Chunk.size e.args.length, Chunk.text ");\n",
          Chunk.matlab_unwrap e.args 0,
          (if e.returnVal.type1.name ≠ "void" then
            Chunk.wrap_result e.returnVal
              (e.first.qualifiedName "::" ++ "(" ++ names e.args ++ ")") typeAttributes
          else
            Chunk.text (e.first.qualifiedName "::" ++ "(" ++ names e.args ++ ");\n")),
          Chunk.text "\x7d\n"] := by
  rw [Slot.wrapper, Slot.wrapFunctionName, Slot.id, lexical_cast_toInt _ hlt, Slot.invocation]

/-- Why the registry is bounded in the theorems on ids: on a registry of `2^31` names the
`int id` of line 91 is negative. The two overloads of `foo` in namespace `m` then get the
callee ids `-2147483648` and `-2147483647` and the wrapper names `mfoo_-2147483648` and
`mfoo_-2147483647`, pushed at the indices `2^31` and `2^31 + 1`. -/
theorem registry_past_int (names : ArgumentList → String) (p : Pass)
    (hp : p.functionNames.length = 2 ^ 31) :
    ∃ out : Pass,
      fooGroup.matlab_proxy names "toolbox" "toolbox_wrapper" noAttributes p = .ok out
      ∧ out.functionNames = p.functionNames ++ ["mfoo_-2147483648", "mfoo_-2147483647"]
      ∧ ((out.mfiles.drop p.mfiles.length).flatMap (fun f => f.oss)).filter Chunk.isCall
          = [Chunk.emit_conditional_call [⟨"int", "n"⟩] voidReturn "toolbox_wrapper"
                (-2147483648) true,
              Chunk.emit_conditional_call [⟨"double", "x"⟩] doubleReturn "toolbox_wrapper"
                (-2147483647) true] := by
  obtain ⟨m, hrun, _, _, _, hproxy⟩ :=
    matlab_proxy_eq names fooGroup "toolbox" "toolbox_wrapper" noAttributes p (by decide)
  have hm : m = [("m", fooGroup)] := by
    have hc : cluster fooGroup fooGroup.overloads 0 [] = .ok [("m", fooGroup)] := rfl
    rw [hc] at hrun
    exact (Except.ok.inj hrun).symm
  subst hm
  refine ⟨_, hproxy, ?_, ?_⟩
  · show p.functionNames ++ _ = _
    rw [hp]
    exact congrArg (fun l => p.functionNames ++ l) (by decide)
  · show ((List.drop p.mfiles.length (p.mfiles ++ _)).flatMap _).filter _ = _
    rw [List.drop_left, hp]
    decide
/-! ## Further facts on the two loops of matlab_proxy -/

/-- The first loop of `matlab_proxy` returns only when the argument lists and return
values reach as far as the qualified names it visits. -/
theorem cluster_ok_lengths (g : GlobalFunction) (qs : List Qualified) :
    ∀ (i : Nat) (m m' : GlobalFunctionMap), cluster g qs i m = .ok m' →
      qs = [] ∨ (qs.length + i ≤ g.argLists.length ∧ qs.length + i ≤ g.returnVals.length) := by
  induction qs with
  | nil => intro i m m' _; left; rfl
  | cons q rest ih =>
    intro i m m' hrun
    right
    cases hr : g.returnVals[i]? with
    | none => simp [cluster, vectorAt, hr] at hrun; cases hrun
    | some r =>
      cases ha : g.argLists[i]? with
      | none => simp [cluster, vectorAt, hr, ha] at hrun; cases hrun
      | some a =>
        have hir := (List.getElem?_eq_some_iff.mp hr).1
        have hia := (List.getElem?_eq_some_iff.mp ha).1
        simp only [cluster, vectorAt, hr, ha] at hrun
        rcases ih (i + 1) _ m' hrun with hnil | ⟨h1, h2⟩
        · subst hnil
          simp only [List.length_cons, List.length_nil]
          omega
        · simp only [List.length_cons]
          omega

/-- The only exception of the first loop of `matlab_proxy` is the `out_of_range` of
`vector::at`. -/
theorem cluster_error (g : GlobalFunction) (qs : List Qualified) :
    ∀ (i : Nat) (m : GlobalFunctionMap) (e : Error), cluster g qs i m = .error e →
      e = .out_of_range := by
  induction qs with
  | nil => intro i m e hrun; simp [cluster] at hrun
  | cons q rest ih =>
    intro i m e hrun
    cases hr : g.returnVals[i]? with
    | none =>
      simp only [cluster, vectorAt, hr] at hrun
      cases hrun
      rfl
    | some r =>
      cases ha : g.argLists[i]? with
      | none =>
        simp only [cluster, vectorAt, hr, ha] at hrun
        cases hrun
        rfl
      | some a =>
        simp only [cluster, vectorAt, hr, ha] at hrun
        exact ih (i + 1) _ e hrun

/-- Whenever the first loop of `matlab_proxy` returns, every bucket has an overload and
at least as many return values as argument lists, and then the second loop returns. -/
theorem cluster_buckets_filled (g : GlobalFunction) (m : GlobalFunctionMap)
    (hrun : cluster g g.overloads 0 [] = .ok m) :
    ∀ e ∈ m, e.2.overloads ≠ [] ∧ e.2.argLists.length ≤ e.2.returnVals.length := by
  have hlen : g.overloads.length ≤ g.argLists.length
      ∧ g.overloads.length ≤ g.returnVals.length := by
    rcases cluster_ok_lengths g g.overloads 0 [] m hrun with hnil | ⟨h1, h2⟩
    · rw [hnil]; simp
    · exact ⟨by simpa using h1, by simpa using h2⟩
  obtain ⟨m', hrun', _, hbuckets, _⟩ := cluster_spec_of_le g hlen.1 hlen.2
  have hm : m' = m := by
    rw [hrun] at hrun'
    exact (Except.ok.inj hrun').symm
  subst hm
  intro e he
  obtain ⟨hne, hb⟩ := hbuckets e he
  obtain ⟨h1, h2, h3, _, _⟩ := extend_new g.name g.verbose_
    (g.triples.filter (fun o => bucketKey o.1 = e.1))
  rw [← hb] at h1 h2 h3
  constructor
  · rw [h1]; simpa using hne
  · rw [h2, h3]; simp

theorem slots_eq_enumFrom_offset (first : Qualified) (id0 : Nat)
    (argLists : List ArgumentList) :
    ∀ (returnVals : List ReturnValue) (k : Nat),
      slots first argLists returnVals k (id0 + k)
        = ((List.zip argLists returnVals).enumFrom k).map
            (fun x => { first := first, overload := x.1, index := id0 + x.1, args := x.2.1,
                        returnVal := x.2.2 }) := by
  induction argLists with
  | nil => intro returnVals k; simp [slots]
  | cons a rest ih =>
    intro returnVals k
    cases returnVals with
    | nil => simp [slots]
    | cons r rs =>
      simp only [slots, List.zip_cons_cons, List.enumFrom_cons, List.map_cons]
      rw [Nat.add_assoc, ih rs (k + 1)]

theorem intercalate_go_acc (s : String) (l : List String) :
    ∀ acc : String, String.intercalate.go acc s l = acc ++ String.intercalate.go "" s l := by
  induction l with
  | nil => intro acc; simp [String.intercalate.go]
  | cons a rest ih =>
    intro acc
    simp only [String.intercalate.go]
    rw [ih (acc ++ s ++ a), ih ("" ++ s ++ a)]
    simp [String.append_assoc]

theorem intercalate_cons_cons (s a b : String) (l : List String) :
    s.intercalate (a :: b :: l) = a ++ s ++ s.intercalate (b :: l) := by
  simp only [String.intercalate, String.intercalate.go]
  rw [intercalate_go_acc s l (a ++ s ++ b), intercalate_go_acc s l b]
  simp [String.append_assoc]

theorem foldl_delimited (d : String) (namespaces : List String) (name : String) :
    namespaces.foldl (fun result ns => result ++ (ns ++ d)) "" ++ name
      = d.intercalate (namespaces ++ [name]) := by
  induction namespaces with
  | nil => simp [String.intercalate, String.intercalate.go]
  | cons n rest ih =>
    simp only [List.foldl_cons]
    rw [foldl_append_start (fun ns => ns ++ d) rest ("" ++ (n ++ d)), String.append_assoc, ih]
    cases hrest : rest ++ [name] with
    | nil => simp at hrest
    | cons x l =>
      rw [List.cons_append, hrest, intercalate_cons_cons]
      simp [String.append_assoc]

theorem accepted_length_le (calls : List Call) : ∀ g : GlobalFunction,
    (accepted g calls).length ≤ calls.length := by
  induction calls with
  | nil => intro g; simp [accepted]
  | cons c cs ih =>
    intro g
    rcases addOverload_outcome g c.verbose c.overload c.args c.retVal with ⟨h, _⟩ | ⟨h, _⟩
    · simp only [accepted, h, List.length_cons]
      exact Nat.succ_le_succ (ih _)
    · simp only [accepted, h, List.length_cons]
      exact Nat.le_succ_of_le (ih _)

/-- After calls of `addOverload` that all return, the stored flag is the flag of the last
call. -/
theorem addOverloads_flag (calls : List Call) : ∀ (g : GlobalFunction) (hne : calls ≠ []),
    accepted g calls = calls →
    (addOverloads g calls).verbose_ = (calls.getLast hne).verbose := by
  induction calls with
  | nil => intro g hne; exact absurd rfl hne
  | cons c cs ih =>
    intro g hne hall
    rcases addOverload_outcome g c.verbose c.overload c.args c.retVal with ⟨h, _⟩ | ⟨h, _⟩
    · simp only [accepted, h, List.cons.injEq, true_and] at hall
      simp only [addOverloads, h]
      by_cases hcs : cs = []
      · subst hcs
        simp [addOverloads]
      · rw [ih _ hcs hall, List.getLast_cons hcs]
    · simp only [accepted, h] at hall
      have hle := accepted_length_le cs g
      rw [hall] at hle
      simp at hle

theorem addOverloads_aligned (calls : List Call) (g : GlobalFunction) (h : g.Aligned) :
    (addOverloads g calls).Aligned := by
  obtain ⟨h1, h2, h3⟩ := addOverloads_sequences calls g
  unfold GlobalFunction.Aligned
  rw [h1, h2, h3]
  simp [h.1, h.2]

theorem mem_zipWith_script (toolboxPath wrapperName : String) (f : FileWriter)
    (m : GlobalFunctionMap) : ∀ ess : List (List Slot),
    f ∈ List.zipWith (fun e es => dispatchScript toolboxPath wrapperName e.2 es) m ess →
    ∃ e ∈ m, f.verbose = e.2.verbose_
      ∧ f.filename = e.2.overload1.matlabName toolboxPath := by
  induction m with
  | nil => intro ess hf; simp at hf
  | cons e rest ih =>
    intro ess hf
    cases ess with
    | nil => simp at hf
    | cons es ess' =>
      simp only [List.zipWith_cons_cons, List.mem_cons] at hf
      rcases hf with hf | hf
      · exact ⟨e, List.mem_cons_self _ _, by rw [hf]; rfl, by rw [hf]; rfl⟩
      · obtain ⟨e', he', hv⟩ := ih ess' hf
        exact ⟨e', List.mem_cons_of_mem _ he', hv⟩

theorem endl_not_mem_wrapper (names : ArgumentList → String)
    (typeAttributes : TypeAttributesTable) (e : Slot) :
    Chunk.endl ∉ Slot.wrapper names typeAttributes e := by
  by_cases h : e.returnVal.type1.name = "void" <;>
    simp [Slot.wrapper, Slot.invocation, h]

theorem endl_not_mem_wrappers (names : ArgumentList → String)
    (typeAttributes : TypeAttributesTable) (es : List Slot) :
    Chunk.endl ∉ es.flatMap (Slot.wrapper names typeAttributes) := by
  intro hmem
  obtain ⟨e, _, he⟩ := List.mem_flatMap.mp hmem
  exact endl_not_mem_wrapper names typeAttributes e he

theorem filter_isEndl_eq_nil (cs : List Chunk) (h : Chunk.endl ∉ cs) :
    cs.filter Chunk.isEndl = [] := by
  apply List.filter_eq_nil_iff.mpr
  intro c hc hend
  cases c <;> simp [Chunk.isEndl] at hend
  exact h hc

theorem allWrappers_intercalate (names : ArgumentList → String)
    (typeAttributes : TypeAttributesTable) (ess : List (List Slot)) :
    allWrappers names typeAttributes ess ess.length
      = [Chunk.endl].intercalate
          (ess.map (fun es => es.flatMap (Slot.wrapper names typeAttributes))) := by
  induction ess with
  | nil => simp [allWrappers, List.intercalate]
  | cons es rest ih =>
    simp only [allWrappers, List.length_cons, Nat.add_sub_cancel, ih]
    cases rest with
    | nil => simp [List.intercalate]
    | cons y ys => simp [List.intercalate]

theorem allWrappers_count_endl (names : ArgumentList → String)
    (typeAttributes : TypeAttributesTable) (ess : List (List Slot)) :
    ((allWrappers names typeAttributes ess ess.length).filter Chunk.isEndl).length
      = ess.length - 1 := by
  induction ess with
  | nil => simp [allWrappers]
  | cons es rest ih =>
    simp only [allWrappers, List.length_cons, Nat.add_sub_cancel, List.filter_append,
      List.length_append, ih,
      filter_isEndl_eq_nil _ (endl_not_mem_wrappers names typeAttributes es)]
    cases rest with
    | nil => simp
    | cons y ys => simp [Chunk.isEndl, List.filter_cons]; omega

theorem allSlots_lengths (m : GlobalFunctionMap) : ∀ id : Nat,
    (∀ e ∈ m, e.2.argLists.length ≤ e.2.returnVals.length) →
    (allSlots m id).map List.length = m.map (fun e => e.2.argLists.length) := by
  induction m with
  | nil => intro id _; simp [allSlots]
  | cons e rest ih =>
    intro id h
    simp only [allSlots, List.map_cons]
    rw [ih _ (fun e' he' => h e' (List.mem_cons_of_mem _ he')), bucketSlots,
      slots_length _ _ _ _ _ (h e (List.mem_cons_self _ _))]

theorem slots_first (first : Qualified) (argLists : List ArgumentList) :
    ∀ (returnVals : List ReturnValue) (overload id : Nat),
      ∀ e ∈ slots first argLists returnVals overload id, e.first = first := by
  induction argLists with
  | nil => intro returnVals overload id e he; simp [slots] at he
  | cons a rest ih =>
    intro returnVals overload id e he
    cases returnVals with
    | nil => simp [slots] at he
    | cons r rs =>
      simp only [slots, List.mem_cons] at he
      rcases he with he | he
      · rw [he]
      · exact ih rs _ _ e he

/-- The names a bucket pushes on the registry, by its stored qualified names. -/
theorem bucket_names (b : GlobalFunction) (id0 k : Nat)
    (h1 : b.argLists.length = b.overloads.length)
    (h2 : b.argLists.length ≤ b.returnVals.length)
    (hK : ∀ q ∈ b.overloads,
      String.join q.namespaces ++ q.name = b.overload1.qualifiedName "") :
    (bucketSlots b (id0 + k)).map Slot.wrapFunctionName
      = (b.overloads.enumFrom k).map
          (fun x => String.join x.2.namespaces ++ x.2.name ++ "_" ++ lexical_cast (toInt (id0 + x.1))) := by
  have hleft : (bucketSlots b (id0 + k)).map Slot.wrapFunctionName
      = ((bucketSlots b (id0 + k)).map Slot.index).map
          (fun i => b.overload1.qualifiedName "" ++ "_" ++ lexical_cast (toInt i)) := by
    rw [List.map_map]
    apply List.map_congr_left
    intro e he
    rw [Function.comp_apply, Slot.wrapFunctionName, Slot.id, slots_first _ _ _ _ _ e he]
  have hright : (b.overloads.enumFrom k).map
        (fun x => String.join x.2.namespaces ++ x.2.name ++ "_" ++ lexical_cast (toInt (id0 + x.1)))
      = ((b.overloads.enumFrom k).map Prod.fst).map
          (fun i => b.overload1.qualifiedName "" ++ "_" ++ lexical_cast (toInt (id0 + i))) := by
    rw [List.map_map]
    apply List.map_congr_left
    intro x hx
    have hmem : x.2 ∈ b.overloads := by
      have := List.mem_map_of_mem Prod.snd hx
      rwa [List.enumFrom_map_snd] at this
    rw [Function.comp_apply, hK x.2 hmem]
  rw [hleft, hright, bucketSlots, slots_ids, slots_length _ _ _ _ _ h2, h1,
    List.enumFrom_map_fst, ← List.map_add_range' id0 k, List.map_map]
  apply List.map_congr_left
  intro i _
  rw [Function.comp_apply]

/-- The names a pass pushes on the registry, by the stored qualified names of the
buckets in the order visited. -/
theorem allSlots_names (m : GlobalFunctionMap) : ∀ (id0 k : Nat),
    (∀ e ∈ m, e.2.argLists.length = e.2.overloads.length
      ∧ e.2.argLists.length ≤ e.2.returnVals.length
      ∧ ∀ q ∈ e.2.overloads,
          String.join q.namespaces ++ q.name = e.2.overload1.qualifiedName "") →
    (allSlots m (id0 + k)).flatten.map Slot.wrapFunctionName
      = ((m.flatMap (fun e => e.2.overloads)).enumFrom k).map
          (fun x => String.join x.2.namespaces ++ x.2.name ++ "_" ++ lexical_cast (toInt (id0 + x.1))) := by
  induction m with
  | nil => intro id0 k _; simp [allSlots]
  | cons e rest ih =>
    intro id0 k h
    obtain ⟨h1, h2, hK⟩ := h e (List.mem_cons_self _ _)
    have hlen : (bucketSlots e.2 (id0 + k)).length = e.2.overloads.length := by
      rw [bucketSlots, slots_length _ _ _ _ _ h2, h1]
    simp only [allSlots, List.flatten_cons, List.map_append, List.flatMap_cons,
      List.enumFrom_append]
    rw [bucket_names e.2 id0 k h1 h2 hK, hlen, Nat.add_assoc,
      ih id0 (k + e.2.overloads.length) (fun e' he' => h e' (List.mem_cons_of_mem _ he'))]

theorem zipWith_script_filenames (toolboxPath wrapperName : String)
    (m : GlobalFunctionMap) : ∀ ess : List (List Slot), ess.length = m.length →
    (List.zipWith (fun e es => dispatchScript toolboxPath wrapperName e.2 es) m ess).map
        FileWriter.filename
      = m.map (fun e => e.2.overload1.matlabName toolboxPath) := by
  induction m with
  | nil => intro ess _; simp
  | cons e rest ih =>
    intro ess h
    cases ess with
    | nil => simp at h
    | cons es ess' =>
      simp only [List.zipWith_cons_cons, List.map_cons, ih ess' (by simpa using h)]
      rfl

/-- In a bucket of a group whose overloads all have the leaf name of the group, every
stored qualified name renders, without delimiter, as the first one does. -/
theorem bucket_unique_name (g : GlobalFunction) (h : g.Aligned)
    (hleaf : ∀ q ∈ g.overloads, q.name = g.name) (e : String × GlobalFunction)
    (hne : e.2.overloads ≠ [])
    (hb : e.2 = (GlobalFunction.new g.name g.verbose_).extend
        (g.triples.filter (fun o => bucketKey o.1 = e.1))) :
    ∀ q ∈ e.2.overloads,
      String.join q.namespaces ++ q.name = e.2.overload1.qualifiedName "" := by
  obtain ⟨hq, _, _, _, _⟩ := bucket_facts g h e hb
  obtain ⟨hfin, hfkey⟩ := hq _ (overload1_mem _ hne)
  intro q hmem
  obtain ⟨hqin, hqkey⟩ := hq q hmem
  rw [concatenated_rendering, ← qualifiedName_eq_join, ← qualifiedName_eq_join]
  have e1 : qualifiedName "" e.2.overload1.namespaces = e.1 := hfkey
  have e2 : qualifiedName "" q.namespaces = e.1 := hqkey
  rw [e1, e2, hleaf _ hfin, hleaf _ hqin]

theorem check_infix_wrapper (names : ArgumentList → String)
    (typeAttributes : TypeAttributesTable) (e : Slot) :
    [Chunk.text "void ", Chunk.text e.wrapFunctionName,
      Chunk.text "(int nargout, mxArray *out[], int nargin, const mxArray *in[])\n",
      Chunk.text "\x7b\n", Chunk.wrapTypeUnwrap e.returnVal,
      Chunk.text "  checkArguments(\"", Chunk.text (e.first.qualifiedName ""),
      Chunk.text "\",nargout,nargin,", Chunk.size e.args.length, Chunk.text ");\n"]
      <:+: Slot.wrapper names typeAttributes e := by
  refine (List.prefix_iff_eq_append.mpr ?_).isInfix
  simp [Slot.wrapper]

/-! ## matlabName is injective -/

theorem matlabName_data (q : Qualified) (root : String) :
    (q.matlabName root).data = root.data ++ pathTail q.namespaces q.name := by
  have hgen : ∀ (nss : List String) (acc : String),
      (nss.foldl (fun result ns => result ++ ("/+" ++ ns)) acc
          ++ ("/" ++ q.name ++ ".m")).data
        = acc.data ++ pathTail nss q.name := by
    intro nss
    induction nss with
    | nil =>
      intro acc
      simp only [List.foldl_nil, String.data_append, pathTail]
      rfl
    | cons ns rest ih =>
      intro acc
      simp only [List.foldl_cons]
      rw [ih (acc ++ ("/+" ++ ns))]
      simp only [String.data_append, pathTail, List.append_assoc]
      rfl
  exact hgen q.namespaces root

theorem pathTail_head (nss : List String) (name : String) :
    ∃ t : List Char, pathTail nss name = '/' :: t := by
  cases nss with
  | nil => exact ⟨_, rfl⟩
  | cons ns rest => exact ⟨_, rfl⟩

theorem split_at_first (x : Char) (a b s t : List Char) (ha : x ∉ a) (hb : x ∉ b)
    (heq : a ++ x :: s = b ++ x :: t) : a = b ∧ s = t := by
  rcases List.append_eq_append_iff.mp heq with ⟨a', h1, h2⟩ | ⟨b', h1, h2⟩
  · cases a' with
    | nil =>
      simp only [List.append_nil] at h1
      simp only [List.nil_append, List.cons.injEq, true_and] at h2
      exact ⟨h1.symm, h2⟩
    | cons y ys =>
      simp only [List.cons_append, List.cons.injEq] at h2
      rw [h1, ← h2.1] at hb
      exact absurd (List.mem_append_right a (List.mem_cons_self x ys)) hb
  · cases b' with
    | nil =>
      simp only [List.append_nil] at h1
      simp only [List.nil_append, List.cons.injEq, true_and] at h2
      exact ⟨h1, h2.symm⟩
    | cons y ys =>
      simp only [List.cons_append, List.cons.injEq] at h2
      rw [h1, ← h2.1] at ha
      exact absurd (List.mem_append_right b (List.mem_cons_self x ys)) ha

theorem pathTail_injective (nss1 : List String) :
    ∀ (nss2 : List String) (n1 n2 : String),
      '/' ∉ n1.data → '/' ∉ n2.data →
      (∀ ns ∈ nss1, '/' ∉ ns.data) → (∀ ns ∈ nss2, '/' ∉ ns.data) →
      pathTail nss1 n1 = pathTail nss2 n2 → nss1 = nss2 ∧ n1 = n2 := by
  induction nss1 with
  | nil =>
    intro nss2 n1 n2 h1 h2 _ _ heq
    cases nss2 with
    | nil =>
      simp only [pathTail, List.cons.injEq, true_and] at heq
      exact ⟨rfl, String.ext (List.append_cancel_right heq)⟩
    | cons b bs =>
      exfalso
      obtain ⟨t, ht⟩ := pathTail_head bs n2
      simp only [pathTail, List.cons.injEq, true_and, ht] at heq
      have hmem : '/' ∈ n1.data ++ ['.', 'm'] := by
        rw [heq]
        exact List.mem_cons_of_mem _ (List.mem_append_right _ (List.mem_cons_self _ _))
      rcases List.mem_append.mp hmem with hm | hm
      · exact h1 hm
      · simp at hm
  | cons a as ih =>
    intro nss2 n1 n2 h1 h2 hs1 hs2 heq
    cases nss2 with
    | nil =>
      exfalso
      obtain ⟨t, ht⟩ := pathTail_head as n1
      simp only [pathTail, List.cons.injEq, true_and, ht] at heq
      have hmem : '/' ∈ n2.data ++ ['.', 'm'] := by
        rw [← heq]
        exact List.mem_cons_of_mem _ (List.mem_append_right _ (List.mem_cons_self _ _))
      rcases List.mem_append.mp hmem with hm | hm
      · exact h2 hm
      · simp at hm
    | cons b bs =>
      obtain ⟨t1, ht1⟩ := pathTail_head as n1
      obtain ⟨t2, ht2⟩ := pathTail_head bs n2
      have heq' := heq
      simp only [pathTail, List.cons.injEq, true_and] at heq'
      rw [ht1, ht2] at heq'
      obtain ⟨hab, htt⟩ := split_at_first '/' a.data b.data t1 t2
        (hs1 a (List.mem_cons_self _ _)) (hs2 b (List.mem_cons_self _ _)) heq'
      have htail : pathTail as n1 = pathTail bs n2 := by rw [ht1, ht2, htt]
      obtain ⟨hrest, hn⟩ := ih bs n1 n2 h1 h2
        (fun ns hns => hs1 ns (List.mem_cons_of_mem _ hns))
        (fun ns hns => hs2 ns (List.mem_cons_of_mem _ hns)) htail
      exact ⟨by rw [String.ext hab, hrest], hn⟩

/-- For a fixed root, `matlabName` is injective on the qualified names without `/`. -/
theorem matlabName_injective (root : String) (q1 q2 : Qualified) (h1 : q1.SlashFree)
    (h2 : q2.SlashFree) (heq : q1.matlabName root = q2.matlabName root) : q1 = q2 := by
  have hdata := congrArg String.data heq
  rw [matlabName_data, matlabName_data] at hdata
  obtain ⟨hns, hn⟩ := pathTail_injective q1.namespaces q2.namespaces q1.name q2.name
    h1.1 h2.1 h1.2 h2.2 (List.append_cancel_left hdata)
  cases q1
  cases q2
  simp only at hns hn
  rw [hns, hn]

theorem matlabName_form (q : Qualified) (root : String) :
    q.matlabName root
      = root ++ String.join (q.namespaces.map (fun ns => "/+" ++ ns))
          ++ "/" ++ q.name ++ ".m" := by
  have hjoin : ∀ l : List String,
      l.foldl (fun r ns => r ++ ("/+" ++ ns)) ""
        = String.join (l.map (fun ns => "/+" ++ ns)) := by
    intro l
    unfold String.join
    rw [List.foldl_map]
  unfold Qualified.matlabName
  rw [foldl_append_start (fun ns => "/+" ++ ns) q.namespaces root, hjoin]
  simp only [String.append_assoc]

theorem bucket_paths_nodup (g : GlobalFunction) (h : g.Aligned)
    (hslash : ∀ q ∈ g.overloads, q.SlashFree) (toolboxPath : String)
    (m : GlobalFunctionMap) (hasc : m.Ascending)
    (hbuckets : ∀ e ∈ m, g.triples.filter (fun o => bucketKey o.1 = e.1) ≠ []
      ∧ e.2 = (GlobalFunction.new g.name g.verbose_).extend
          (g.triples.filter (fun o => bucketKey o.1 = e.1))) :
    (m.map (fun e => e.2.overload1.matlabName toolboxPath)).Nodup := by
  have hfirst : ∀ e ∈ m, e.2.overload1 ∈ g.overloads ∧ bucketKey e.2.overload1 = e.1 := by
    intro e he
    obtain ⟨hne, hb⟩ := hbuckets e he
    obtain ⟨hall, _, _, _, _⟩ := bucket_facts g h e hb
    have hov : e.2.overloads ≠ [] := by
      obtain ⟨h1, _⟩ := extend_new g.name g.verbose_
        (g.triples.filter (fun o => bucketKey o.1 = e.1))
      rw [hb, h1]
      simpa using hne
    exact hall _ (overload1_mem e.2 hov)
  have hnd : m.Nodup := List.Nodup.of_map _ (ascending_keys_nodup m hasc)
  refine List.Nodup.map_on ?_ hnd
  intro e1 he1 e2 he2 heq
  obtain ⟨hm1, hk1⟩ := hfirst e1 he1
  obtain ⟨hm2, hk2⟩ := hfirst e2 he2
  have hq := matlabName_injective toolboxPath _ _ (hslash _ hm1) (hslash _ hm2) heq
  have hkey : e1.1 = e2.1 := by rw [← hk1, ← hk2, hq]
  have hval : e1.2 = e2.2 := by
    rw [(hbuckets e1 he1).2, (hbuckets e2 he2).2, hkey]
  exact Prod.ext hkey hval

/-! ## Regrouping by namespace -/

/-- C5: for every group (its three sequences equally long), the first loop of
`matlab_proxy` returns a map in which no two buckets have the same key, every overload of
the group has the bucket keyed by the concatenation of its namespace segments, each bucket
holds exactly the overloads of the group that have its key, each with its own argument
list and return value, in their order in the group, and the bucket sizes sum to the number
of overloads. -/
theorem cluster_partitions_overloads (g : GlobalFunction) (h : g.Aligned) :
    ∃ m : GlobalFunctionMap, cluster g g.overloads 0 [] = .ok m
      ∧ (g.triples.map (fun o => o.1) = g.overloads
        ∧ g.triples.map (fun o => o.2.1) = g.argLists
        ∧ g.triples.map (fun o => o.2.2) = g.returnVals)
      ∧ m.Pairwise (fun a b => a.1 ≠ b.1)
      ∧ (∀ o ∈ g.triples, ∃ b, (String.join o.1.namespaces, b) ∈ m)
      ∧ (∀ e ∈ m,
          e.2.overloads
              = (g.triples.filter (fun o => String.join o.1.namespaces = e.1)).map
                  (fun o => o.1)
          ∧ e.2.argLists
              = (g.triples.filter (fun o => String.join o.1.namespaces = e.1)).map
                  (fun o => o.2.1)
          ∧ e.2.returnVals
              = (g.triples.filter (fun o => String.join o.1.namespaces = e.1)).map
                  (fun o => o.2.2))
      ∧ (m.map (fun e => e.2.overloads.length)).sum = g.overloads.length := by
  obtain ⟨m, hrun, hasc, hbuckets, hcover⟩ := cluster_spec g h
  have hkey : ∀ q : Qualified, bucketKey q = String.join q.namespaces :=
    fun q => qualifiedName_eq_join q.namespaces
  have hfil : ∀ k : String, g.triples.filter (fun o => String.join o.1.namespaces = k)
      = g.triples.filter (fun o => bucketKey o.1 = k) := by
    intro k; congr 1; funext o; rw [hkey]
  refine ⟨m, hrun, triples_components g h, ?_, ?_, ?_, ?_⟩
  · refine hasc.imp ?_
    intro a b hab heq
    rw [heq, stringLess_irrefl] at hab
    cases hab
  · intro o ho
    rw [← hkey]
    exact hcover o ho
  · intro e he
    obtain ⟨_, hb⟩ := hbuckets e he
    rw [hfil e.1]
    refine ⟨?_, ?_, ?_⟩ <;>
      · conv_lhs => rw [hb]
        simp [GlobalFunction.extend, GlobalFunction.new]
  · exact cluster_sizes g h m hasc hbuckets hcover

/-- C5, at the group `bar` of two namespaces. -/
theorem cluster_partitions_overloads_witness :
    barGroup.Aligned
    ∧ ∃ m : GlobalFunctionMap, cluster barGroup barGroup.overloads 0 [] = .ok m
      ∧ (barGroup.triples.map (fun o => o.1) = barGroup.overloads
        ∧ barGroup.triples.map (fun o => o.2.1) = barGroup.argLists
        ∧ barGroup.triples.map (fun o => o.2.2) = barGroup.returnVals)
      ∧ m.Pairwise (fun a b => a.1 ≠ b.1)
      ∧ (∀ o ∈ barGroup.triples, ∃ b, (String.join o.1.namespaces, b) ∈ m)
      ∧ (∀ e ∈ m,
          e.2.overloads
              = (barGroup.triples.filter (fun o => String.join o.1.namespaces = e.1)).map
                  (fun o => o.1)
          ∧ e.2.argLists
              = (barGroup.triples.filter (fun o => String.join o.1.namespaces = e.1)).map
                  (fun o => o.2.1)
          ∧ e.2.returnVals
              = (barGroup.triples.filter (fun o => String.join o.1.namespaces = e.1)).map
                  (fun o => o.2.2))
      ∧ (m.map (fun e => e.2.overloads.length)).sum = barGroup.overloads.length :=
  ⟨by decide, cluster_partitions_overloads barGroup (by decide)⟩

/-! ## Wrapper names, callee ids and the registry -/

/-- C1: for every group (its three sequences equally long) and every initial registry
that, with the names of the group, holds at most `2^31` names (every `int id` of line 91
then is the size it is taken from), `matlab_proxy` returns, and one list `es` of records,
one for each overload of the group, describes both artifacts in the order written: the
dispatch branches of the scripts written in the pass are the calls
`emit_conditional_call` with the callee ids `e.id`, the wrappers appended to the shared
file (the separators between buckets apart) are the wrappers named `e.wrapFunctionName`,
the registry has gained these names in this order, the ids are the registry indices from
the size of the initial registry on, and when the pass is finished the registry holds at
index `e.id` the name `e.wrapFunctionName`, which ends with the decimal digits of
`e.id`. -/
theorem callee_id_indexes_wrapper_name (names : ArgumentList → String)
    (g : GlobalFunction) (toolboxPath wrapperName : String)
    (typeAttributes : TypeAttributesTable) (p : Pass) (h : g.Aligned)
    (hfit : p.functionNames.length + g.overloads.length ≤ 2 ^ 31) :
    ∃ (out : Pass) (es : List Slot),
      g.matlab_proxy names toolboxPath wrapperName typeAttributes p = .ok out
      ∧ es.length = g.overloads.length
      ∧ ((out.mfiles.drop p.mfiles.length).flatMap (fun f => f.oss)).filter Chunk.isCall
          = es.map (fun e =>
              Chunk.emit_conditional_call e.args e.returnVal wrapperName e.id true)
      ∧ (∃ written : List Chunk, out.file.oss = p.file.oss ++ written
          ∧ written.filter (fun c => !c.isEndl)
              = es.flatMap (Slot.wrapper names typeAttributes))
      ∧ out.functionNames = p.functionNames ++ es.map Slot.wrapFunctionName
      ∧ es.map Slot.id
          = (List.range' p.functionNames.length g.overloads.length).map Int.ofNat
      ∧ ∀ e ∈ es, 0 ≤ e.id
          ∧ out.functionNames[e.id.toNat]? = some e.wrapFunctionName
          ∧ e.wrapFunctionName = e.first.qualifiedName "" ++ "_" ++ Nat.repr e.id.toNat := by
  obtain ⟨m, _, hasc, hbuckets, hcover, hproxy⟩ :=
    matlab_proxy_eq names g toolboxPath wrapperName typeAttributes p h
  have hsame : ∀ e ∈ m, e.2.argLists.length = e.2.overloads.length
      ∧ e.2.argLists.length ≤ e.2.returnVals.length := by
    intro e he
    obtain ⟨_, hb⟩ := hbuckets e he
    obtain ⟨h1, h2, h3, _, _⟩ := extend_new g.name g.verbose_
      (g.triples.filter (fun o => bucketKey o.1 = e.1))
    rw [← hb] at h1 h2 h3
    constructor
    · rw [h1, h2]; simp
    · rw [h2, h3]; simp
  have hlen : (allSlots m p.functionNames.length).flatten.length = g.overloads.length := by
    rw [allSlots_length m _ (fun e he => (hsame e he).2),
      ← cluster_sizes g h m hasc hbuckets hcover]
    congr 1
    apply List.map_congr_left
    intro e he
    exact (hsame e he).1
  have hids := allSlots_ids m p.functionNames.length
  have hfits := slot_id_fits p.functionNames.length _ hids (by rw [hlen]; exact hfit)
  refine ⟨_, (allSlots m p.functionNames.length).flatten, hproxy, hlen, ?_, ?_, rfl, ?_, ?_⟩
  · show ((List.drop p.mfiles.length (p.mfiles ++ _)).flatMap _).filter _ = _
    rw [List.drop_left]
    exact filter_isCall_scripts toolboxPath wrapperName m _ (allSlots_length_eq m _)
  · exact ⟨_, rfl, filter_isEndl_allWrappers names typeAttributes _ _⟩
  · rw [← hlen, ← hids, List.map_map]
    apply List.map_congr_left
    intro e he
    exact (hfits e he).1
  · intro e he
    obtain ⟨hid, _, hname⟩ := hfits e he
    have hlook := registry_lookup p.functionNames _ hids e he
    rw [hid]
    exact ⟨Int.ofNat_nonneg _, hlook, hname⟩

/-- C1, at the group `bar` of two namespaces and a registry that already holds two
names: the branches of `a::bar` and `b::bar` carry the ids 2 and 3, and the registry
holds `abar_2` at index 2 and `bbar_3` at index 3. -/
theorem callee_id_indexes_wrapper_name_witness :
    (barGroup.Aligned
      ∧ laterPass.functionNames.length + barGroup.overloads.length ≤ 2 ^ 31)
    ∧ (∃ (out : Pass) (es : List Slot),
      barGroup.matlab_proxy commaNames "toolbox" "toolbox_wrapper" noAttributes laterPass
        = .ok out
      ∧ es.length = barGroup.overloads.length
      ∧ ((out.mfiles.drop laterPass.mfiles.length).flatMap (fun f => f.oss)).filter
            Chunk.isCall
          = es.map (fun e =>
              Chunk.emit_conditional_call e.args e.returnVal "toolbox_wrapper" e.id true)
      ∧ (∃ written : List Chunk, out.file.oss = laterPass.file.oss ++ written
          ∧ written.filter (fun c => !c.isEndl)
              = es.flatMap (Slot.wrapper commaNames noAttributes))
      ∧ out.functionNames = laterPass.functionNames ++ es.map Slot.wrapFunctionName
      ∧ es.map Slot.id
          = (List.range' laterPass.functionNames.length barGroup.overloads.length).map
              Int.ofNat
      ∧ ∀ e ∈ es, 0 ≤ e.id
          ∧ out.functionNames[e.id.toNat]? = some e.wrapFunctionName
          ∧ e.wrapFunctionName = e.first.qualifiedName "" ++ "_" ++ Nat.repr e.id.toNat)
    ∧ ∃ out : Pass,
      barGroup.matlab_proxy commaNames "toolbox" "toolbox_wrapper" noAttributes laterPass
        = .ok out
      ∧ (out.mfiles.flatMap (fun f => f.oss)).filter Chunk.isCall
          = [Chunk.emit_conditional_call [] voidReturn "toolbox_wrapper" 2 true,
              Chunk.emit_conditional_call [] voidReturn "toolbox_wrapper" 3 true]
      ∧ out.functionNames = ["Point2_0", "Point2_1", "abar_2", "bbar_3"] :=
  ⟨⟨by decide, by decide⟩,
    callee_id_indexes_wrapper_name commaNames barGroup "toolbox" "toolbox_wrapper"
      noAttributes laterPass (by decide) (by decide),
    _, rfl, by decide, by decide⟩
/-- C2, as stated, fails: from an empty registry, the wrapper of `bar` in namespace `b`,
at position 0 of its bucket, is named `bbar_1`; no wrapper or registry entry is named
`bbar_0`. -/
theorem wrapper_name_local_index_counterexample :
    ∃ out : Pass,
      barGroup.matlab_proxy commaNames "toolbox" "toolbox_wrapper" noAttributes freshPass
        = .ok out
      ∧ out.functionNames = ["abar_0", "bbar_1"]
      ∧ out.file.oss.filter (fun c => c = Chunk.text "bbar_1" || c = Chunk.text "bbar_0")
          = [Chunk.text "bbar_1"] :=
  ⟨_, rfl, by decide, by decide⟩

/-- C2, amended: for every group (three sequences equally long, every overload with the
leaf name of the group), every initial registry that, with the names of the group, holds
at most `2^31` names, and every overload `q` at position `i` of the bucket of index `j`
in key order, `matlab_proxy` appends to the registry, at the index `id` = size of the
initial registry + sizes of the buckets before `j` + `i`, the name
`<concatenation of the namespaces of q><leaf name of q>_<decimal digits of id>`, and
writes to the shared file a wrapper function of that name: the suffix is the registry
index. -/
theorem wrapper_name_carries_registry_index (names : ArgumentList → String)
    (g : GlobalFunction) (toolboxPath wrapperName : String)
    (typeAttributes : TypeAttributesTable) (p : Pass) (h : g.Aligned)
    (hleaf : ∀ q ∈ g.overloads, q.name = g.name)
    (hfit : p.functionNames.length + g.overloads.length ≤ 2 ^ 31) :
    ∃ (m : GlobalFunctionMap) (out : Pass),
      cluster g g.overloads 0 [] = .ok m
      ∧ g.matlab_proxy names toolboxPath wrapperName typeAttributes p = .ok out
      ∧ ∀ (j : Nat) (hj : j < m.length) (i : Nat) (hi : i < (m[j]).2.overloads.length),
          out.functionNames[p.functionNames.length
              + ((m.take j).map (fun e => e.2.overloads.length)).sum + i]?
            = some (String.join ((m[j]).2.overloads[i]).namespaces
                ++ ((m[j]).2.overloads[i]).name ++ "_"
                ++ Nat.repr (p.functionNames.length
                    + ((m.take j).map (fun e => e.2.overloads.length)).sum + i))
          ∧ [Chunk.text "void ",
              Chunk.text (String.join ((m[j]).2.overloads[i]).namespaces
                ++ ((m[j]).2.overloads[i]).name ++ "_"
                ++ Nat.repr (p.functionNames.length
                    + ((m.take j).map (fun e => e.2.overloads.length)).sum + i)),
              Chunk.text "(int nargout, mxArray *out[], int nargin, const mxArray *in[])\n"]
            <:+: out.file.oss := by
  obtain ⟨m, hrun, hasc, hbuckets, hcover, hproxy⟩ :=
    matlab_proxy_eq names g toolboxPath wrapperName typeAttributes p h
  refine ⟨m, _, hrun, hproxy, ?_⟩
  intro j hj i hi
  have hall : ∀ e ∈ m, e.2.argLists.length = e.2.overloads.length
      ∧ e.2.argLists.length ≤ e.2.returnVals.length := by
    intro e he
    obtain ⟨_, h2, h3, _, _⟩ := bucket_facts g h e (hbuckets e he).2
    exact ⟨h2, by omega⟩
  have hmem : m[j] ∈ m := List.getElem_mem hj
  obtain ⟨hq, h2, h3, _, _⟩ := bucket_facts g h m[j] (hbuckets m[j] hmem).2
  have hia : i < (m[j]).2.argLists.length := by omega
  have hir : i < (m[j]).2.returnVals.length := by omega
  have hslot := allSlots_flatten_getElem? m p.functionNames.length j i hj
    (m[j]).2.argLists[i] (m[j]).2.returnVals[i] hall
    (List.getElem?_eq_getElem hia) (List.getElem?_eq_getElem hir)
  -- the id of the slot fits an int
  have hpos := position_lt_total m j i hj hi
  rw [cluster_sizes g h m hasc hbuckets hcover] at hpos
  have hsuffix : lexical_cast (toInt (p.functionNames.length
        + ((m.take j).map (fun e => e.2.overloads.length)).sum + i))
      = Nat.repr (p.functionNames.length
        + ((m.take j).map (fun e => e.2.overloads.length)).sum + i) :=
    lexical_cast_toInt _ (by omega)
  -- the name of the slot is the name of the statement
  have hne : (m[j]).2.overloads ≠ [] := by
    intro hnil; rw [hnil] at hi; simp at hi
  obtain ⟨hfin, hfkey⟩ := hq _ (overload1_mem _ hne)
  obtain ⟨hqin, hqkey⟩ := hq _ (List.getElem_mem hi)
  have hname : (m[j]).2.overload1.qualifiedName ""
      = String.join ((m[j]).2.overloads[i]).namespaces ++ ((m[j]).2.overloads[i]).name := by
    rw [concatenated_rendering, ← qualifiedName_eq_join, ← qualifiedName_eq_join]
    have e1 : qualifiedName "" (m[j]).2.overload1.namespaces = (m[j]).1 := hfkey
    have e2 : qualifiedName "" ((m[j]).2.overloads[i]).namespaces = (m[j]).1 := hqkey
    rw [e1, e2, hleaf _ hfin, hleaf _ hqin]
  constructor
  · show (p.functionNames ++ _)[_]? = _
    rw [Nat.add_assoc, List.getElem?_append_right (Nat.le_add_right _ _),
      Nat.add_sub_cancel_left, List.getElem?_map, hslot]
    rw [Option.map_some', Slot.wrapFunctionName, Slot.id, hname, hsuffix, Nat.add_assoc]
  · have hin := List.getElem?_mem hslot
    have hw := wrapper_infix_allWrappers names typeAttributes _ m.length _ hin
    have hhead := header_infix_wrapper names typeAttributes
      { first := (m[j]).2.overload1, overload := i,
        index := p.functionNames.length
          + ((m.take j).map (fun e => e.2.overloads.length)).sum + i,
        args := (m[j]).2.argLists[i], returnVal := (m[j]).2.returnVals[i] }
    rw [Slot.wrapFunctionName, Slot.id, hname, hsuffix] at hhead
    exact List.IsInfix.trans hhead
      (List.IsInfix.trans hw (List.suffix_append _ _).isInfix)

/-- C2, amended, at the group `bar` of two namespaces and a registry that already holds
two names: the names appended are `abar_2` and `bbar_3`. -/
theorem wrapper_name_carries_registry_index_witness :
    (barGroup.Aligned
      ∧ (∀ q ∈ barGroup.overloads, q.name = barGroup.name)
      ∧ laterPass.functionNames.length + barGroup.overloads.length ≤ 2 ^ 31)
    ∧ (∃ (m : GlobalFunctionMap) (out : Pass),
      cluster barGroup barGroup.overloads 0 [] = .ok m
      ∧ barGroup.matlab_proxy commaNames "toolbox" "toolbox_wrapper" noAttributes laterPass
          = .ok out
      ∧ ∀ (j : Nat) (hj : j < m.length) (i : Nat) (hi : i < (m[j]).2.overloads.length),
          out.functionNames[laterPass.functionNames.length
              + ((m.take j).map (fun e => e.2.overloads.length)).sum + i]?
            = some (String.join ((m[j]).2.overloads[i]).namespaces
                ++ ((m[j]).2.overloads[i]).name ++ "_"
                ++ Nat.repr (laterPass.functionNames.length
                    + ((m.take j).map (fun e => e.2.overloads.length)).sum + i))
          ∧ [Chunk.text "void ",
              Chunk.text (String.join ((m[j]).2.overloads[i]).namespaces
                ++ ((m[j]).2.overloads[i]).name ++ "_"
                ++ Nat.repr (laterPass.functionNames.length
                    + ((m.take j).map (fun e => e.2.overloads.length)).sum + i)),
              Chunk.text "(int nargout, mxArray *out[], int nargin, const mxArray *in[])\n"]
            <:+: out.file.oss)
    ∧ ∃ out : Pass,
      barGroup.matlab_proxy commaNames "toolbox" "toolbox_wrapper" noAttributes laterPass
        = .ok out
      ∧ out.functionNames = ["Point2_0", "Point2_1", "abar_2", "bbar_3"]
      ∧ out.file.oss.filter
            (fun c => c = Chunk.text "abar_2" || c = Chunk.text "bbar_3"
              || c = Chunk.text "abar_0" || c = Chunk.text "bbar_0"
              || c = Chunk.text "bbar_1")
          = [Chunk.text "abar_2", Chunk.text "bbar_3"] :=
  ⟨⟨by decide, by decide, by decide⟩,
    wrapper_name_carries_registry_index commaNames barGroup "toolbox" "toolbox_wrapper"
      noAttributes laterPass (by decide) (by decide) (by decide),
    _, rfl, by decide, by decide⟩
/-- C3: for a group whose overloads, at least one and at most `2^31`, all have the
namespace path `ns` (the three sequences equally long, every overload with the leaf name
of the group), `matlab_proxy` on an empty registry returns and writes exactly one
dispatch script, at the path of `ns` and the name of the group; its dispatch branches
are, in order, one for each overload, the branch of index `i` carrying the argument list
and return value of index `i` and the callee id `i`; the registry becomes the names
`<concatenation of ns><name>_<decimal digits of i>` for `i = 0, 1, ...`, and the wrappers
appended to the shared file are the wrapper functions of these names, in order, each
checking and unwrapping the arguments of its overload and calling `ns::name`. -/
theorem single_namespace_dispatch (names : ArgumentList → String) (g : GlobalFunction)
    (toolboxPath wrapperName : String) (typeAttributes : TypeAttributesTable) (p : Pass)
    (ns : List String) (h : g.Aligned) (hleaf : ∀ q ∈ g.overloads, q.name = g.name)
    (hne : g.overloads ≠ []) (hns : ∀ q ∈ g.overloads, q.namespaces = ns)
    (hp : p.functionNames = []) (hfit : g.overloads.length ≤ 2 ^ 31) :
    ∃ (out : Pass) (script : FileWriter),
      g.matlab_proxy names toolboxPath wrapperName typeAttributes p = .ok out
      ∧ out.mfiles = p.mfiles ++ [script]
      ∧ script.filename
          = Qualified.matlabName { namespaces := ns, name := g.name } toolboxPath
      ∧ script.oss.filter Chunk.isCall
          = (List.zip g.argLists g.returnVals).enum.map
              (fun x => Chunk.emit_conditional_call x.2.1 x.2.2 wrapperName
                (Int.ofNat x.1) true)
      ∧ (script.oss.filter Chunk.isCall).length = g.overloads.length
      ∧ out.functionNames
          = (List.range g.overloads.length).map
              (fun i => String.join ns ++ g.name ++ "_" ++ Nat.repr i)
      ∧ out.file.oss
          = p.file.oss ++ (List.zip g.argLists g.returnVals).enum.flatMap
              (fun x =>
                [Chunk.text "void ",
                  Chunk.text (String.join ns ++ g.name ++ "_" ++ Nat.repr x.1),
                  Chunk.text
                    "(int nargout, mxArray *out[], int nargin, const mxArray *in[])\n",
                  Chunk.text "\x7b\n",
                  Chunk.wrapTypeUnwrap x.2.2,
                  Chunk.text "  checkArguments(\"", Chunk.text (String.join ns ++ g.name),
                  Chunk.text "\",nargout,nargin,", Chunk.size x.2.1.length,
                  Chunk.text ");\n",
                  Chunk.matlab_unwrap x.2.1 0,
                  (if x.2.2.type1.name ≠ "void" then
                    Chunk.wrap_result x.2.2
                      (Qualified.qualifiedName { namespaces := ns, name := g.name } "::"
                        ++ "(" ++ names x.2.1 ++ ")") typeAttributes
                  else
                    Chunk.text
                      (Qualified.qualifiedName { namespaces := ns, name := g.name } "::"
                        ++ "(" ++ names x.2.1 ++ ");\n")),
                  Chunk.text "\x7d\n"]) := by
  have hk : ∀ q ∈ g.overloads, bucketKey q = qualifiedName "" ns := by
    intro q hq; rw [bucketKey, hns q hq]
  have hsingle := cluster_single g h hne _ hk
  obtain ⟨m, hrun, _, _, _, hproxy⟩ :=
    matlab_proxy_eq names g toolboxPath wrapperName typeAttributes p h
  have hm : m = [(qualifiedName "" ns, g)] := by
    rw [hsingle] at hrun
    exact (Except.ok.inj hrun).symm
  subst hm
  have hfirst : g.overload1 = { namespaces := ns, name := g.name } := by
    have hin := overload1_mem g hne
    have e1 := hns _ hin
    have e2 := hleaf _ hin
    cases hq : g.overload1 with
    | mk a b => rw [hq] at e1 e2; simp only at e1 e2; rw [e1, e2]
  have hes : bucketSlots g p.functionNames.length
      = (List.zip g.argLists g.returnVals).enum.map
          (fun x => { first := { namespaces := ns, name := g.name }, overload := x.1,
                      index := x.1, args := x.2.1, returnVal := x.2.2 }) := by
    rw [bucketSlots, hp, hfirst]
    exact slots_eq_enumFrom _ _ _ 0
  have hzip : (List.zip g.argLists g.returnVals).length = g.overloads.length := by
    simp [h.1, h.2]
  have hlt : ∀ x ∈ (List.zip g.argLists g.returnVals).enum, x.1 < 2 ^ 31 := by
    intro x hx
    have := List.fst_lt_of_mem_enum hx
    omega
  have hcalls : (dispatchScript toolboxPath wrapperName g
        (bucketSlots g p.functionNames.length)).oss.filter Chunk.isCall
      = (List.zip g.argLists g.returnVals).enum.map
          (fun x => Chunk.emit_conditional_call x.2.1 x.2.2 wrapperName
            (Int.ofNat x.1) true) := by
    rw [filter_isCall_script, hes, List.map_map]
    apply List.map_congr_left
    intro x hx
    rw [Function.comp_apply, Slot.call, Slot.id, toInt_of_lt _ (hlt x hx)]
  refine ⟨_, dispatchScript toolboxPath wrapperName g
    (bucketSlots g p.functionNames.length), hproxy, ?_, ?_, hcalls, ?_, ?_, ?_⟩
  · simp [allSlots]
  · simp [dispatchScript, hfirst]
  · rw [hcalls]; simp [hzip, List.enum_length]
  · show p.functionNames ++ _ = _
    simp only [allSlots, List.flatten_cons, List.flatten_nil, List.append_nil]
    rw [hes, hp]
    simp only [List.nil_append, List.map_map]
    rw [← hzip, ← List.enum_map_fst, List.map_map]
    apply List.map_congr_left
    intro x hx
    rw [Function.comp_apply, Function.comp_apply, Slot.wrapFunctionName, Slot.id,
      lexical_cast_toInt _ (hlt x hx), concatenated_rendering]
  · show p.file.oss ++ _ = _
    simp only [allSlots, allWrappers, List.length_singleton, Nat.sub_self, ne_eq,
      not_true_eq_false, if_false, List.append_nil, hes, List.flatMap_map]
    congr 1
    rw [List.flatMap, List.flatMap]
    congr 1
    apply List.map_congr_left
    intro x hx
    rw [wrapper_of_fitting names typeAttributes _ (hlt x hx), concatenated_rendering]

/-- C3, at example 1 of the spec: the two overloads of `foo` in namespace `m`
dispatch to the ids 0 and 1, whose wrappers are `mfoo_0` and `mfoo_1`. -/
theorem single_namespace_dispatch_witness :
    (fooGroup.Aligned ∧ (∀ q ∈ fooGroup.overloads, q.name = fooGroup.name)
      ∧ fooGroup.overloads ≠ [] ∧ (∀ q ∈ fooGroup.overloads, q.namespaces = ["m"])
      ∧ freshPass.functionNames = [] ∧ fooGroup.overloads.length ≤ 2 ^ 31)
    ∧ ∃ (out : Pass) (script : FileWriter),
      fooGroup.matlab_proxy commaNames "toolbox" "toolbox_wrapper" noAttributes freshPass
        = .ok out
      ∧ out.mfiles = [script]
      ∧ script.filename = "toolbox/+m/foo.m"
      ∧ script.oss.filter Chunk.isCall
          = [Chunk.emit_conditional_call [⟨"int", "n"⟩] voidReturn "toolbox_wrapper" 0 true,
              Chunk.emit_conditional_call [⟨"double", "x"⟩] doubleReturn "toolbox_wrapper"
                1 true]
      ∧ (script.oss.filter Chunk.isCall).length = 2
      ∧ out.functionNames = ["mfoo_0", "mfoo_1"]
      ∧ out.file.oss
          = [Chunk.text "void ", Chunk.text "mfoo_0",
              Chunk.text "(int nargout, mxArray *out[], int nargin, const mxArray *in[])\n",
              Chunk.text "\x7b\n", Chunk.wrapTypeUnwrap voidReturn,
              Chunk.text "  checkArguments(\"", Chunk.text "mfoo",
              Chunk.text "\",nargout,nargin,", Chunk.size 1, Chunk.text ");\n",
              Chunk.matlab_unwrap [⟨"int", "n"⟩] 0, Chunk.text "m::foo(n);\n",
              Chunk.text "\x7d\n",
              Chunk.text "void ", Chunk.text "mfoo_1",
              Chunk.text "(int nargout, mxArray *out[], int nargin, const mxArray *in[])\n",
              Chunk.text "\x7b\n", Chunk.wrapTypeUnwrap doubleReturn,
              Chunk.text "  checkArguments(\"", Chunk.text "mfoo",
              Chunk.text "\",nargout,nargin,", Chunk.size 1, Chunk.text ");\n",
              Chunk.matlab_unwrap [⟨"double", "x"⟩] 0,
              Chunk.wrap_result doubleReturn "m::foo(x)" noAttributes,
              Chunk.text "\x7d\n"] := by
  obtain ⟨out, script, h1, h2, h3, h4, h5, h6, h7⟩ :=
    single_namespace_dispatch commaNames fooGroup "toolbox" "toolbox_wrapper" noAttributes
      freshPass ["m"] (by decide) (by decide) (by decide) (by decide) (by decide)
      (by decide)
  refine ⟨⟨by decide, by decide, by decide, by decide, by decide, by decide⟩,
    out, script, h1, ?_, ?_, ?_, ?_, ?_, ?_⟩
  · rw [h2]; rfl
  · rw [h3]; decide
  · rw [h4]; decide
  · rw [h5]; decide
  · rw [h6]; decide
  · rw [h7]; decide
/-- C4: starting from an empty registry, every sequence of `matlab_proxy` calls on groups
(three sequences equally long) that have at most `2^32` overloads in all returns and
leaves a registry of wrapper names without duplicate: the names at two distinct indices
differ, so in particular the names emitted for two positions of one bucket. The bound is
the number of values of the `int id` of line 91, which makes the suffix of a name. -/
theorem registry_has_no_duplicate (names : ArgumentList → String) (calls : List ProxyCall)
    (p : Pass) (hp : p.functionNames = []) (h : ∀ c ∈ calls, c.group.Aligned)
    (hfit : (calls.map (fun c => c.group.overloads.length)).sum ≤ 2 ^ 32) :
    ∃ out, proxyAll names calls p = .ok out
      ∧ out.functionNames.Nodup
      ∧ ∀ i j : Nat, i ≠ j → j < out.functionNames.length →
          out.functionNames[i]? ≠ out.functionNames[j]? := by
  have hgen : ∀ (calls : List ProxyCall) (p : Pass), Indexed p.functionNames →
      (∀ c ∈ calls, c.group.Aligned) →
      ∃ out, proxyAll names calls p = .ok out ∧ Indexed out.functionNames
        ∧ out.functionNames.length
            = p.functionNames.length + (calls.map (fun c => c.group.overloads.length)).sum := by
    intro calls
    induction calls with
    | nil => intro p hp _; exact ⟨p, rfl, hp, by simp⟩
    | cons c cs ih =>
      intro p hp h
      obtain ⟨mid, hmid, hind, hlen⟩ := indexed_matlab_proxy names c.group c.toolboxPath
        c.wrapperName c.typeAttributes p (h c (List.mem_cons_self _ _)) hp
      obtain ⟨out, hout, hfin, hlen'⟩ :=
        ih mid hind (fun c' hc' => h c' (List.mem_cons_of_mem _ hc'))
      refine ⟨out, ?_, hfin, ?_⟩
      · simp only [proxyAll, hmid]
        exact hout
      · rw [hlen', hlen, List.map_cons, List.sum_cons, Nat.add_assoc]
  have hstart : Indexed p.functionNames := by
    intro i s hs; rw [hp] at hs; simp at hs
  obtain ⟨out, hout, hind, hlen⟩ := hgen calls p hstart h
  have hnodup := indexed_nodup _ hind (by rw [hlen, hp]; simpa using hfit)
  refine ⟨out, hout, hnodup, ?_⟩
  intro i j hij hj heq
  have hrule := List.nodup_iff_getElem?_ne_getElem?.mp hnodup
  rcases Nat.lt_or_gt_of_ne hij with hlt | hgt
  · exact hrule i j hlt hj heq
  · have hi : i < out.functionNames.length := by
      by_contra hcon
      rw [List.getElem?_eq_none (by omega), List.getElem?_eq_getElem hj] at heq
      cases heq
    exact hrule j i hgt hi heq.symm

/-- C4, at the sequence of calls on the groups `bar`, `foo` and `bar` again, which leaves
the registry `abar_0`, `bbar_1`, `mfoo_2`, `mfoo_3`, `abar_4`, `bbar_5`. -/
theorem registry_has_no_duplicate_witness :
    (freshPass.functionNames = []
      ∧ (∀ c ∈ ([⟨barGroup, "toolbox", "toolbox_wrapper", noAttributes⟩,
            ⟨fooGroup, "toolbox", "toolbox_wrapper", noAttributes⟩,
            ⟨barGroup, "toolbox", "toolbox_wrapper", noAttributes⟩] : List ProxyCall),
          c.group.Aligned)
      ∧ (([⟨barGroup, "toolbox", "toolbox_wrapper", noAttributes⟩,
            ⟨fooGroup, "toolbox", "toolbox_wrapper", noAttributes⟩,
            ⟨barGroup, "toolbox", "toolbox_wrapper", noAttributes⟩] : List ProxyCall).map
          (fun c => c.group.overloads.length)).sum ≤ 2 ^ 32)
    ∧ (∃ out,
        proxyAll commaNames
            [⟨barGroup, "toolbox", "toolbox_wrapper", noAttributes⟩,
              ⟨fooGroup, "toolbox", "toolbox_wrapper", noAttributes⟩,
              ⟨barGroup, "toolbox", "toolbox_wrapper", noAttributes⟩] freshPass = .ok out
        ∧ out.functionNames.Nodup
        ∧ ∀ i j : Nat, i ≠ j → j < out.functionNames.length →
            out.functionNames[i]? ≠ out.functionNames[j]?)
    ∧ ∃ out,
        proxyAll commaNames
            [⟨barGroup, "toolbox", "toolbox_wrapper", noAttributes⟩,
              ⟨fooGroup, "toolbox", "toolbox_wrapper", noAttributes⟩,
              ⟨barGroup, "toolbox", "toolbox_wrapper", noAttributes⟩] freshPass = .ok out
        ∧ out.functionNames
            = ["abar_0", "bbar_1", "mfoo_2", "mfoo_3", "abar_4", "bbar_5"] :=
  ⟨⟨by decide, by decide, by decide⟩,
    registry_has_no_duplicate commaNames _ freshPass (by decide) (by decide) (by decide),
    _, rfl, by decide⟩
/-! ## Namespace paths with the same concatenation -/

/-- C6, at the functions `ab::c::f` and `a::bc::f`: the overloads span two distinct
namespace paths and `matlab_proxy` writes one dispatch script, that of `ab::c`. -/
theorem aliased_namespaces_one_script :
    (aliasGroup.overloads.map Qualified.namespaces).dedup.length = 2
    ∧ ∃ out : Pass,
        aliasGroup.matlab_proxy commaNames "toolbox" "toolbox_wrapper" noAttributes freshPass
          = .ok out
        ∧ out.mfiles.length = 1
        ∧ out.mfiles.map FileWriter.filename = ["toolbox/+ab/+c/f.m"] :=
  ⟨by decide, _, rfl, by decide, by decide⟩

/-- C10, at the functions `ab::c::f` and `a::bc::f`: the overload of index 1 is
`a::bc::f`, and both wrappers written invoke `ab::c::f`. -/
theorem aliased_namespaces_call_target :
    aliasGroup.overloads.map (fun q => q.qualifiedName "::") = ["ab::c::f", "a::bc::f"]
    ∧ ∃ out : Pass,
        aliasGroup.matlab_proxy commaNames "toolbox" "toolbox_wrapper" noAttributes freshPass
          = .ok out
        ∧ out.file.oss.filter
            (fun c => c = Chunk.text "ab::c::f();\n" || c = Chunk.text "a::bc::f();\n")
          = [Chunk.text "ab::c::f();\n", Chunk.text "ab::c::f();\n"] :=
  ⟨by decide, _, rfl, by decide⟩

/-! ## The dispatch script of a bucket -/

/-- C11: for every bucket whose first qualified name is `first` (three sequences equally
long), `generateSingleFunction` returns and writes one dispatch script, which is: the
header `function varargout = <name of the group>(varargin)`; then, for each index `i` in
storage order, a branch made of the indentation, nothing for `i = 0` and `else` for every
later `i`, and the conditional call for the argument list and return value of index `i`,
with the `int id` of the iteration (the size of the registry then, converted to `int`);
then the line `else`, the `error` line that names `first` joined with dots, and `end`. The
branches are as many as the overloads. -/
theorem dispatch_script_layout (names : ArgumentList → String) (b : GlobalFunction)
    (toolboxPath wrapperName : String) (typeAttributes : TypeAttributesTable) (p : Pass)
    (first : Qualified) (rest : List Qualified) (hfirst : b.overloads = first :: rest)
    (h : b.Aligned) :
    ∃ (out : Pass) (script : FileWriter),
      b.generateSingleFunction names toolboxPath wrapperName typeAttributes p = .ok out
      ∧ out.mfiles = p.mfiles ++ [script]
      ∧ script.oss
          = [Chunk.text "function varargout = ", Chunk.text b.name,
              Chunk.text "(varargin)\n"]
            ++ (List.zip b.argLists b.returnVals).enum.flatMap
                (fun x =>
                  [Chunk.text "      ", Chunk.text (if x.1 = 0 then "" else "else"),
                    Chunk.emit_conditional_call x.2.1 x.2.2 wrapperName
                      (toInt (p.functionNames.length + x.1)) true])
            ++ [Chunk.text "      else\n",
                Chunk.text "        error('Arguments do not match any overload of function ",
                Chunk.text (first.qualifiedName "."), Chunk.text "');", Chunk.endl,
                Chunk.text "      end", Chunk.endl]
      ∧ (List.zip b.argLists b.returnVals).enum.length = b.overloads.length := by
  have hne : b.overloads ≠ [] := by rw [hfirst]; simp
  have h1 : b.overload1 = first := by simp [GlobalFunction.overload1, hfirst]
  have hgen := generateSingleFunction_eq names b toolboxPath wrapperName typeAttributes p hne
    (by rw [h.1, h.2])
  refine ⟨_, _, hgen, rfl, ?_, ?_⟩
  · have hes := slots_eq_enumFrom_offset b.overload1 p.functionNames.length b.argLists
      b.returnVals 0
    simp only [Nat.add_zero] at hes
    rw [h1] at hes
    show (dispatchScript toolboxPath wrapperName b _).oss = _
    simp only [dispatchScript, bucketSlots, hes, List.flatMap_map, Slot.branch, Slot.id,
      List.enum, h1]
  · simp [List.enum_length, h.1, h.2]

/-- C11, at example 1 of the spec and a registry that already holds two names. -/
theorem dispatch_script_layout_witness :
    (fooGroup.overloads
        = { namespaces := ["m"], name := "foo" } :: [{ namespaces := ["m"], name := "foo" }]
      ∧ fooGroup.Aligned)
    ∧ ∃ (out : Pass) (script : FileWriter),
      fooGroup.generateSingleFunction commaNames "toolbox" "toolbox_wrapper" noAttributes
        laterPass = .ok out
      ∧ out.mfiles = laterPass.mfiles ++ [script]
      ∧ script.oss
          = [Chunk.text "function varargout = ", Chunk.text fooGroup.name,
              Chunk.text "(varargin)\n"]
            ++ (List.zip fooGroup.argLists fooGroup.returnVals).enum.flatMap
                (fun x =>
                  [Chunk.text "      ", Chunk.text (if x.1 = 0 then "" else "else"),
                    Chunk.emit_conditional_call x.2.1 x.2.2 "toolbox_wrapper"
                      (toInt (laterPass.functionNames.length + x.1)) true])
            ++ [Chunk.text "      else\n",
                Chunk.text "        error('Arguments do not match any overload of function ",
                Chunk.text (Qualified.qualifiedName { namespaces := ["m"], name := "foo" } "."),
                Chunk.text "');", Chunk.endl,
                Chunk.text "      end", Chunk.endl]
      ∧ (List.zip fooGroup.argLists fooGroup.returnVals).enum.length
          = fooGroup.overloads.length :=
  ⟨⟨by decide, by decide⟩,
    dispatch_script_layout commaNames fooGroup "toolbox" "toolbox_wrapper" noAttributes
      laterPass { namespaces := ["m"], name := "foo" } [{ namespaces := ["m"], name := "foo" }]
      (by decide) (by decide)⟩

/-! ## The registry is only appended to -/

/-- C12: for every group (three sequences equally long) and every initial registry,
`matlab_proxy` returns a registry that is the initial registry followed by new names: the
names already in it are a prefix, unchanged; the new names are as many as the overloads
of the group, which is the sum of the bucket sizes; and the wrappers appended to the
shared file (the separators between buckets apart) are one for each new name, in the
same order. -/
theorem registry_only_grows (names : ArgumentList → String) (g : GlobalFunction)
    (toolboxPath wrapperName : String) (typeAttributes : TypeAttributesTable) (p : Pass)
    (h : g.Aligned) :
    ∃ (m : GlobalFunctionMap) (out : Pass) (es : List Slot),
      cluster g g.overloads 0 [] = .ok m
      ∧ g.matlab_proxy names toolboxPath wrapperName typeAttributes p = .ok out
      ∧ out.functionNames = p.functionNames ++ es.map Slot.wrapFunctionName
      ∧ out.functionNames.take p.functionNames.length = p.functionNames
      ∧ out.functionNames.length = p.functionNames.length + g.overloads.length
      ∧ es.length = g.overloads.length
      ∧ (m.map (fun e => e.2.overloads.length)).sum = g.overloads.length
      ∧ ∃ written : List Chunk, out.file.oss = p.file.oss ++ written
          ∧ written.filter (fun c => !c.isEndl)
              = es.flatMap (Slot.wrapper names typeAttributes) := by
  obtain ⟨m, hrun, hasc, hbuckets, hcover, hproxy⟩ :=
    matlab_proxy_eq names g toolboxPath wrapperName typeAttributes p h
  have hsame : ∀ e ∈ m, e.2.argLists.length = e.2.overloads.length
      ∧ e.2.argLists.length ≤ e.2.returnVals.length := by
    intro e he
    obtain ⟨_, h2, h3, _, _⟩ := bucket_facts g h e (hbuckets e he).2
    exact ⟨h2, by omega⟩
  have hsizes := cluster_sizes g h m hasc hbuckets hcover
  have hlen : (allSlots m p.functionNames.length).flatten.length = g.overloads.length := by
    rw [allSlots_length m _ (fun e he => (hsame e he).2), ← hsizes]
    congr 1
    apply List.map_congr_left
    intro e he
    exact (hsame e he).1
  refine ⟨m, _, (allSlots m p.functionNames.length).flatten, hrun, hproxy, rfl, ?_, ?_,
    hlen, hsizes, _, rfl, filter_isEndl_allWrappers names typeAttributes _ _⟩
  · show List.take p.functionNames.length (p.functionNames ++ _) = _
    simp
  · show (p.functionNames ++ _).length = _
    rw [List.length_append, List.length_map, hlen]

/-- C12, at the group `bar` of two namespaces and a registry that already holds two
names. -/
theorem registry_only_grows_witness :
    barGroup.Aligned
    ∧ ∃ (m : GlobalFunctionMap) (out : Pass) (es : List Slot),
      cluster barGroup barGroup.overloads 0 [] = .ok m
      ∧ barGroup.matlab_proxy commaNames "toolbox" "toolbox_wrapper" noAttributes laterPass
          = .ok out
      ∧ out.functionNames = laterPass.functionNames ++ es.map Slot.wrapFunctionName
      ∧ out.functionNames.take laterPass.functionNames.length = laterPass.functionNames
      ∧ out.functionNames.length = laterPass.functionNames.length + barGroup.overloads.length
      ∧ es.length = barGroup.overloads.length
      ∧ (m.map (fun e => e.2.overloads.length)).sum = barGroup.overloads.length
      ∧ ∃ written : List Chunk, out.file.oss = laterPass.file.oss ++ written
          ∧ written.filter (fun c => !c.isEndl)
              = es.flatMap (Slot.wrapper commaNames noAttributes) :=
  ⟨by decide,
    registry_only_grows commaNames barGroup "toolbox" "toolbox_wrapper" noAttributes
      laterPass (by decide)⟩

/-! ## The renderings of a qualified name -/

/-- C13: for every qualified name and every delimiter `d`, `qualifiedName(d)` is the
namespace segments, outer to inner, followed by the leaf name, joined with `d` between
them (so with `.` the dotted and with `::` the double-colon rendering); with the empty
delimiter it is their plain concatenation, and without namespaces it is the leaf name
alone. -/
theorem qualifiedName_joins (q : Qualified) (d name : String) :
    q.qualifiedName d = d.intercalate (q.namespaces ++ [q.name])
    ∧ q.qualifiedName "." = ".".intercalate (q.namespaces ++ [q.name])
    ∧ q.qualifiedName "::" = "::".intercalate (q.namespaces ++ [q.name])
    ∧ q.qualifiedName "" = String.join (q.namespaces ++ [q.name])
    ∧ Qualified.qualifiedName { namespaces := [], name := name } d = name := by
  refine ⟨foldl_delimited d _ _, foldl_delimited "." _ _, foldl_delimited "::" _ _, ?_, ?_⟩
  · unfold Qualified.qualifiedName String.join
    simp [List.foldl_append]
  · simp [Qualified.qualifiedName]

/-! ## Paths of the dispatch scripts -/

/-- C14: for every group (three sequences equally long) whose overloads have no `/` in a
namespace segment or in the leaf name, `matlab_proxy` writes the dispatch script of each
bucket at the path `matlabName` builds from the first overload of the bucket,
`<root>/+<ns1>/+<ns2>/.../<name>.m`; for a fixed root `matlabName` is injective on the
qualified names without `/`; and two distinct buckets of the call are written at two
distinct paths: the paths of the scripts written in the call have no duplicate. -/
theorem scripts_have_distinct_paths (names : ArgumentList → String) (g : GlobalFunction)
    (toolboxPath wrapperName : String) (typeAttributes : TypeAttributesTable) (p : Pass)
    (h : g.Aligned) (hslash : ∀ q ∈ g.overloads, q.SlashFree) :
    (∀ q : Qualified, q.matlabName toolboxPath
        = toolboxPath ++ String.join (q.namespaces.map (fun ns => "/+" ++ ns))
            ++ "/" ++ q.name ++ ".m")
    ∧ (∀ q1 q2 : Qualified, q1.SlashFree → q2.SlashFree →
        q1.matlabName toolboxPath = q2.matlabName toolboxPath → q1 = q2)
    ∧ ∃ (m : GlobalFunctionMap) (out : Pass),
      cluster g g.overloads 0 [] = .ok m
      ∧ g.matlab_proxy names toolboxPath wrapperName typeAttributes p = .ok out
      ∧ (out.mfiles.drop p.mfiles.length).map FileWriter.filename
          = m.map (fun e => e.2.overload1.matlabName toolboxPath)
      ∧ (∀ (i j : Nat) (hi : i < m.length) (hj : j < m.length), i ≠ j →
          (m[i]).2.overload1.matlabName toolboxPath
            ≠ (m[j]).2.overload1.matlabName toolboxPath)
      ∧ ((out.mfiles.drop p.mfiles.length).map FileWriter.filename).Nodup := by
  refine ⟨fun q => matlabName_form q toolboxPath,
    fun q1 q2 h1 h2 => matlabName_injective toolboxPath q1 q2 h1 h2, ?_⟩
  obtain ⟨m, hrun, hasc, hbuckets, _, hproxy⟩ :=
    matlab_proxy_eq names g toolboxPath wrapperName typeAttributes p h
  have hnd := bucket_paths_nodup g h hslash toolboxPath m hasc hbuckets
  have hfiles : (List.drop p.mfiles.length
      (p.mfiles ++ List.zipWith (fun e es => dispatchScript toolboxPath wrapperName e.2 es)
        m (allSlots m p.functionNames.length))).map FileWriter.filename
      = m.map (fun e => e.2.overload1.matlabName toolboxPath) := by
    rw [List.drop_left]
    exact zipWith_script_filenames toolboxPath wrapperName m _
      (allSlots_length_eq m p.functionNames.length)
  refine ⟨m, _, hrun, hproxy, hfiles, ?_, ?_⟩
  · intro i j hi hj hij heq
    have h1 := (List.nodup_iff_getElem?_ne_getElem?.mp hnd)
    rcases Nat.lt_or_gt_of_ne hij with hlt | hgt
    · apply h1 i j hlt (by simpa using hj)
      simp [List.getElem?_map, List.getElem?_eq_getElem hi, List.getElem?_eq_getElem hj, heq]
    · apply h1 j i hgt (by simpa using hi)
      simp [List.getElem?_map, List.getElem?_eq_getElem hi, List.getElem?_eq_getElem hj, heq]
  · rw [hfiles]
    exact hnd

/-- C14, at the group `bar` of two namespaces: the scripts `toolbox/+a/bar.m` and
`toolbox/+b/bar.m`. -/
theorem scripts_have_distinct_paths_witness :
    (barGroup.Aligned ∧ ∀ q ∈ barGroup.overloads, q.SlashFree)
    ∧ (∀ q : Qualified, q.matlabName "toolbox"
        = "toolbox" ++ String.join (q.namespaces.map (fun ns => "/+" ++ ns))
            ++ "/" ++ q.name ++ ".m")
    ∧ (∀ q1 q2 : Qualified, q1.SlashFree → q2.SlashFree →
        q1.matlabName "toolbox" = q2.matlabName "toolbox" → q1 = q2)
    ∧ ∃ (m : GlobalFunctionMap) (out : Pass),
      cluster barGroup barGroup.overloads 0 [] = .ok m
      ∧ barGroup.matlab_proxy commaNames "toolbox" "toolbox_wrapper" noAttributes laterPass
          = .ok out
      ∧ (out.mfiles.drop laterPass.mfiles.length).map FileWriter.filename
          = m.map (fun e => e.2.overload1.matlabName "toolbox")
      ∧ (∀ (i j : Nat) (hi : i < m.length) (hj : j < m.length), i ≠ j →
          (m[i]).2.overload1.matlabName "toolbox"
            ≠ (m[j]).2.overload1.matlabName "toolbox")
      ∧ ((out.mfiles.drop laterPass.mfiles.length).map FileWriter.filename).Nodup :=
  ⟨⟨by decide, by decide⟩,
    scripts_have_distinct_paths commaNames barGroup "toolbox" "toolbox_wrapper" noAttributes
      laterPass (by decide) (by decide)⟩

/-! ## The verbosity flag -/

/-- C15: after any non-empty sequence of `addOverload` calls that all return, made on a
group whose three sequences are equally long, the stored verbosity flag is the flag passed
to the last call; every bucket that the first loop of `matlab_proxy` creates carries that
flag, and so does every dispatch script `matlab_proxy` writes. -/
theorem verbosity_last_write_wins (names : ArgumentList → String) (g : GlobalFunction)
    (calls : List Call) (toolboxPath wrapperName : String)
    (typeAttributes : TypeAttributesTable) (p : Pass)
    (hne : calls ≠ []) (hall : accepted g calls = calls) (h : g.Aligned) :
    (addOverloads g calls).verbose_ = (calls.getLast hne).verbose
    ∧ ∃ (m : GlobalFunctionMap) (out : Pass),
        cluster (addOverloads g calls) (addOverloads g calls).overloads 0 [] = .ok m
        ∧ (∀ e ∈ m, e.2.verbose_ = (calls.getLast hne).verbose)
        ∧ (addOverloads g calls).matlab_proxy names toolboxPath wrapperName typeAttributes p
            = .ok out
        ∧ ∀ f ∈ out.mfiles.drop p.mfiles.length, f.verbose = (calls.getLast hne).verbose := by
  have hflag := addOverloads_flag calls g hne hall
  have hal := addOverloads_aligned calls g h
  obtain ⟨m, hrun, _, hbuckets, _, hproxy⟩ :=
    matlab_proxy_eq names (addOverloads g calls) toolboxPath wrapperName typeAttributes p hal
  have hb : ∀ e ∈ m, e.2.verbose_ = (calls.getLast hne).verbose := by
    intro e he
    obtain ⟨_, _, _, _, h5⟩ := bucket_facts _ hal e (hbuckets e he).2
    rw [h5, hflag]
  refine ⟨hflag, m, _, hrun, hb, hproxy, ?_⟩
  intro f hf
  have hf' : f ∈ List.zipWith (fun e es => dispatchScript toolboxPath wrapperName e.2 es) m
      (allSlots m p.functionNames.length) := by
    have : List.drop p.mfiles.length (p.mfiles ++ List.zipWith
        (fun e es => dispatchScript toolboxPath wrapperName e.2 es) m
        (allSlots m p.functionNames.length)) = List.zipWith
        (fun e es => dispatchScript toolboxPath wrapperName e.2 es) m
        (allSlots m p.functionNames.length) := List.drop_left _ _
    rw [← this]
    exact hf
  obtain ⟨e, he, hv, _⟩ := mem_zipWith_script toolboxPath wrapperName f m _ hf'
  rw [hv, hb e he]

/-- C15, at the calls with the flags `true`, `true`, `false` on the empty group: the
stored flag is `false`, which is neither the OR of the flags nor the first of them. -/
theorem verbosity_last_write_wins_witness :
    (accepted (GlobalFunction.new "" true)
        [⟨true, ⟨["a"], "bar"⟩, [], voidReturn⟩, ⟨true, ⟨["b"], "bar"⟩, [], voidReturn⟩,
          ⟨false, ⟨["a"], "bar"⟩, [⟨"int", "n"⟩], voidReturn⟩]
      = [⟨true, ⟨["a"], "bar"⟩, [], voidReturn⟩, ⟨true, ⟨["b"], "bar"⟩, [], voidReturn⟩,
          ⟨false, ⟨["a"], "bar"⟩, [⟨"int", "n"⟩], voidReturn⟩]
      ∧ (GlobalFunction.new "" true).Aligned)
    ∧ (addOverloads (GlobalFunction.new "" true)
        [⟨true, ⟨["a"], "bar"⟩, [], voidReturn⟩, ⟨true, ⟨["b"], "bar"⟩, [], voidReturn⟩,
          ⟨false, ⟨["a"], "bar"⟩, [⟨"int", "n"⟩], voidReturn⟩]).verbose_ = false :=
  ⟨⟨by decide, by decide⟩,
    (verbosity_last_write_wins commaNames (GlobalFunction.new "" true)
      [⟨true, ⟨["a"], "bar"⟩, [], voidReturn⟩, ⟨true, ⟨["b"], "bar"⟩, [], voidReturn⟩,
        ⟨false, ⟨["a"], "bar"⟩, [⟨"int", "n"⟩], voidReturn⟩]
      "toolbox" "toolbox_wrapper" noAttributes freshPass (by decide) (by decide)
      (by decide)).1⟩

/-! ## The order of emission -/

/-- C16: for every group (three sequences equally long, every overload with the leaf name
of the group), `matlab_proxy` visits the buckets in strictly ascending order of their
keys, in the order of `std::string` which is the lexicographic order of strings, each
bucket holding the qualified names of its key in their order in the group: the names
appended to the registry are those of the overloads of the first bucket in stored order,
then those of the second bucket, and so on, each ending with its registry index as the
`int id` of line 91 holds it, and the dispatch scripts are written in the same order. -/
theorem buckets_emitted_in_key_order (names : ArgumentList → String) (g : GlobalFunction)
    (toolboxPath wrapperName : String) (typeAttributes : TypeAttributesTable) (p : Pass)
    (h : g.Aligned) (hleaf : ∀ q ∈ g.overloads, q.name = g.name) :
    ∃ (m : GlobalFunctionMap) (out : Pass),
      cluster g g.overloads 0 [] = .ok m
      ∧ g.matlab_proxy names toolboxPath wrapperName typeAttributes p = .ok out
      ∧ m.Pairwise (fun a b => stringLess a.1 b.1 = true)
      ∧ m.Pairwise (fun a b => a.1 < b.1)
      ∧ (∀ e ∈ m, e.2.overloads
          = g.overloads.filter (fun q => qualifiedName "" q.namespaces = e.1))
      ∧ out.functionNames
          = p.functionNames ++ (m.flatMap (fun e => e.2.overloads)).enum.map
              (fun x => String.join x.2.namespaces ++ x.2.name ++ "_"
                ++ lexical_cast (toInt (p.functionNames.length + x.1)))
      ∧ (out.mfiles.drop p.mfiles.length).map FileWriter.filename
          = m.map (fun e => e.2.overload1.matlabName toolboxPath) := by
  obtain ⟨m, hrun, hasc, hbuckets, hcover, hproxy⟩ :=
    matlab_proxy_eq names g toolboxPath wrapperName typeAttributes p h
  have hfacts : ∀ e ∈ m, e.2.argLists.length = e.2.overloads.length
      ∧ e.2.argLists.length ≤ e.2.returnVals.length
      ∧ ∀ q ∈ e.2.overloads,
          String.join q.namespaces ++ q.name = e.2.overload1.qualifiedName "" := by
    intro e he
    obtain ⟨hf, hb⟩ := hbuckets e he
    obtain ⟨_, h2, h3, _, _⟩ := bucket_facts g h e hb
    have hne : e.2.overloads ≠ [] := by
      obtain ⟨h1, _⟩ := extend_new g.name g.verbose_
        (g.triples.filter (fun o => bucketKey o.1 = e.1))
      rw [← hb] at h1
      rw [h1]
      simpa using hf
    exact ⟨h2, by omega, bucket_unique_name g h hleaf e hne hb⟩
  refine ⟨m, _, hrun, hproxy, hasc, ?_, ?_, ?_, ?_⟩
  · exact hasc.imp (fun hab => (stringLess_iff _ _).mp hab)
  · intro e he
    obtain ⟨_, hb⟩ := hbuckets e he
    obtain ⟨h1, _⟩ := extend_new g.name g.verbose_
      (g.triples.filter (fun o => bucketKey o.1 = e.1))
    rw [← hb] at h1
    rw [h1]
    conv_rhs => rw [← (triples_components g h).1]
    rw [List.filter_map]
    rfl
  · show p.functionNames ++ _ = _
    have := allSlots_names m p.functionNames.length 0 hfacts
    rw [Nat.add_zero] at this
    rw [this]
    rfl
  · show (List.drop p.mfiles.length (p.mfiles ++ _)).map _ = _
    rw [List.drop_left]
    exact zipWith_script_filenames toolboxPath wrapperName m _ (allSlots_length_eq m _)


/-- C16, at the group `bar` whose namespace `b` is met before its namespace `a`. -/
theorem buckets_emitted_in_key_order_witness :
    (swappedGroup.Aligned ∧ ∀ q ∈ swappedGroup.overloads, q.name = swappedGroup.name)
    ∧ ∃ (m : GlobalFunctionMap) (out : Pass),
      cluster swappedGroup swappedGroup.overloads 0 [] = .ok m
      ∧ swappedGroup.matlab_proxy commaNames "toolbox" "toolbox_wrapper" noAttributes
          laterPass = .ok out
      ∧ m.Pairwise (fun a b => stringLess a.1 b.1 = true)
      ∧ m.Pairwise (fun a b => a.1 < b.1)
      ∧ (∀ e ∈ m, e.2.overloads
          = swappedGroup.overloads.filter (fun q => qualifiedName "" q.namespaces = e.1))
      ∧ out.functionNames
          = laterPass.functionNames ++ (m.flatMap (fun e => e.2.overloads)).enum.map
              (fun x => String.join x.2.namespaces ++ x.2.name ++ "_"
                ++ lexical_cast (toInt (laterPass.functionNames.length + x.1)))
      ∧ (out.mfiles.drop laterPass.mfiles.length).map FileWriter.filename
          = m.map (fun e => e.2.overload1.matlabName "toolbox") :=
  ⟨⟨by decide, by decide⟩,
    buckets_emitted_in_key_order commaNames swappedGroup "toolbox" "toolbox_wrapper"
      noAttributes laterPass (by decide) (by decide)⟩

/-! ## Separators between buckets -/

/-- C17: for every group (three sequences equally long), whose overloads `matlab_proxy`
clusters into the buckets `m`, the chunks appended to the shared wrapper file are the
wrappers of the buckets, one block for each bucket in the order visited and none
containing `endl`, with one `endl` between two consecutive blocks and none after the
last: `m.length - 1` separators, none for a single bucket. The dispatch scripts written
are the scripts of the buckets as `generateSingleFunction` closes them; no separator goes
to them. -/
theorem separators_between_buckets (names : ArgumentList → String) (g : GlobalFunction)
    (toolboxPath wrapperName : String) (typeAttributes : TypeAttributesTable) (p : Pass)
    (h : g.Aligned) :
    ∃ (m : GlobalFunctionMap) (out : Pass) (ess : List (List Slot)),
      cluster g g.overloads 0 [] = .ok m
      ∧ g.matlab_proxy names toolboxPath wrapperName typeAttributes p = .ok out
      ∧ ess.map List.length = m.map (fun e => e.2.overloads.length)
      ∧ (∀ es ∈ ess, Chunk.endl ∉ es.flatMap (Slot.wrapper names typeAttributes))
      ∧ out.file.oss
          = p.file.oss ++ [Chunk.endl].intercalate
              (ess.map (fun es => es.flatMap (Slot.wrapper names typeAttributes)))
      ∧ ((out.file.oss.drop p.file.oss.length).filter Chunk.isEndl).length = m.length - 1
      ∧ out.mfiles
          = p.mfiles ++ List.zipWith
              (fun e es => dispatchScript toolboxPath wrapperName e.2 es) m ess := by
  obtain ⟨m, hrun, _, hbuckets, _, hproxy⟩ :=
    matlab_proxy_eq names g toolboxPath wrapperName typeAttributes p h
  have hsame : ∀ e ∈ m, e.2.argLists.length = e.2.overloads.length
      ∧ e.2.argLists.length ≤ e.2.returnVals.length := by
    intro e he
    obtain ⟨_, h2, h3, _, _⟩ := bucket_facts g h e (hbuckets e he).2
    exact ⟨h2, by omega⟩
  have hlen := allSlots_length_eq m p.functionNames.length
  refine ⟨m, _, allSlots m p.functionNames.length, hrun, hproxy, ?_, ?_, ?_, ?_, rfl⟩
  · rw [allSlots_lengths m _ (fun e he => (hsame e he).2)]
    apply List.map_congr_left
    intro e he
    exact (hsame e he).1
  · intro es _
    exact endl_not_mem_wrappers names typeAttributes es
  · show p.file.oss ++ allWrappers names typeAttributes _ m.length = _
    rw [← hlen, allWrappers_intercalate]
  · show ((List.drop p.file.oss.length
      (p.file.oss ++ allWrappers names typeAttributes _ m.length)).filter _).length = _
    rw [List.drop_left, ← hlen, allWrappers_count_endl]

/-- C17, at the group `bar` of two namespaces: two buckets, one separator. -/
theorem separators_between_buckets_witness :
    barGroup.Aligned
    ∧ ∃ (m : GlobalFunctionMap) (out : Pass) (ess : List (List Slot)),
      cluster barGroup barGroup.overloads 0 [] = .ok m
      ∧ barGroup.matlab_proxy commaNames "toolbox" "toolbox_wrapper" noAttributes laterPass
          = .ok out
      ∧ ess.map List.length = m.map (fun e => e.2.overloads.length)
      ∧ (∀ es ∈ ess, Chunk.endl ∉ es.flatMap (Slot.wrapper commaNames noAttributes))
      ∧ out.file.oss
          = laterPass.file.oss ++ [Chunk.endl].intercalate
              (ess.map (fun es => es.flatMap (Slot.wrapper commaNames noAttributes)))
      ∧ ((out.file.oss.drop laterPass.file.oss.length).filter Chunk.isEndl).length
          = m.length - 1
      ∧ out.mfiles
          = laterPass.mfiles ++ List.zipWith
              (fun e es => dispatchScript "toolbox" "toolbox_wrapper" e.2 es) m ess :=
  ⟨by decide,
    separators_between_buckets commaNames barGroup "toolbox" "toolbox_wrapper" noAttributes
      laterPass (by decide)⟩

/-! ## The arity check -/

/-- C18, as stated, fails: the wrapper of `foo(int)` of namespace `m`, whose fully
qualified name is `m::foo`, checks its arguments under the name `mfoo`. -/
theorem arity_check_name_counterexample :
    Qualified.qualifiedName { namespaces := ["m"], name := "foo" } "::" = "m::foo"
    ∧ ∃ out : Pass,
      fooGroup.matlab_proxy commaNames "toolbox" "toolbox_wrapper" noAttributes freshPass
        = .ok out
      ∧ out.file.oss.take 10
          = [Chunk.text "void ", Chunk.text "mfoo_0",
              Chunk.text "(int nargout, mxArray *out[], int nargin, const mxArray *in[])\n",
              Chunk.text "\x7b\n", Chunk.wrapTypeUnwrap voidReturn,
              Chunk.text "  checkArguments(\"", Chunk.text "mfoo",
              Chunk.text "\",nargout,nargin,", Chunk.size 1, Chunk.text ");\n"]
      ∧ Chunk.text "m::foo" ∉ out.file.oss ∧ Chunk.text "m.foo" ∉ out.file.oss :=
  ⟨by decide, _, rfl, by decide, by decide, by decide⟩

/-- C18, amended: for every group (three sequences equally long, every overload with the
leaf name of the group) and every overload `q` at position `i` of the bucket of index
`j`, the wrapper that `matlab_proxy` writes for it opens with its name (which ends with
the registry index as the `int id` of line 91 holds it), the unwrapping of its return
type and the call `checkArguments` that carries the length of the argument list of `q` as
expected count and, as the name of the function, the namespace segments and leaf name of
`q` run together without delimiter. -/
theorem arity_check_of_wrapper (names : ArgumentList → String)
    (g : GlobalFunction) (toolboxPath wrapperName : String)
    (typeAttributes : TypeAttributesTable) (p : Pass) (h : g.Aligned)
    (hleaf : ∀ q ∈ g.overloads, q.name = g.name) :
    ∃ (m : GlobalFunctionMap) (out : Pass),
      cluster g g.overloads 0 [] = .ok m
      ∧ g.matlab_proxy names toolboxPath wrapperName typeAttributes p = .ok out
      ∧ ∀ (j : Nat) (hj : j < m.length) (i : Nat) (hi : i < (m[j]).2.overloads.length)
          (ha : i < (m[j]).2.argLists.length) (hr : i < (m[j]).2.returnVals.length),
          [Chunk.text "void ",
            Chunk.text (String.join ((m[j]).2.overloads[i]).namespaces
              ++ ((m[j]).2.overloads[i]).name ++ "_"
              ++ lexical_cast (toInt (p.functionNames.length
                  + ((m.take j).map (fun e => e.2.overloads.length)).sum + i))),
            Chunk.text "(int nargout, mxArray *out[], int nargin, const mxArray *in[])\n",
            Chunk.text "\x7b\n", Chunk.wrapTypeUnwrap ((m[j]).2.returnVals[i]),
            Chunk.text "  checkArguments(\"",
            Chunk.text (String.join ((m[j]).2.overloads[i]).namespaces
              ++ ((m[j]).2.overloads[i]).name),
            Chunk.text "\",nargout,nargin,", Chunk.size ((m[j]).2.argLists[i]).length,
            Chunk.text ");\n"]
          <:+: out.file.oss := by
  obtain ⟨m, hrun, hasc, hbuckets, hcover, hproxy⟩ :=
    matlab_proxy_eq names g toolboxPath wrapperName typeAttributes p h
  refine ⟨m, _, hrun, hproxy, ?_⟩
  intro j hj i hi hia hir
  have hall : ∀ e ∈ m, e.2.argLists.length = e.2.overloads.length
      ∧ e.2.argLists.length ≤ e.2.returnVals.length := by
    intro e he
    obtain ⟨_, h2, h3, _, _⟩ := bucket_facts g h e (hbuckets e he).2
    exact ⟨h2, by omega⟩
  have hmem : m[j] ∈ m := List.getElem_mem hj
  have hslot := allSlots_flatten_getElem? m p.functionNames.length j i hj
    (m[j]).2.argLists[i] (m[j]).2.returnVals[i] hall
    (List.getElem?_eq_getElem hia) (List.getElem?_eq_getElem hir)
  have hne : (m[j]).2.overloads ≠ [] := by
    intro hnil; rw [hnil] at hi; simp at hi
  have hname : (m[j]).2.overload1.qualifiedName ""
      = String.join ((m[j]).2.overloads[i]).namespaces ++ ((m[j]).2.overloads[i]).name :=
    (bucket_unique_name g h hleaf m[j] hne (hbuckets m[j] hmem).2 _
      (List.getElem_mem hi)).symm
  have hin := List.getElem?_mem hslot
  have hw := wrapper_infix_allWrappers names typeAttributes _ m.length _ hin
  have hhead := check_infix_wrapper names typeAttributes
    { first := (m[j]).2.overload1, overload := i,
      index := p.functionNames.length
        + ((m.take j).map (fun e => e.2.overloads.length)).sum + i,
      args := (m[j]).2.argLists[i], returnVal := (m[j]).2.returnVals[i] }
  simp only [Slot.wrapFunctionName, hname] at hhead
  exact List.IsInfix.trans hhead
    (List.IsInfix.trans hw (List.suffix_append _ _).isInfix)

/-- C18, amended, at example 1 of the spec and a registry that already holds two
names. -/
theorem arity_check_of_wrapper_witness :
    (fooGroup.Aligned ∧ ∀ q ∈ fooGroup.overloads, q.name = fooGroup.name)
    ∧ ∃ (m : GlobalFunctionMap) (out : Pass),
      cluster fooGroup fooGroup.overloads 0 [] = .ok m
      ∧ fooGroup.matlab_proxy commaNames "toolbox" "toolbox_wrapper" noAttributes laterPass
          = .ok out
      ∧ ∀ (j : Nat) (hj : j < m.length) (i : Nat) (hi : i < (m[j]).2.overloads.length)
          (ha : i < (m[j]).2.argLists.length) (hr : i < (m[j]).2.returnVals.length),
          [Chunk.text "void ",
            Chunk.text (String.join ((m[j]).2.overloads[i]).namespaces
              ++ ((m[j]).2.overloads[i]).name ++ "_"
              ++ lexical_cast (toInt (laterPass.functionNames.length
                  + ((m.take j).map (fun e => e.2.overloads.length)).sum + i))),
            Chunk.text "(int nargout, mxArray *out[], int nargin, const mxArray *in[])\n",
            Chunk.text "\x7b\n", Chunk.wrapTypeUnwrap ((m[j]).2.returnVals[i]),
            Chunk.text "  checkArguments(\"",
            Chunk.text (String.join ((m[j]).2.overloads[i]).namespaces
              ++ ((m[j]).2.overloads[i]).name),
            Chunk.text "\",nargout,nargin,", Chunk.size ((m[j]).2.argLists[i]).length,
            Chunk.text ");\n"]
          <:+: out.file.oss :=
  ⟨⟨by decide, by decide⟩,
    arity_check_of_wrapper commaNames fooGroup "toolbox" "toolbox_wrapper" noAttributes
      laterPass (by decide) (by decide)⟩

/-! ## Buckets are never empty -/

/-- C19: for every group, whenever the first loop of `matlab_proxy` returns its map,
every bucket in it has an overload, so that `overloads.front()` is read
(`vectorFront` returns); `matlab_proxy` never ends in a read that C++ leaves undefined,
and it returns when the three sequences are equally long; for a group without overloads
the map is empty and `matlab_proxy` returns the pass as it was: no script, nothing
written to the wrapper file, the registry unchanged. -/
theorem buckets_have_an_overload (names : ArgumentList → String) (g : GlobalFunction)
    (toolboxPath wrapperName : String) (typeAttributes : TypeAttributesTable) (p : Pass) :
    (∀ m : GlobalFunctionMap, cluster g g.overloads 0 [] = .ok m →
        ∀ e ∈ m, e.2.overloads ≠ [] ∧ vectorFront e.2.overloads = .ok e.2.overload1)
    ∧ g.matlab_proxy names toolboxPath wrapperName typeAttributes p ≠ .error .undefined
    ∧ (g.Aligned →
        ∃ out, g.matlab_proxy names toolboxPath wrapperName typeAttributes p = .ok out)
    ∧ (g.overloads = [] →
        cluster g g.overloads 0 [] = .ok []
        ∧ g.matlab_proxy names toolboxPath wrapperName typeAttributes p = .ok p) := by
  refine ⟨?_, ?_, ?_, ?_⟩
  · intro m hrun e he
    obtain ⟨hne, _⟩ := cluster_buckets_filled g m hrun e he
    refine ⟨hne, ?_⟩
    obtain ⟨first, rest, hfirst⟩ := List.exists_cons_of_ne_nil hne
    simp [vectorFront, GlobalFunction.overload1, hfirst]
  · cases hrun : cluster g g.overloads 0 [] with
    | error e =>
      have he := cluster_error g g.overloads 0 [] e hrun
      subst he
      simp only [matlab_proxy, hrun]
      intro hcon
      cases hcon
    | ok m =>
      simp only [matlab_proxy, hrun]
      show generateAll names toolboxPath wrapperName typeAttributes m m.length p ≠ _
      rw [generateAll_eq names toolboxPath wrapperName typeAttributes m m.length p
        (cluster_buckets_filled g m hrun)]
      intro hcon
      cases hcon
  · intro h
    obtain ⟨m, _, _, _, _, hproxy⟩ :=
      matlab_proxy_eq names g toolboxPath wrapperName typeAttributes p h
    exact ⟨_, hproxy⟩
  · intro hnil
    have hrun : cluster g g.overloads 0 [] = .ok [] := by rw [hnil]; rfl
    refine ⟨hrun, ?_⟩
    simp only [matlab_proxy, hrun]
    rfl

/-- C19, at a group named `foo` that has no overload yet and a registry that already
holds two names: no bucket, and the pass is returned as it was. -/
theorem buckets_have_an_overload_witness :
    (GlobalFunction.new "foo" true).overloads = []
    ∧ cluster (GlobalFunction.new "foo" true) (GlobalFunction.new "foo" true).overloads 0 []
        = .ok []
    ∧ (GlobalFunction.new "foo" true).matlab_proxy commaNames "toolbox" "toolbox_wrapper"
        noAttributes laterPass = .ok laterPass :=
  ⟨rfl,
    (buckets_have_an_overload commaNames (GlobalFunction.new "foo" true) "toolbox"
      "toolbox_wrapper" noAttributes laterPass).2.2.2 rfl⟩

/-! ## A group with a single bucket -/

/-- C20: for every group with at least one overload (three sequences equally long) whose
overloads all have the bucket key `k`, the first loop of `matlab_proxy` makes the single
bucket `(k, g)`, the group itself with its name, verbosity flag and three sequences, and
`matlab_proxy` returns the very pass that `generateSingleFunction` returns when called
on the group: the same dispatch scripts, wrapper file and registry. -/
theorem matlab_proxy_single_bucket (names : ArgumentList → String) (g : GlobalFunction)
    (toolboxPath wrapperName : String) (typeAttributes : TypeAttributesTable) (p : Pass)
    (k : String) (h : g.Aligned) (hne : g.overloads ≠ [])
    (hk : ∀ q ∈ g.overloads, qualifiedName "" q.namespaces = k) :
    cluster g g.overloads 0 [] = .ok [(k, g)]
    ∧ g.matlab_proxy names toolboxPath wrapperName typeAttributes p
        = g.generateSingleFunction names toolboxPath wrapperName typeAttributes p
    ∧ ∃ out : Pass,
        g.generateSingleFunction names toolboxPath wrapperName typeAttributes p = .ok out := by
  have hsingle := cluster_single g h hne k hk
  have hgen := generateSingleFunction_eq names g toolboxPath wrapperName typeAttributes p hne
    (by rw [h.1, h.2])
  refine ⟨hsingle, ?_, _, hgen⟩
  simp only [matlab_proxy, hsingle]
  show generateAll names toolboxPath wrapperName typeAttributes [(k, g)] 1 p = _
  simp only [generateAll, hgen]
  rfl

/-- C20, at example 1 of the spec and a registry that already holds two names. -/
theorem matlab_proxy_single_bucket_witness :
    (fooGroup.Aligned ∧ fooGroup.overloads ≠ []
      ∧ ∀ q ∈ fooGroup.overloads, qualifiedName "" q.namespaces = "m")
    ∧ cluster fooGroup fooGroup.overloads 0 [] = .ok [("m", fooGroup)]
    ∧ fooGroup.matlab_proxy commaNames "toolbox" "toolbox_wrapper" noAttributes laterPass
        = fooGroup.generateSingleFunction commaNames "toolbox" "toolbox_wrapper" noAttributes
            laterPass
    ∧ ∃ out : Pass,
        fooGroup.generateSingleFunction commaNames "toolbox" "toolbox_wrapper" noAttributes
          laterPass = .ok out :=
  ⟨⟨by decide, by decide, by decide⟩,
    matlab_proxy_single_bucket commaNames fooGroup "toolbox" "toolbox_wrapper" noAttributes
      laterPass "m" (by decide) (by decide) (by decide)⟩

end wrap
